import Mathlib

/-!
# Verification of the Companion deadline deduplication / reconciliation engine

This file gives a shallow embedding, in Lean 4, of the deadline-deduplication
and source-reconciliation core of the Companion server:

* `apps/server/src/deadline-dedup.ts` (similarity engine, union-find grouping,
  canonical selection, merge previews),
* `apps/server/src/tp-exam-deadline-bridge.ts` (calendar-exam bridge),
* the GitHub README import module (`parseGitHubCourseDeadlinesFromReadme`,
  `upsertImportedDeadline`, `autoImportTpGithubDeadlines`).

JavaScript strings are embedded as `String` processed through `List Char`;
`Date.parse` / `Date.UTC` / `toISOString` are embedded by exact civil-calendar
arithmetic on epoch milliseconds; floating-point score arithmetic is embedded
by exact rational arithmetic (`Frac`, kept unreduced so every comparison is
kernel-computable).  The entity store (`store.ts`, not part of the sources
verified here) is modelled from the specification.

Theorems at the end of the file settle the frozen claims C1–C10.
-/

namespace Companion

/-! ## Character and string primitives (ASCII semantics of the JS code) -/

def isDigitChar (c : Char) : Bool := 48 ≤ c.toNat && c.toNat ≤ 57

def isUpperChar (c : Char) : Bool := 65 ≤ c.toNat && c.toNat ≤ 90

def isLowerChar (c : Char) : Bool := 97 ≤ c.toNat && c.toNat ≤ 122

def isAlphaChar (c : Char) : Bool := isUpperChar c || isLowerChar c

def isAlnumChar (c : Char) : Bool := isAlphaChar c || isDigitChar c

/-- JS `\w`: ASCII letters, digits and underscore. -/
def isWordChar (c : Char) : Bool := isAlnumChar c || c.toNat = 95

/-- JS `\s` restricted to the characters occurring in this code base. -/
def isSpaceChar (c : Char) : Bool :=
  c.toNat = 32 || c.toNat = 9 || c.toNat = 10 || c.toNat = 13 ||
  c.toNat = 11 || c.toNat = 12 || c.toNat = 160

def toLowerChar (c : Char) : Char :=
  if isUpperChar c then Char.ofNat (c.toNat + 32) else c

def toUpperChar (c : Char) : Char :=
  if isLowerChar c then Char.ofNat (c.toNat - 32) else c

def lowerStr (s : String) : String := String.mk (s.data.map toLowerChar)

def upperStr (s : String) : String := String.mk (s.data.map toUpperChar)

/-- Digit value of an ASCII digit character. -/
def digitVal (c : Char) : Nat := c.toNat - 48

/-- Numeric value of a digit string (used for regex capture groups). -/
def digitsVal (cs : List Char) : Nat := cs.foldl (fun a c => a * 10 + digitVal c) 0

/-- `xs` occurs as a contiguous substring of `ys` (JS `String.prototype.includes`). -/
def listInfix (xs : List Char) : List Char → Bool
  | [] => xs.isEmpty
  | c :: cs => (xs.isPrefixOf (c :: cs)) || listInfix xs cs

/-- JS `left.includes(right)`. -/
def strIncludes (l r : String) : Bool := listInfix r.data l.data

/-- Case-insensitive match of the literal `pat` at the head of `cs`;
returns the remaining suffix. -/
def matchLitCI : List Char → List Char → Option (List Char)
  | [], cs => some cs
  | _, [] => none
  | p :: ps, c :: cs =>
    if toLowerChar c = toLowerChar p then matchLitCI ps cs else none

/-- Collapse runs of JS whitespace to single spaces (the `\s+` → `" "` replace);
`inRun` records whether the previous character was whitespace. -/
def collapseWsGo : Bool → List Char → List Char
  | _, [] => []
  | inRun, c :: cs =>
    if isSpaceChar c then
      if inRun then collapseWsGo true cs else ' ' :: collapseWsGo true cs
    else c :: collapseWsGo false cs

def collapseWs (cs : List Char) : List Char := collapseWsGo false cs

/-- JS `String.prototype.trim` (over the whitespace class used here). -/
def trimStr (cs : List Char) : List Char :=
  ((cs.dropWhile isSpaceChar).reverse.dropWhile isSpaceChar).reverse

/-! ## Exact fractions (embedding of JS floating-point score arithmetic)

The similarity engine combines scores with `*`, `+`, `/` and compares them to
decimal literals.  We embed these computations with exact rational arithmetic
kept in unreduced `num/den` form (`den` is positive by construction at every
use site), so that all comparisons are kernel-computable without gcd. -/

structure Frac where
  num : Int
  den : Nat
  deriving DecidableEq, Repr

def Frac.ofInt (n : Int) : Frac := ⟨n, 1⟩

def Frac.add (a b : Frac) : Frac := ⟨a.num * b.den + b.num * a.den, a.den * b.den⟩

def Frac.mul (a b : Frac) : Frac := ⟨a.num * b.num, a.den * b.den⟩

def Frac.sub (a b : Frac) : Frac := ⟨a.num * b.den - b.num * a.den, a.den * b.den⟩

/-- `a ≤ b` as rationals (dens positive at every use site). -/
def Frac.fle (a b : Frac) : Bool := a.num * b.den ≤ b.num * a.den

def Frac.flt (a b : Frac) : Bool := a.num * b.den < b.num * a.den

/-- `Math.max(0, x)`. -/
def Frac.max0 (a : Frac) : Frac := if a.fle ⟨0, 1⟩ then ⟨0, 1⟩ else a

/-- Equality as rational numbers. -/
def Frac.feq (a b : Frac) : Bool := a.num * b.den = b.num * a.den

/-! ## The JS date model

`Date.parse` on the ISO-8601 profile used throughout the repository
(`YYYY-MM-DD` optionally followed by `THH:MM[:SS[.mmm]]Z`), `Date.UTC`
(including its mapping of years 0–99 to 1900–1999 and its day-of-month
rollover), and `Date.prototype.toISOString`.  All computations are over epoch
milliseconds (`Int`). -/

namespace JsDate

/-- Days from civil date (proleptic Gregorian), Howard Hinnant's algorithm,
with mathematical floor division (Lean `Int` division by a positive divisor). -/
def daysFromCivil (y : Int) (m : Nat) (d : Int) : Int :=
  let y2 : Int := if m ≤ 2 then y - 1 else y
  let era : Int := y2 / 400
  let yoe : Int := y2 - era * 400
  let mp : Nat := (m + 9) % 12
  let doy : Int := ((153 * mp + 2) / 5 : Nat) + d - 1
  let doe : Int := yoe * 365 + yoe / 4 - yoe / 100 + doy
  era * 146097 + doe - 719468

/-- Civil date from days since the epoch (inverse of `daysFromCivil`). -/
def civilFromDays (z0 : Int) : Int × Int × Int :=
  let z : Int := z0 + 719468
  let era : Int := z / 146097
  let doe : Int := z - era * 146097
  let yoe : Int := (doe - doe / 1460 + doe / 36524 - doe / 146096) / 365
  let y : Int := yoe + era * 400
  let doy : Int := doe - (365 * yoe + yoe / 4 - yoe / 100)
  let mp : Int := (5 * doy + 2) / 153
  let d : Int := doy - (153 * mp + 2) / 5 + 1
  let m : Int := if mp < 10 then mp + 3 else mp - 9
  (y + (if m ≤ 2 then 1 else 0), m, d)

def msPerDay : Int := 86400000

def msPerHour : Int := 3600000

def msPerMinute : Int := 60000

/-- `Date.UTC(year, month0, day, hour, minute)` in ms: years 0–99 mean
1900–1999; an out-of-range day-of-month rolls over arithmetically. -/
def dateUTC (year : Nat) (month0 : Nat) (day : Nat) (hour : Nat) (minute : Nat) : Int :=
  let y : Int := if year ≤ 99 then 1900 + year else year
  (daysFromCivil y (month0 + 1) 1 + (day - 1 : Int)) * msPerDay +
    hour * msPerHour + minute * msPerMinute

def isLeapYear (y : Int) : Bool := y % 4 = 0 && (y % 100 ≠ 0 || y % 400 = 0)

def daysInMonth (y : Int) (m : Nat) : Nat :=
  if m = 2 then (if isLeapYear y then 29 else 28)
  else if m = 4 || m = 6 || m = 9 || m = 11 then 30
  else 31

/-- Take exactly `n` ASCII digits from the head of `cs`. -/
def takeDigits : Nat → List Char → Option (Nat × List Char)
  | 0, cs => some (0, cs)
  | _ + 1, [] => none
  | n + 1, c :: cs =>
    if isDigitChar c then
      match takeDigits n cs with
      | some (v, rest) => some (digitVal c * 10 ^ n + v, rest)
      | none => none
    else none

def expectChar (c : Char) : List Char → Option (List Char)
  | [] => none
  | x :: xs => if x = c then some xs else none

/-- Optional `":SS[.mmm]"` tail of an ISO time. -/
def parseIsoSeconds : List Char → Option (Nat × Nat × List Char)
  | cs =>
    match expectChar ':' cs with
    | none => some (0, 0, cs)
    | some cs1 =>
      match takeDigits 2 cs1 with
      | none => none
      | some (ss, cs2) =>
        match expectChar '.' cs2 with
        | none => some (ss, 0, cs2)
        | some cs3 =>
          match takeDigits 3 cs3 with
          | none => none
          | some (ms, cs4) => some (ss, ms, cs4)

/-- `Date.parse` on the ISO profile used by this repository.  Strings outside
the profile are unparseable (`none`, modelling `NaN`). -/
def parseIso (s : String) : Option Int :=
  match takeDigits 4 s.data with
  | none => none
  | some (y, r1) =>
    match expectChar '-' r1 with
    | none => none
    | some r2 =>
      match takeDigits 2 r2 with
      | none => none
      | some (mo, r3) =>
        match expectChar '-' r3 with
        | none => none
        | some r4 =>
          match takeDigits 2 r4 with
          | none => none
          | some (d, r5) =>
            if 1 ≤ mo ∧ mo ≤ 12 ∧ 1 ≤ d ∧ d ≤ daysInMonth y mo then
              match r5 with
              | [] => some (daysFromCivil y mo d * msPerDay)
              | 'T' :: r6 =>
                match takeDigits 2 r6 with
                | none => none
                | some (hh, r7) =>
                  match expectChar ':' r7 with
                  | none => none
                  | some r8 =>
                    match takeDigits 2 r8 with
                    | none => none
                    | some (mi, r9) =>
                      match parseIsoSeconds r9 with
                      | none => none
                      | some (ss, ms, r10) =>
                        if hh ≤ 23 ∧ mi ≤ 59 ∧ ss ≤ 59 ∧ r10 = ['Z'] then
                          some (daysFromCivil y mo d * msPerDay +
                            hh * msPerHour + mi * msPerMinute + ss * 1000 + ms)
                        else none
              | _ => none
            else none

/-- Left-pad the decimal representation of `n` to `width` digits. -/
def padNum (width : Nat) (n : Int) : List Char :=
  let rec digits : Nat → Nat → List Char
    | 0, _ => []
    | k + 1, v => digits k (v / 10) ++ [Char.ofNat (48 + v % 10)]
  digits width n.toNat

/-- `Date.prototype.toISOString` for the epoch-ms range printed with a
four-digit year. -/
def toISOString (t : Int) : String :=
  let days : Int := t / msPerDay
  let msInDay : Int := t - days * msPerDay
  let c := civilFromDays days
  let hh : Int := msInDay / msPerHour
  let mi : Int := (msInDay - hh * msPerHour) / msPerMinute
  let ss : Int := (msInDay - hh * msPerHour - mi * msPerMinute) / 1000
  let ms : Int := msInDay % 1000
  String.mk (padNum 4 c.1 ++ '-' :: padNum 2 c.2.1 ++ '-' :: padNum 2 c.2.2 ++
    'T' :: padNum 2 hh ++ ':' :: padNum 2 mi ++ ':' :: padNum 2 ss ++
    '.' :: padNum 3 ms ++ ['Z'])

end JsDate

/-! ## Stable sorting with a JS comparator

`Array.prototype.sort` with a consistent comparator produces the unique
stable order; we embed it as stable insertion sort. -/

def insertCmp {α : Type} (cmp : α → α → Int) (x : α) : List α → List α
  | [] => [x]
  | y :: ys => if cmp x y ≤ 0 then x :: y :: ys else y :: insertCmp cmp x ys

def stableSortBy {α : Type} (cmp : α → α → Int) : List α → List α
  | [] => []
  | x :: xs => insertCmp cmp x (stableSortBy cmp xs)

/-- Lexicographic string comparison (embedding of `localeCompare` on the
ASCII identifiers it is applied to). -/
def strCompareL : List Char → List Char → Int
  | [], [] => 0
  | [], _ :: _ => -1
  | _ :: _, [] => 1
  | a :: as, b :: bs =>
    if a.toNat < b.toNat then -1
    else if b.toNat < a.toNat then 1
    else strCompareL as bs

def localeCompare (l r : String) : Int := strCompareL l.data r.data

def natDigits : Nat → Nat → List Char
  | 0, _ => []
  | _ + 1, 0 => []
  | fuel + 1, n => natDigits fuel (n / 10) ++ [Char.ofNat (48 + n % 10)]

def natToStr (n : Nat) : String := if n = 0 then "0" else String.mk (natDigits (n + 1) n)

def intToStr (n : Int) : String :=
  if n < 0 then "-" ++ natToStr n.natAbs else natToStr n.natAbs

/-! ## Entity model (`types.ts` is summarized by the spec's data model) -/

inductive Priority
  | low
  | medium
  | high
  | critical
  deriving DecidableEq, Repr

inductive DeadlineSource
  | manual
  | canvas
  | github
  deriving DecidableEq, Repr

/-- The canonical `Deadline` entity: `id`, `course`, `task`, user-visible
`dueDate`, optional feed-reported `sourceDueDate`, `priority`, `completed`,
optional `canvasAssignmentId`. -/
structure Deadline where
  id : String
  course : String
  task : String
  dueDate : String
  sourceDueDate : Option String
  priority : Priority
  completed : Bool
  canvasAssignmentId : Option Int
  deriving DecidableEq, Repr

/-! ## `deadline-dedup.ts` -/

namespace Dedup

def STOP_WORDS : List String :=
  ["assignment", "assignments", "lab", "project", "task", "due",
   "submission", "report", "part", "week"]

def PRIORITY_RANK : Priority → Nat
  | .low => 1
  | .medium => 2
  | .high => 3
  | .critical => 4

def SOURCE_RANK : DeadlineSource → Nat
  | .github => 1
  | .canvas => 2
  | .manual => 3

def inferDeadlineSource (deadline : Deadline) : DeadlineSource :=
  if deadline.canvasAssignmentId.isSome then .canvas
  else if "github-".data.isPrefixOf deadline.id.data then .github
  else .manual

/-- First match of `/[A-Z]{3}\d{3}/` (no word boundaries). -/
def codeAt3 : List Char → Option (List Char)
  | a :: b :: c :: d :: e :: f :: _ =>
    if isUpperChar a && isUpperChar b && isUpperChar c &&
       isDigitChar d && isDigitChar e && isDigitChar f
    then some [a, b, c, d, e, f] else none
  | _ => none

def findCode3 : List Char → Option (List Char)
  | [] => none
  | c :: cs =>
    match codeAt3 (c :: cs) with
    | some r => some r
    | none => findCode3 cs

def normalizeCourseKey (course : String) : String :=
  let upper := (upperStr course).data
  match findCode3 upper with
  | some code => String.mk code
  | none => String.mk (upper.filter isAlnumChar)

def isLowerAlnumChar (c : Char) : Bool := isLowerChar c || isDigitChar c

def normalizeTask (task : String) : String :=
  let lowered := task.data.map toLowerChar
  let replaced := lowered.map (fun c => if isLowerAlnumChar c || isSpaceChar c then c else ' ')
  String.mk (trimStr (collapseWs replaced))

def splitOnSpace : List Char → List Char → List String
  | acc, [] => [String.mk acc.reverse]
  | acc, c :: cs =>
    if c = ' ' then String.mk acc.reverse :: splitOnSpace [] cs
    else splitOnSpace (c :: acc) cs

def tokenizeTask (task : String) : List String :=
  (splitOnSpace [] (normalizeTask task).data).filter
    (fun token => decide (1 < token.data.length) && !(STOP_WORDS.contains token))

def jaccardSimilarity (left right : List String) : Frac :=
  if left.length = 0 ∨ right.length = 0 then ⟨0, 1⟩
  else
    let leftSet := left.eraseDups
    let rightSet := right.eraseDups
    let intersection := (leftSet.filter (fun t => rightSet.contains t)).length
    let union := leftSet.length + rightSet.length - intersection
    if 0 < union then ⟨intersection, union⟩ else ⟨0, 1⟩

def taskSimilarity (leftTask rightTask : String) : Frac :=
  let left := normalizeTask leftTask
  let right := normalizeTask rightTask
  if left = "" ∨ right = "" then ⟨0, 1⟩
  else if left = right then ⟨1, 1⟩
  else if (strIncludes left right || strIncludes right left) &&
          decide (8 ≤ min left.data.length right.data.length) then ⟨9, 10⟩
  else jaccardSimilarity (tokenizeTask left) (tokenizeTask right)

/-- `Infinity` is `none`. -/
def dueDateDistanceDays (leftDueDate rightDueDate : String) : Option Frac :=
  match JsDate.parseIso leftDueDate, JsDate.parseIso rightDueDate with
  | some l, some r => some ⟨(l - r).natAbs, 86400000⟩
  | _, _ => none

structure DuplicateSignal where
  isDuplicate : Bool
  score : Frac
  taskScore : Frac
  dueDistanceDays : Option Frac
  courseKey : String
  deriving DecidableEq, Repr

def evaluateDuplicateSignal (left right : Deadline) : DuplicateSignal :=
  let leftCourse := normalizeCourseKey left.course
  let rightCourse := normalizeCourseKey right.course
  if leftCourse = "" ∨ rightCourse = "" ∨ leftCourse ≠ rightCourse then
    { isDuplicate := false, score := ⟨0, 1⟩, taskScore := ⟨0, 1⟩,
      dueDistanceDays := none,
      courseKey := if leftCourse ≠ "" then leftCourse else rightCourse }
  else
    match dueDateDistanceDays left.dueDate right.dueDate with
    | none =>
      { isDuplicate := false, score := ⟨0, 1⟩, taskScore := ⟨0, 1⟩,
        dueDistanceDays := none, courseKey := leftCourse }
    | some dist =>
      if Frac.flt ⟨2, 1⟩ dist then
        { isDuplicate := false, score := ⟨0, 1⟩, taskScore := ⟨0, 1⟩,
          dueDistanceDays := some dist, courseKey := leftCourse }
      else
        let taskScore := taskSimilarity left.task right.task
        let dueScore := Frac.max0 (Frac.sub ⟨1, 1⟩ ⟨dist.num, dist.den * 2⟩)
        let score := Frac.add (Frac.mul taskScore ⟨7, 10⟩) (Frac.mul dueScore ⟨3, 10⟩)
        { isDuplicate := Frac.fle ⟨45, 100⟩ taskScore && Frac.fle ⟨58, 100⟩ score,
          score := score, taskScore := taskScore,
          dueDistanceDays := some dist, courseKey := leftCourse }

/-! ### Union-find (`find` / `union` with path compression)

The source recursion is embedded with explicit fuel (`parent.length` at every
call site); under the forest invariant maintained by the algorithm this fuel
is never exhausted, so the embedding computes exactly the source's values. -/

def ufFind : Nat → List Nat → Nat → List Nat × Nat
  | 0, p, v => (p, v)
  | fuel + 1, p, v =>
    match p.get? v with
    | none => ufFind fuel p v
    | some pv =>
      if pv = v then (p, v)
      else
        let res := ufFind fuel p pv
        (res.1.set v res.2, res.2)

def ufUnion (p : List Nat) (left right : Nat) : List Nat :=
  let f1 := ufFind p.length p left
  let f2 := ufFind f1.1.length f1.1 right
  if f1.2 ≠ f2.2 then f2.1.set f2.2 f1.2 else f2.1

/-! ### Canonical selection and merge previews -/

structure DedupDeadlineMember extends Deadline where
  source : DeadlineSource
  deriving DecidableEq, Repr

def compareCanonicalCandidates (left right : DedupDeadlineMember) : Int :=
  if left.completed ≠ right.completed then (if left.completed then -1 else 1)
  else
    let sourceDiff : Int := (SOURCE_RANK right.source : Int) - SOURCE_RANK left.source
    if sourceDiff ≠ 0 then sourceDiff
    else
      let priorityDiff : Int := (PRIORITY_RANK right.priority : Int) - PRIORITY_RANK left.priority
      if priorityDiff ≠ 0 then priorityDiff
      else
        match JsDate.parseIso left.dueDate, JsDate.parseIso right.dueDate with
        | some l, some r =>
          if l - r ≠ 0 then l - r else localeCompare left.id right.id
        | _, _ => localeCompare left.id right.id

def highestPriority (deadlines : List DedupDeadlineMember) : Priority :=
  deadlines.foldl
    (fun current deadline =>
      if PRIORITY_RANK current < PRIORITY_RANK deadline.priority then deadline.priority
      else current)
    .low

def dueKeyMs (d : String) : Int := (JsDate.parseIso d).getD 0

def earliestDueDate (deadlines : List DedupDeadlineMember) (fallback : String) : String :=
  let valid := (deadlines.map (·.dueDate)).filter (fun d => (JsDate.parseIso d).isSome)
  (stableSortBy (fun l r => dueKeyMs l - dueKeyMs r) valid).headD fallback

def fracCeil (f : Frac) : Int := -((-f.num) / (f.den : Int))

def buildReason (courseKey : String) (members : List DedupDeadlineMember)
    (maxDueDistanceDays : Option Frac) : String :=
  let withinWindow :=
    match maxDueDistanceDays with
    | some d =>
      if Frac.flt d ⟨1, 4⟩ then "same due day"
      else "due dates within " ++ intToStr (fracCeil d) ++ " day(s)"
    | none => "due dates within Infinity day(s)"
  natToStr members.length ++ " deadlines appear duplicated for " ++ courseKey ++
    "; tasks are textually similar with " ++ withinWindow ++ "."

/-- One step of the `maxDueDistanceDays` reduce (`none` is `Infinity`). -/
def dmaxStep (mx d : Option Frac) : Option Frac :=
  match d, mx with
  | none, _ => none
  | some _, none => none
  | some dv, some mv => if Frac.flt mv dv then some dv else some mv

inductive MergeConfidence
  | high
  | medium
  deriving DecidableEq, Repr

structure MergePreview where
  course : String
  task : String
  dueDate : String
  priority : Priority
  completed : Bool
  deriving DecidableEq, Repr

structure DeadlineMergeSuggestion where
  canonicalId : String
  canonicalSource : DeadlineSource
  duplicateIds : List String
  confidence : MergeConfidence
  score : Frac
  reason : String
  mergedPreview : MergePreview
  members : List DedupDeadlineMember
  deriving DecidableEq, Repr

/-- `Number(x.toFixed(3))` on the nonnegative scores used here. -/
def roundTo3 (f : Frac) : Frac := ⟨(2000 * f.num + f.den) / (2 * (f.den : Int)), 1000⟩

def addToGroup (acc : List (Nat × List DedupDeadlineMember)) (root : Nat)
    (m : DedupDeadlineMember) : List (Nat × List DedupDeadlineMember) :=
  match acc with
  | [] => [(root, [m])]
  | (k, ms) :: rest =>
    if k = root then (k, ms ++ [m]) :: rest else (k, ms) :: addToGroup rest root m

/-- The `i < j` index pairs of the pairwise-comparison double loop, in loop
order. -/
def dupPairs (n : Nat) : List (Nat × Nat) :=
  (List.range n).flatMap (fun i => ((List.range n).drop (i + 1)).map (fun j => (i, j)))

def buildParent (members : List DedupDeadlineMember) : List Nat :=
  (dupPairs members.length).foldl
    (fun p ij =>
      match members.get? ij.1, members.get? ij.2 with
      | some mi, some mj =>
        if (evaluateDuplicateSignal mi.toDeadline mj.toDeadline).isDuplicate then
          ufUnion p ij.1 ij.2
        else p
      | _, _ => p)
    (List.range members.length)

/-- The `groups` map (`Map<number, members[]>` in key-insertion order), with
the path-compressed parent threaded through the index loop. -/
def collectGroups (members : List DedupDeadlineMember) (parent : List Nat) :
    List Nat × List (Nat × List DedupDeadlineMember) :=
  members.enum.foldl
    (fun st im =>
      let f := ufFind st.1.length st.1 im.1
      (f.1, addToGroup st.2 f.2 im.2))
    (parent, [])

def buildSuggestion (groupMembers : List DedupDeadlineMember) :
    Option DeadlineMergeSuggestion :=
  if groupMembers.length < 2 then none
  else
    match stableSortBy compareCanonicalCandidates groupMembers with
    | [] => none
    | canonical :: duplicates =>
      let sorted := canonical :: duplicates
      let pairSignals :=
        duplicates.map (fun m => evaluateDuplicateSignal canonical.toDeadline m.toDeadline)
      let sum := pairSignals.foldl (fun s sig => Frac.add s sig.score) ⟨0, 1⟩
      let averageScore := Frac.mul sum ⟨1, max 1 pairSignals.length⟩
      let maxDueDistanceDays :=
        pairSignals.foldl (fun mx sig => dmaxStep mx sig.dueDistanceDays) (some ⟨0, 1⟩)
      some
        { canonicalId := canonical.id
          canonicalSource := canonical.source
          duplicateIds := duplicates.map (·.id)
          confidence := if Frac.fle ⟨8, 10⟩ averageScore then .high else .medium
          score := roundTo3 averageScore
          reason := buildReason (normalizeCourseKey canonical.course) sorted maxDueDistanceDays
          mergedPreview :=
            { course := canonical.course
              task := canonical.task
              dueDate := earliestDueDate sorted canonical.dueDate
              priority := highestPriority sorted
              completed := sorted.any (·.completed) }
          members := sorted }

def suggestionCmp (l r : DeadlineMergeSuggestion) : Int :=
  if l.confidence ≠ r.confidence then (if l.confidence = .high then -1 else 1)
  else if r.duplicateIds.length ≠ l.duplicateIds.length then
    (r.duplicateIds.length : Int) - l.duplicateIds.length
  else if Frac.feq r.score l.score then 0
  else if Frac.flt l.score r.score then 1
  else -1

def generateDeadlineMergeSuggestions (deadlines : List Deadline) :
    List DeadlineMergeSuggestion :=
  if deadlines.length < 2 then []
  else
    let members := deadlines.map
      (fun d => { toDeadline := d, source := inferDeadlineSource d : DedupDeadlineMember })
    let parent := buildParent members
    let groups := (collectGroups members parent).2
    let suggestions := (groups.map Prod.snd).filterMap buildSuggestion
    stableSortBy suggestionCmp suggestions

end Dedup

/-! ## Collaborators of the bridges -/

/-- Modelled from the spec: the calendar events consumed by the exam bridge
(`calendar-import.ts` is not among the verified sources); §6 gives a
calendar-event list with `summary`, `startTime` and an optional
`description`. -/
structure ImportedCalendarEvent where
  summary : String
  startTime : String
  description : Option String
  deriving DecidableEq, Repr

/-- Modelled from the spec: the Entity Store (`store.ts` is not among the
verified sources).  §6: `list(userId, now, includeCompleted) -> Deadline[]`,
`create(userId, fields) -> Deadline` and
`update(userId, id, partialFields) -> Deadline | null` (null signals "not
found").  One user's deadlines are held in a list; `create` assigns a fresh
opaque id and appends; `update` merges the provided fields into the record
with the given id. -/
structure Store where
  deadlines : List Deadline
  nextId : Nat
  deriving DecidableEq, Repr

/-- The field set passed to `createDeadline` by the bridges. -/
structure DeadlineFields where
  course : String
  task : String
  dueDate : String
  sourceDueDate : Option String
  priority : Priority
  completed : Bool
  deriving DecidableEq, Repr

/-- Partial fields of an `updateDeadline` call (`none` = field not given). -/
structure DeadlinePatch where
  course : Option String
  task : Option String
  dueDate : Option String
  sourceDueDate : Option String
  priority : Option Priority
  deriving DecidableEq, Repr

def applyPatch (d : Deadline) (p : DeadlinePatch) : Deadline :=
  { d with
    course := p.course.getD d.course
    task := p.task.getD d.task
    dueDate := p.dueDate.getD d.dueDate
    sourceDueDate := match p.sourceDueDate with
      | some s => some s
      | none => d.sourceDueDate
    priority := p.priority.getD d.priority }

def Store.createDeadline (st : Store) (fields : DeadlineFields) : Deadline × Store :=
  let d : Deadline :=
    { id := "deadline-" ++ natToStr st.nextId
      course := fields.course
      task := fields.task
      dueDate := fields.dueDate
      sourceDueDate := fields.sourceDueDate
      priority := fields.priority
      completed := fields.completed
      canvasAssignmentId := none }
  (d, { deadlines := st.deadlines ++ [d], nextId := st.nextId + 1 })

def updateDeadlineGo (id : String) (patch : DeadlinePatch) :
    List Deadline → Option Deadline × List Deadline
  | [] => (none, [])
  | d :: ds =>
    if d.id = id then (some (applyPatch d patch), applyPatch d patch :: ds)
    else
      let r := updateDeadlineGo id patch ds
      (r.1, d :: r.2)

def Store.updateDeadline (st : Store) (id : String) (patch : DeadlinePatch) :
    Option Deadline × Store :=
  let r := updateDeadlineGo id patch st.deadlines
  (r.1, { st with deadlines := r.2 })

def Store.getDeadlines (st : Store) (includeCompleted : Bool) : List Deadline :=
  if includeCompleted then st.deadlines
  else st.deadlines.filter (fun d => !d.completed)

/-- The in-run snapshot update
`existingDeadlines[existingDeadlines.findIndex(d => d.id === u.id)] = u`. -/
def replaceById (l : List Deadline) (u : Deadline) : List Deadline :=
  match l.findIdx? (fun d => d.id == u.id) with
  | some i => l.set i u
  | none => l

/-! ## Shared regex scanners of the bridge modules -/

/-- Collapse each maximal run of characters matched by `p` into a single
space (`replace(/CLASS+/g, " ")`). -/
def collapseRuns (p : Char → Bool) : Bool → List Char → List Char
  | _, [] => []
  | inRun, c :: cs =>
    if p c then
      if inRun then collapseRuns p true cs else ' ' :: collapseRuns p true cs
    else c :: collapseRuns p false cs

/-- `value.toLowerCase().replace(/[^a-z0-9]+/g, " ").replace(/\s+/g, " ").trim()`
(shared by both bridges as `normalizeTextKey`). -/
def normalizeTextKey (value : String) : String :=
  String.mk (trimStr (collapseRuns (fun c => !Dedup.isLowerAlnumChar c) false
    (value.data.map toLowerChar)))

/-- Exactly `n` uppercase ASCII letters from the head of `cs`. -/
def takeUppers : Nat → List Char → Option (List Char × List Char)
  | 0, cs => some ([], cs)
  | _ + 1, [] => none
  | n + 1, c :: cs =>
    if isUpperChar c then
      match takeUppers n cs with
      | some (ls, rest) => some (c :: ls, rest)
      | none => none
    else none

def takeDigitChars : Nat → List Char → Option (List Char × List Char)
  | 0, cs => some ([], cs)
  | _ + 1, [] => none
  | n + 1, c :: cs =>
    if isDigitChar c then
      match takeDigitChars n cs with
      | some (ds, rest) => some (c :: ds, rest)
      | none => none
    else none

def headNotWord (cs : List Char) : Bool :=
  match cs with
  | [] => true
  | c :: _ => !isWordChar c

/-- `[A-Z]{len}\d{3}\b` at the current position, returning the match and the
suffix after it. -/
def tryCodeLen (len : Nat) (cs : List Char) : Option (List Char × List Char) :=
  match takeUppers len cs with
  | none => none
  | some (ls, rest) =>
    match takeDigitChars 3 rest with
    | none => none
    | some (ds, rest2) =>
      if headNotWord rest2 then some (ls ++ ds, rest2) else none

def tryCodeLens (lens : List Nat) (cs : List Char) : Option (List Char × List Char) :=
  match lens with
  | [] => none
  | l :: ls =>
    match tryCodeLen l cs with
    | some r => some r
    | none => tryCodeLens ls cs

/-- First match of `\b[A-Z]{a..b}\d{3}\b` (`prevW` = previous character is a
word character). -/
def codeScanFirst (lens : List Nat) : Bool → List Char → Option (List Char)
  | _, [] => none
  | prevW, c :: cs =>
    match if prevW then none else tryCodeLens lens (c :: cs) with
    | some r => some r.1
    | none => codeScanFirst lens (isWordChar c) cs

/-- All matches of the global variant, in order (non-overlapping, scanning
resumes after each match). -/
def codeScanAll (lens : List Nat) : Nat → Bool → List Char → List (List Char)
  | 0, _, _ => []
  | _ + 1, _, [] => []
  | fuel + 1, prevW, c :: cs =>
    match if prevW then none else tryCodeLens lens (c :: cs) with
    | some r => r.1 :: codeScanAll lens fuel true r.2
    | none => codeScanAll lens fuel (isWordChar c) cs

/-- Word-boundary keyword test `\b(k1|…|kn)\b` (case-insensitive). -/
def keywordTest (keywords : List (List Char)) : Bool → List Char → Bool
  | _, [] => false
  | prevW, c :: cs =>
    let hit :=
      !prevW &&
      keywords.any (fun k =>
        match matchLitCI k (c :: cs) with
        | some rest => headNotWord rest
        | none => false)
    hit || keywordTest keywords (isWordChar c) cs

/-! ## `tp-exam-deadline-bridge.ts` -/

namespace TPBridge

/-- `/\b(exam(?:en)?|eksamen|midterm|final|wiseflow)\b/i.test` -/
def examKeywordTest (s : String) : Bool :=
  keywordTest
    ["exam".data, "examen".data, "eksamen".data, "midterm".data, "final".data,
     "wiseflow".data] false s.data

/-- First match of `/\b[A-Z]{2,5}\d{3}\b/` on the uppercased summary. -/
def extractCourseCode (summary : String) : Option String :=
  (codeScanFirst [5, 4, 3, 2] false (upperStr summary).data).map String.mk

def toTitleCaseSentence (value : String) : String :=
  match value.data with
  | [] => value
  | c :: cs => String.mk (toUpperChar c :: cs)

/-- One step of `summary.replace(new RegExp("\\b" + code + "\\b", "ig"), " ")`. -/
def replaceCodeCI (code : List Char) : Nat → Bool → List Char → List Char
  | 0, _, _ => []
  | _ + 1, _, [] => []
  | fuel + 1, prevW, c :: cs =>
    match if prevW then none else matchLitCI code (c :: cs) with
    | some rest =>
      if headNotWord rest then ' ' :: replaceCodeCI code fuel true rest
      else c :: replaceCodeCI code fuel (isWordChar c) cs
    | none => c :: replaceCodeCI code fuel (isWordChar c) cs

def buildExamTaskLabel (summary : String) (courseCode : String) : String :=
  let replaced := replaceCodeCI courseCode.data (summary.data.length + 1) false summary.data
  let withoutCode := trimStr (collapseWs replaced)
  if withoutCode.isEmpty then "Exam" else toTitleCaseSentence (String.mk withoutCode)

def inferPriorityFromDueDate (dueDate : String) (now : Int) : Priority :=
  match JsDate.parseIso dueDate with
  | none => .medium
  | some dueMs =>
    if dueMs - now ≤ 24 * JsDate.msPerHour then .critical
    else if dueMs - now ≤ 96 * JsDate.msPerHour then .high
    else .medium

def isExamEvent (event : ImportedCalendarEvent) : Bool :=
  examKeywordTest (event.summary ++ " " ++ event.description.getD "")

def isExamDeadline (deadline : Deadline) : Bool :=
  examKeywordTest (deadline.course ++ " " ++ deadline.task)

structure TPExamDeadlineCandidate where
  course : String
  task : String
  dueDate : String
  sourceDueDate : String
  priority : Priority
  deriving DecidableEq, Repr

def candidateDedupKey (c : TPExamDeadlineCandidate) : String :=
  c.course ++ "|" ++ normalizeTextKey c.task ++ "|" ++ c.dueDate

/-- The per-event body of the extraction loop, building the dedup `Map` in
insertion order. -/
def extractStep (now : Int) (acc : List (String × TPExamDeadlineCandidate))
    (event : ImportedCalendarEvent) : List (String × TPExamDeadlineCandidate) :=
  if !isExamEvent event then acc
  else
    match extractCourseCode event.summary with
    | none => acc
    | some courseCode =>
      match JsDate.parseIso event.startTime with
      | none => acc
      | some dueMs =>
        if dueMs ≤ now then acc
        else
          let dueDate := JsDate.toISOString dueMs
          let candidate : TPExamDeadlineCandidate :=
            { course := courseCode
              task := buildExamTaskLabel event.summary courseCode
              dueDate := dueDate
              sourceDueDate := dueDate
              priority := inferPriorityFromDueDate dueDate now }
          let key := candidateDedupKey candidate
          if acc.any (fun kv => kv.1 == key) then acc else acc ++ [(key, candidate)]

def extractTPExamDeadlineCandidates (events : List ImportedCalendarEvent)
    (now : Int) : List TPExamDeadlineCandidate :=
  let dedup := events.foldl (extractStep now) []
  stableSortBy (fun l r => Dedup.dueKeyMs l.dueDate - Dedup.dueKeyMs r.dueDate) (dedup.map Prod.snd)

structure TPExamDeadlineBridgeResult where
  candidates : Nat
  created : Nat
  updated : Nat
  skipped : Nat
  createdDeadlines : List Deadline
  deriving DecidableEq, Repr

structure TPSyncState where
  store : Store
  existing : List Deadline
  result : TPExamDeadlineBridgeResult
  deriving DecidableEq, Repr

/-- The `(course, task)` lookup-key match of the candidate loop. -/
def keyMatch (candidate : TPExamDeadlineCandidate) (d : Deadline) : Bool :=
  normalizeTextKey d.course == normalizeTextKey candidate.course &&
  normalizeTextKey d.task == normalizeTextKey candidate.task

/-- The `exactManaged` predicate of the candidate loop. -/
def exactManagedPred (candidate : TPExamDeadlineCandidate) (d : Deadline) : Bool :=
  d.sourceDueDate == some candidate.sourceDueDate && isExamDeadline d

/-- The `managedSameTask` predicate of the candidate loop. -/
def managedPred (d : Deadline) : Bool :=
  d.sourceDueDate.isSome && isExamDeadline d

/-- The loop body of `syncExamDeadlines` for one candidate. -/
def tpProcessCandidate (now : Int) (st : TPSyncState)
    (candidate : TPExamDeadlineCandidate) : TPSyncState :=
  let _ := now
  let matchingDeadlines := st.existing.filter (keyMatch candidate)
  match matchingDeadlines.find? (exactManagedPred candidate) with
  | some exactManaged =>
    let needsUpdate :=
      exactManaged.course != candidate.course ||
      exactManaged.task != candidate.task ||
      exactManaged.priority != candidate.priority
    if !needsUpdate then
      { st with result := { st.result with skipped := st.result.skipped + 1 } }
    else
      let r := st.store.updateDeadline exactManaged.id
        { course := some candidate.course, task := some candidate.task,
          dueDate := none, sourceDueDate := none, priority := some candidate.priority }
      match r.1 with
      | some updated =>
        { store := r.2, existing := replaceById st.existing updated,
          result := { st.result with updated := st.result.updated + 1 } }
      | none =>
        { st with
          store := r.2
          result := { st.result with skipped := st.result.skipped + 1 } }
  | none =>
    match matchingDeadlines.find? managedPred with
    | some managedSameTask =>
      let existingSourceDueDate := managedSameTask.sourceDueDate.getD managedSameTask.dueDate
      let userOverrodeDueDate :=
        managedSameTask.sourceDueDate.isSome &&
        some managedSameTask.dueDate != managedSameTask.sourceDueDate
      let sourceDueDateChanged := existingSourceDueDate != candidate.sourceDueDate
      let nextDueDate :=
        if sourceDueDateChanged && !userOverrodeDueDate then candidate.dueDate
        else managedSameTask.dueDate
      let needsUpdate :=
        managedSameTask.course != candidate.course ||
        managedSameTask.task != candidate.task ||
        managedSameTask.sourceDueDate != some candidate.sourceDueDate ||
        managedSameTask.dueDate != nextDueDate ||
        managedSameTask.priority != candidate.priority
      if !needsUpdate then
        { st with result := { st.result with skipped := st.result.skipped + 1 } }
      else
        let r := st.store.updateDeadline managedSameTask.id
          { course := some candidate.course, task := some candidate.task,
            dueDate := some nextDueDate, sourceDueDate := some candidate.sourceDueDate,
            priority := some candidate.priority }
        match r.1 with
        | some updated =>
          { store := r.2, existing := replaceById st.existing updated,
            result := { st.result with updated := st.result.updated + 1 } }
        | none =>
          { st with
            store := r.2
            result := { st.result with skipped := st.result.skipped + 1 } }
    | none =>
      if matchingDeadlines.any (fun d => d.sourceDueDate.isNone) then
        { st with result := { st.result with skipped := st.result.skipped + 1 } }
      else
        let r := st.store.createDeadline
          { course := candidate.course, task := candidate.task,
            dueDate := candidate.dueDate, sourceDueDate := some candidate.sourceDueDate,
            priority := candidate.priority, completed := false }
        { store := r.2, existing := st.existing ++ [r.1],
          result := { st.result with
            created := st.result.created + 1
            createdDeadlines := st.result.createdDeadlines ++ [r.1] } }

def syncExamDeadlines (events : List ImportedCalendarEvent) (now : Int)
    (store : Store) : TPExamDeadlineBridgeResult × Store :=
  let candidates := extractTPExamDeadlineCandidates events now
  let base : TPExamDeadlineBridgeResult :=
    { candidates := candidates.length, created := 0, updated := 0, skipped := 0,
      createdDeadlines := [] }
  if candidates.length = 0 then (base, store)
  else
    let st0 : TPSyncState :=
      { store := store, existing := store.getDeadlines false, result := base }
    let stF := candidates.foldl (tpProcessCandidate now) st0
    (stF.result, stF.store)

end TPBridge

/-! ## The GitHub README deadline import module -/

namespace Github

/-- First match of `/\b[A-Z]{3}\d{3}\b/g` (used by `normalizeCourseKey`). -/
def firstCourseCode (s : String) : Option String :=
  (codeScanFirst [3] false s.data).map String.mk

def normalizeCourseKey (value : String) : String :=
  match firstCourseCode (upperStr value) with
  | some code => code
  | none => String.mk ((upperStr value).data.filter isAlnumChar)

/-- All matches of `/\b[A-Z]{3}\d{3}\b/g` on the uppercased summary. -/
def allCourseCodes (s : String) : List String :=
  (codeScanAll [3] (s.data.length + 1) false (upperStr s).data).map String.mk

def extractTPCourseCodes (events : List ImportedCalendarEvent) : List String :=
  let codes := (events.flatMap (fun e => allCourseCodes e.summary)).eraseDups
  stableSortBy localeCompare codes

def isPunctTail (c : Char) : Bool := c = '.' || c = ':' || c = ',' || c = ';'

def isStarLike (c : Char) : Bool := c = '_' || c = '*' || c.toNat = 96

def normalizeTaskLabel (value : String) : String :=
  let replaced := value.data.map (fun c => if isStarLike c then ' ' else c)
  let compact := (trimStr (collapseWs replaced)).reverse.dropWhile isPunctTail |>.reverse
  match compact with
  | [] => ""
  | c :: cs => String.mk (toUpperChar c :: cs)

def asNonEmptyString (s : String) : Option String :=
  let trimmed := trimStr s.data
  if trimmed.isEmpty then none else some (String.mk trimmed)

/-- A match of `DOTTED_DATE_REGEX`
`(\d{2})\.(\d{2})\.(\d{4})(?:\s+(\d{1,2})[.:](\d{2}))?`. -/
structure DottedMatch where
  day : Nat
  month : Nat
  year : Nat
  time : Option (Nat × Nat)
  deriving DecidableEq, Repr

def isTimeSep (c : Char) : Bool := c = '.' || c = ':'

/-- The optional `(?:\s+(\d{1,2})[.:](\d{2}))?` group (with the regex's
greedy-then-backtrack behaviour on the hour digits). -/
def tryTimeTail (cs : List Char) : Option ((Nat × Nat) × List Char) :=
  let ws := cs.takeWhile isSpaceChar
  if ws.isEmpty then none
  else
    let r := cs.dropWhile isSpaceChar
    let tryAt : List Char → Nat → Option ((Nat × Nat) × List Char) := fun rest hh =>
      match rest with
      | sep :: r2 =>
        if isTimeSep sep then
          match takeDigitChars 2 r2 with
          | some (mm, r3) => some ((hh, digitsVal mm), r3)
          | none => none
        else none
      | [] => none
    match takeDigitChars 2 r with
    | some (hd, r1) =>
      (match tryAt r1 (digitsVal hd) with
       | some res => some res
       | none =>
         match takeDigitChars 1 r with
         | some (hd1, r1b) => tryAt r1b (digitsVal hd1)
         | none => none)
    | none =>
      match takeDigitChars 1 r with
      | some (hd1, r1b) => tryAt r1b (digitsVal hd1)
      | none => none

/-- `DOTTED_DATE_REGEX` at the current position. -/
def matchDotted (cs : List Char) : Option (DottedMatch × List Char) :=
  match takeDigitChars 2 cs with
  | none => none
  | some (dd, r1) =>
    match JsDate.expectChar '.' r1 with
    | none => none
    | some r2 =>
      match takeDigitChars 2 r2 with
      | none => none
      | some (mo, r3) =>
        match JsDate.expectChar '.' r3 with
        | none => none
        | some r4 =>
          match takeDigitChars 4 r4 with
          | none => none
          | some (yy, r5) =>
            match tryTimeTail r5 with
            | some (t, r6) =>
              some ({ day := digitsVal dd, month := digitsVal mo,
                      year := digitsVal yy, time := some t }, r6)
            | none =>
              some ({ day := digitsVal dd, month := digitsVal mo,
                      year := digitsVal yy, time := none }, r5)

/-- `line.matchAll(DOTTED_DATE_REGEX)` (leftmost, non-overlapping). -/
def matchAllDotted : Nat → List Char → List DottedMatch
  | 0, _ => []
  | _ + 1, [] => []
  | fuel + 1, c :: cs =>
    match matchDotted (c :: cs) with
    | some (m, rest) => m :: matchAllDotted fuel rest
    | none => matchAllDotted fuel cs

/-- `BOLD_SECTION_REGEX` `/\*\*([^*]+)\*\*/` at the current position:
returns the capture group and the suffix after the match. -/
def matchBold (cs : List Char) : Option (List Char × List Char) :=
  match cs with
  | '*' :: '*' :: rest =>
    let body := rest.takeWhile (fun c => c ≠ '*')
    let tail := rest.dropWhile (fun c => c ≠ '*')
    if body.isEmpty then none
    else
      match tail with
      | '*' :: '*' :: r2 => some (body, r2)
      | _ => none
  | _ => none

/-- `line.matchAll(BOLD_SECTION_REGEX)`: the list of capture groups. -/
def matchAllBold : Nat → List Char → List (List Char)
  | 0, _ => []
  | _ + 1, [] => []
  | fuel + 1, c :: cs =>
    match matchBold (c :: cs) with
    | some (body, rest) => body :: matchAllBold fuel rest
    | none => matchAllBold fuel cs

/-- Slice the consumed prefix of a scanner step. -/
def consumedOf (cs rest : List Char) : List Char := cs.take (cs.length - rest.length)

/-- `assignment\s*\d+\s*(?:deadline)?` -/
def taskAlt1 (cs : List Char) : Option (List Char) :=
  match matchLitCI "assignment".data cs with
  | none => none
  | some r1 =>
    let r2 := r1.dropWhile isSpaceChar
    let ds := r2.takeWhile isDigitChar
    if ds.isEmpty then none
    else
      let r3 := r2.dropWhile isDigitChar
      let r4 := r3.dropWhile isSpaceChar
      match matchLitCI "deadline".data r4 with
      | some r5 => some (consumedOf cs r5)
      | none => some (consumedOf cs r4)

/-- `project\s*\+?\s*report(?:\s*due)?` -/
def taskAlt2 (cs : List Char) : Option (List Char) :=
  match matchLitCI "project".data cs with
  | none => none
  | some r1 =>
    let r2 := r1.dropWhile isSpaceChar
    let r3 := match r2 with
      | '+' :: t => t
      | _ => r2
    let r4 := r3.dropWhile isSpaceChar
    match matchLitCI "report".data r4 with
    | none => none
    | some r5 =>
      let r6 := r5.dropWhile isSpaceChar
      match matchLitCI "due".data r6 with
      | some r7 => some (consumedOf cs r7)
      | none => some (consumedOf cs r5)

def taskAltSimple (lit : String) (cs : List Char) : Option (List Char) :=
  match matchLitCI lit.data cs with
  | some rest => some (consumedOf cs rest)
  | none => none

/-- `lab\s*\d+` -/
def taskAlt5 (cs : List Char) : Option (List Char) :=
  match matchLitCI "lab".data cs with
  | none => none
  | some r1 =>
    let r2 := r1.dropWhile isSpaceChar
    let ds := r2.takeWhile isDigitChar
    if ds.isEmpty then none
    else some (consumedOf cs (r2.dropWhile isDigitChar))

def taskAltAt (cs : List Char) : Option (List Char) :=
  match taskAlt1 cs with
  | some r => some r
  | none =>
    match taskAlt2 cs with
    | some r => some r
    | none =>
      match taskAltSimple "project" cs with
      | some r => some r
      | none =>
        match taskAltSimple "exam" cs with
        | some r => some r
        | none => taskAlt5 cs

/-- `line.match(DEADLINE_TASK_REGEX)?.[0]`: leftmost match, alternatives in
source order. -/
def taskRegexFirst : List Char → Option (List Char)
  | [] => none
  | c :: cs =>
    match taskAltAt (c :: cs) with
    | some r => some r
    | none => taskRegexFirst cs

/-- `DEADLINE_SIGNAL_REGEX.test`
`/\b(deadline|due|assignment|project|report|exam|lab)\b/i`. -/
def deadlineSignalTest (s : String) : Bool :=
  keywordTest
    ["deadline".data, "due".data, "assignment".data, "project".data,
     "report".data, "exam".data, "lab".data] false s.data

/-- `/(deadline|due)/i.test(line)`. -/
def deadlineOrDueTest (cs : List Char) : Bool :=
  listInfix "deadline".data (cs.map toLowerChar) ||
  listInfix "due".data (cs.map toLowerChar)

/-- `/^\|.*\|$/.test(line)`. -/
def isTableRow (cs : List Char) : Bool :=
  match cs with
  | '|' :: rest => !rest.isEmpty && rest.getLast? == some '|'
  | _ => false

def toIsoFromDottedDateMatch (m : DottedMatch) : Option String :=
  let hour := (m.time.map Prod.fst).getD 23
  let minute := (m.time.map Prod.snd).getD 59
  if 1 ≤ m.month ∧ m.month ≤ 12 ∧ 1 ≤ m.day ∧ m.day ≤ 31 ∧ hour ≤ 23 ∧ minute ≤ 59 then
    some (JsDate.toISOString (JsDate.dateUTC m.year (m.month - 1) m.day hour minute))
  else none

def inferPriorityFromDueDate (dueDate : String) (now : Int) : Priority :=
  match JsDate.parseIso dueDate with
  | none => .medium
  | some dueMs =>
    if dueMs - now ≤ 24 * JsDate.msPerHour then .critical
    else if dueMs - now ≤ 96 * JsDate.msPerHour then .high
    else .medium

structure ParsedReadmeDeadline where
  course : String
  task : String
  dueDate : String
  sourceDueDate : String
  priority : Priority
  deriving DecidableEq, Repr

/-- `upsertReadmeDeadline`: keep at most one candidate per normalized task
key; a later-or-equal parsed due date replaces the stored one. -/
def upsertReadmeDeadline (byTaskKey : List (String × ParsedReadmeDeadline))
    (next : ParsedReadmeDeadline) : List (String × ParsedReadmeDeadline) :=
  let key := normalizeTextKey next.task
  if key = "" then byTaskKey
  else
    match byTaskKey.find? (fun kv => kv.1 == key) with
    | none => byTaskKey ++ [(key, next)]
    | some existing =>
      let replace :=
        match JsDate.parseIso next.dueDate, JsDate.parseIso existing.2.dueDate with
        | some a, some b => decide (b ≤ a)
        | _, _ => false
      if replace then
        byTaskKey.map (fun kv => if kv.1 == key then (key, next) else kv)
      else byTaskKey

/-- The candidate that one `pushCandidate` call would register, if it passes
all gates (task signal, nonempty label, parseable non-past due date). -/
def pushedCandidate (courseCode : String) (now : Int)
    (rawTask : Option String) (dueDateIso : Option String) :
    Option ParsedReadmeDeadline :=
  match rawTask, dueDateIso with
  | some raw, some iso =>
    if !deadlineSignalTest raw then none
    else
      let normalizedTask := normalizeTaskLabel raw
      if normalizedTask = "" then none
      else
        match JsDate.parseIso iso with
        | none => none
        | some dueMs =>
          if dueMs < now then none
          else
            some { course := courseCode, task := normalizedTask, dueDate := iso,
                   sourceDueDate := iso,
                   priority := inferPriorityFromDueDate iso now }
  | _, _ => none

/-- `pushCandidate` inside `parseGitHubCourseDeadlinesFromReadme`. -/
def pushCandidate (courseCode : String) (now : Int)
    (byTaskKey : List (String × ParsedReadmeDeadline))
    (rawTask : Option String) (dueDateIso : Option String) :
    List (String × ParsedReadmeDeadline) :=
  match pushedCandidate courseCode now rawTask dueDateIso with
  | some c => upsertReadmeDeadline byTaskKey c
  | none => byTaskKey

/-- Split `markdown` on `/\r?\n/`. -/
def splitLinesGo : List Char → List Char → List (List Char)
  | acc, [] => [acc.reverse]
  | acc, c :: cs =>
    if c = '\n' then
      (match acc with
       | '\r' :: accRest => accRest.reverse
       | _ => acc.reverse) :: splitLinesGo [] cs
    else splitLinesGo (c :: acc) cs

/-- The per-line body of the README parsing loop. -/
def parseReadmeLine (courseCode : String) (now : Int)
    (byTaskKey : List (String × ParsedReadmeDeadline)) (line : List Char) :
    List (String × ParsedReadmeDeadline) :=
  if isTableRow line && listInfix "**".data line then
    let dateMatches := matchAllDotted (line.length + 1) line
    match dateMatches with
    | [] => byTaskKey
    | m0 :: _ =>
      let dueDateIso := toIsoFromDottedDateMatch m0
      (matchAllBold (line.length + 1) line).foldl
        (fun acc body =>
          pushCandidate courseCode now acc (asNonEmptyString (String.mk body)) dueDateIso)
        byTaskKey
  else if !deadlineOrDueTest line then byTaskKey
  else
    match (matchAllDotted (line.length + 1) line).getLast? with
    | none => byTaskKey
    | some mLast =>
      let dueDateIso := toIsoFromDottedDateMatch mLast
      let explicitTask := (taskRegexFirst line).map String.mk
      let boldTask := ((matchAllBold (line.length + 1) line).get? 1).map
        (fun body => String.mk ('*' :: '*' :: body ++ '*' :: '*' :: []))
      let chosen :=
        match explicitTask with
        | some t => some t
        | none => boldTask
      pushCandidate courseCode now byTaskKey chosen dueDateIso

/-- The candidates one line contributes (in push order), mirroring the gates
of `parseReadmeLine`. -/
def lineCandidates (courseCode : String) (now : Int) (line : List Char) :
    List ParsedReadmeDeadline :=
  if isTableRow line && listInfix "**".data line then
    match matchAllDotted (line.length + 1) line with
    | [] => []
    | m0 :: _ =>
      (matchAllBold (line.length + 1) line).filterMap
        (fun body =>
          pushedCandidate courseCode now (asNonEmptyString (String.mk body))
            (toIsoFromDottedDateMatch m0))
  else if !deadlineOrDueTest line then []
  else
    match (matchAllDotted (line.length + 1) line).getLast? with
    | none => []
    | some mLast =>
      let explicitTask := (taskRegexFirst line).map String.mk
      let boldTask := ((matchAllBold (line.length + 1) line).get? 1).map
        (fun body => String.mk ('*' :: '*' :: body ++ '*' :: '*' :: []))
      let chosen :=
        match explicitTask with
        | some t => some t
        | none => boldTask
      (pushedCandidate courseCode now chosen (toIsoFromDottedDateMatch mLast)).toList

/-- The full sequence of surviving pushes of a README parse, in order. -/
def readmePushes (markdown : String) (courseCode : String) (now : Int) :
    List ParsedReadmeDeadline :=
  (splitLinesGo [] markdown.data).flatMap (lineCandidates courseCode now)

def parseGitHubCourseDeadlinesFromReadme (markdown : String) (courseCode : String)
    (now : Int) : List ParsedReadmeDeadline :=
  let lines := splitLinesGo [] markdown.data
  let byTaskKey := lines.foldl (parseReadmeLine courseCode now) []
  stableSortBy (fun l r => Dedup.dueKeyMs l.dueDate - Dedup.dueKeyMs r.dueDate)
    (byTaskKey.map Prod.snd)

inductive UpsertOutcome
  | imported
  | updated
  | skipped
  deriving DecidableEq, Repr

/-- The `(course, task)` lookup-key match of `upsertImportedDeadline`. -/
def ghKeyMatch (next : ParsedReadmeDeadline) (d : Deadline) : Bool :=
  normalizeCourseKey d.course == normalizeCourseKey next.course &&
  normalizeTextKey d.task == normalizeTextKey next.task

/-- The `exact`-match predicate of `upsertImportedDeadline`. -/
def ghExactMatch (next : ParsedReadmeDeadline) (d : Deadline) : Bool :=
  ghKeyMatch next d && d.dueDate == next.dueDate

/-- `upsertImportedDeadline`: matching and reconciliation of one parsed
candidate against the in-run snapshot, mirrored together with its store
effects. -/
def upsertImportedDeadline (st : Store) (existingDeadlines : List Deadline)
    (next : ParsedReadmeDeadline) : UpsertOutcome × Store × List Deadline :=
  match existingDeadlines.find? (ghExactMatch next) with
  | some _ => (.skipped, st, existingDeadlines)
  | none =>
    match existingDeadlines.find? (ghKeyMatch next) with
    | some sameTask =>
      let managedBySource := sameTask.sourceDueDate.isSome
      let userOverrodeDueDate :=
        managedBySource && sameTask.sourceDueDate != some sameTask.dueDate
      if !managedBySource || userOverrodeDueDate then (.skipped, st, existingDeadlines)
      else
        let r := st.updateDeadline sameTask.id
          { course := none, task := none, dueDate := some next.dueDate,
            sourceDueDate := some next.sourceDueDate, priority := some next.priority }
        match r.1 with
        | none => (.skipped, r.2, existingDeadlines)
        | some updated =>
          let newExisting :=
            match existingDeadlines.findIdx? (fun d => d.id == sameTask.id) with
            | some i => existingDeadlines.set i updated
            | none => existingDeadlines
          (.updated, r.2, newExisting)
    | none =>
      let r := st.createDeadline
        { course := next.course, task := next.task, dueDate := next.dueDate,
          sourceDueDate := some next.sourceDueDate, priority := next.priority,
          completed := false }
      (.imported, r.2, existingDeadlines ++ [r.1])

/-! ### `autoImportTpGithubDeadlines` and its MCP plumbing

`executeToolCall` performs network I/O; it is embedded as an oracle
parameter returning `Except String JVal`, where `.error` models a thrown
exception and `.ok` the response value.  `JSON.parse` is likewise a
parameter (`jsonParse`).  MCP server configurations come from the store
(`getMcpServers` lives in `mcp.ts`, outside the verified sources); they are
passed as an explicit list, modelled from the spec's description of
configured integrations. -/

/-- JSON-like values (the `unknown` payloads flowing through the MCP calls). -/
inductive JVal
  | null
  | jbool (b : Bool)
  | num (n : Int)
  | str (s : String)
  | arr (xs : List JVal)
  | obj (fields : List (String × JVal))

def asRecord : JVal → Option (List (String × JVal))
  | .obj fs => some fs
  | _ => none

/-- JS property access on a record (`undefined` and `null` conflated). -/
def jLookup (fs : List (String × JVal)) (k : String) : JVal :=
  match fs.find? (fun kv => kv.1 == k) with
  | some kv => kv.2
  | none => .null

def asNonEmptyStringJ : JVal → Option String
  | .str s => asNonEmptyString s
  | _ => none

/-- Case-insensitive substring test (embedding of `/pat/i.test(s)` for a
literal lowercase `pat`). -/
def ciIncludes (s pat : String) : Bool := listInfix pat.data (s.data.map toLowerChar)

structure McpServerConfig where
  id : String
  label : String
  serverUrl : String
  enabled : Bool
  toolAllowlist : List String
  deriving DecidableEq, Repr

structure McpToolBinding where
  server : McpServerConfig
  remoteToolName : String
  deriving DecidableEq, Repr

/-- The oracle embedding `executeToolCall` (`.error` = thrown exception). -/
def ToolOracle : Type := McpToolBinding → List (String × JVal) → Except String JVal

def isGithubMcpServer (server : McpServerConfig) : Bool :=
  ciIncludes server.label "github" || ciIncludes server.serverUrl "github"

def serverAllowsTool (server : McpServerConfig) (toolName : String) : Bool :=
  server.toolAllowlist.isEmpty || server.toolAllowlist.contains toolName

def getMcpResultEnvelope (response : JVal) : Option (List (String × JVal)) :=
  match asRecord response with
  | none => none
  | some payload => asRecord (jLookup payload "result")

def getMcpResultText (response : JVal) : Option String :=
  match getMcpResultEnvelope response with
  | none => none
  | some result =>
    match asNonEmptyStringJ (jLookup result "resourceText") with
    | some resourceText => some resourceText
    | none => asNonEmptyStringJ (jLookup result "text")

def getMcpErrorMessage (response : JVal) : Option String :=
  match getMcpResultEnvelope response with
  | none => none
  | some result =>
    match jLookup result "isError" with
    | .jbool true =>
      some ((asNonEmptyStringJ (jLookup result "text")).getD "MCP tool call failed")
    | _ => none

/-- `parseFirstJsonObject`: `JSON.parse` of the trimmed text, else of the
first-`{`-to-last-`}` slice, else of the first-`[`-to-last-`]` slice. -/
def parseFirstJsonObject (jsonParse : String → Option JVal) (text : String) :
    Option JVal :=
  let trimmed := trimStr text.data
  if trimmed.isEmpty then none
  else
    match jsonParse (String.mk trimmed) with
    | some v => some v
    | none =>
      let sliceTry : Char → Char → Option JVal := fun lo hi =>
        match trimmed.findIdx? (fun c => c = lo),
              (trimmed.reverse.findIdx? (fun c => c = hi)).map
                (fun k => trimmed.length - 1 - k) with
        | some s, some e =>
          if s < e then jsonParse (String.mk ((trimmed.drop s).take (e + 1 - s)))
          else none
        | _, _ => none
      match sliceTry '{' '}' with
      | some v => some v
      | none => sliceTry '[' ']'

structure GitHubSearchRepositoryItem where
  name : Option String
  full_name : Option String
  ownerLogin : Option String
  deriving DecidableEq, Repr

structure GitHubRepositoryRef where
  owner : String
  repo : String
  fullName : String
  deriving DecidableEq, Repr

/-- Test for the pattern `-(20\d\x7b2\x7d)` in the owner name (a dash
followed by a year of this century). -/
def dashYearTest : List Char → Bool
  | '-' :: '2' :: '0' :: a :: b :: _ => isDigitChar a && isDigitChar b
  | _ :: c :: cs => dashYearTest (c :: cs)
  | _ => false

def scoreRepositoryItem (code : String) (repo owner fullName : String) : Int :=
  let fullNameLower := lowerStr fullName
  let ownerLower := lowerStr owner
  (if lowerStr repo = "info" then 10 else 0) +
  (if strIncludes fullNameLower ("/" ++ lowerStr repo) then 1 else 0) +
  (if strIncludes fullNameLower (code ++ "-") then 8 else 0) +
  (if strIncludes ownerLower code then 6 else 0) +
  (if strIncludes fullNameLower code then 4 else 0) +
  (if dashYearTest ownerLower.data then 2 else 0)

def selectRepository (courseCode : String) (items : List GitHubSearchRepositoryItem) :
    Option GitHubRepositoryRef :=
  let code := lowerStr courseCode
  let scored := items.filterMap (fun item =>
    match item.name.bind asNonEmptyString, item.full_name.bind asNonEmptyString,
          item.ownerLogin.bind asNonEmptyString with
    | some repo, some fullName, some owner =>
      some (scoreRepositoryItem code repo owner fullName,
        ({ owner := owner, repo := repo, fullName := fullName } : GitHubRepositoryRef))
    | _, _, _ => none)
  let sorted := stableSortBy
    (fun l r =>
      if r.1 - l.1 ≠ 0 then r.1 - l.1 else localeCompare l.2.fullName r.2.fullName)
    scored
  (sorted.head?).map Prod.snd

/-- `collected.set(fullName, item)` (JS `Map.set`: overwrite keeps position). -/
def assocSet {β : Type} (acc : List (String × β)) (k : String) (v : β) :
    List (String × β) :=
  if acc.any (fun kv => kv.1 == k) then
    acc.map (fun kv => if kv.1 == k then (k, v) else kv)
  else acc ++ [(k, v)]

def collectSearchItems (acc : List (String × GitHubSearchRepositoryItem))
    (items : List JVal) : List (String × GitHubSearchRepositoryItem) :=
  items.foldl
    (fun acc item =>
      match asRecord item with
      | none => acc
      | some record =>
        match asNonEmptyStringJ (jLookup record "full_name") with
        | none => acc
        | some fullName =>
          assocSet acc fullName
            { name := asNonEmptyStringJ (jLookup record "name")
              full_name := some fullName
              ownerLogin :=
                match asRecord (jLookup record "owner") with
                | some o => asNonEmptyStringJ (jLookup o "login")
                | none => none })
    acc

def findCourseRepository (jsonParse : String → Option JVal) (oracle : ToolOracle)
    (server : McpServerConfig) (courseCode : String) :
    Except String (Option GitHubRepositoryRef) := do
  if !serverAllowsTool server "search_repositories" then
    return none
  let binding : McpToolBinding := { server := server, remoteToolName := "search_repositories" }
  let queries := [lowerStr courseCode ++ " in:name", courseCode ++ " in:name"]
  let mut collected : List (String × GitHubSearchRepositoryItem) := []
  for query in queries do
    let response ← oracle binding [("query", .str query), ("sort", .str "updated")]
    if (getMcpErrorMessage response).isSome then
      continue
    match getMcpResultText response with
    | none => continue
    | some text =>
      let parsed := parseFirstJsonObject jsonParse text
      let items :=
        match parsed.bind asRecord with
        | some payload =>
          match jLookup payload "items" with
          | .arr xs => xs
          | _ => []
        | none => []
      collected := collectSearchItems collected items
  return selectRepository courseCode (collected.map Prod.snd)

def fetchRepositoryReadme (oracle : ToolOracle) (server : McpServerConfig)
    (repository : GitHubRepositoryRef) : Except String (Option String) := do
  if !serverAllowsTool server "get_file_contents" then
    return none
  let binding : McpToolBinding := { server := server, remoteToolName := "get_file_contents" }
  let response ← oracle binding
    [("owner", .str repository.owner), ("repo", .str repository.repo),
     ("path", .str "README.md")]
  if (getMcpErrorMessage response).isSome then
    return none
  return getMcpResultText response

structure TpGithubDeadlineImportResult where
  attempted : Bool
  imported : Nat
  updated : Nat
  skipped : Nat
  errors : List String
  courseCodes : List String
  repositoriesScanned : List String
  deriving DecidableEq, Repr

structure AutoImportState where
  store : Store
  existing : List Deadline
  imported : Nat
  updated : Nat
  skipped : Nat
  errors : List String
  repositoriesScanned : List String
  deriving DecidableEq, Repr

def applyUpsert (st : AutoImportState) (deadline : ParsedReadmeDeadline) :
    AutoImportState :=
  let r := upsertImportedDeadline st.store st.existing deadline
  match r.1 with
  | .imported =>
    { st with store := r.2.1, existing := r.2.2, imported := st.imported + 1 }
  | .updated =>
    { st with store := r.2.1, existing := r.2.2, updated := st.updated + 1 }
  | .skipped =>
    { st with store := r.2.1, existing := r.2.2, skipped := st.skipped + 1 }

/-- One `server` iteration of the per-course loop: `true` iff the course was
handled (a README was parsed and its candidates reconciled). -/
def processCourseOnServer (jsonParse : String → Option JVal) (oracle : ToolOracle)
    (now : Int) (courseCode : String) (server : McpServerConfig)
    (st : AutoImportState) : Bool × AutoImportState :=
  match findCourseRepository jsonParse oracle server courseCode with
  | .error e => (false, { st with errors := st.errors ++ [courseCode ++ ": " ++ e] })
  | .ok none => (false, st)
  | .ok (some repository) =>
    let st := { st with
      repositoriesScanned := st.repositoriesScanned ++ [repository.fullName] }
    match fetchRepositoryReadme oracle server repository with
    | .error e => (false, { st with errors := st.errors ++ [courseCode ++ ": " ++ e] })
    | .ok none => (false, st)
    | .ok (some readme) =>
      let parsedDeadlines := parseGitHubCourseDeadlinesFromReadme readme courseCode now
      (true, parsedDeadlines.foldl applyUpsert st)

def processCourseServers (jsonParse : String → Option JVal) (oracle : ToolOracle)
    (now : Int) (courseCode : String) :
    List McpServerConfig → AutoImportState → Bool × AutoImportState
  | [], st => (false, st)
  | server :: rest, st =>
    match processCourseOnServer jsonParse oracle now courseCode server st with
    | (true, st2) => (true, st2)
    | (false, st2) => processCourseServers jsonParse oracle now courseCode rest st2

def processCourse (jsonParse : String → Option JVal) (oracle : ToolOracle)
    (now : Int) (githubServers : List McpServerConfig) (st : AutoImportState)
    (courseCode : String) : AutoImportState :=
  match processCourseServers jsonParse oracle now courseCode githubServers st with
  | (true, st2) => st2
  | (false, st2) =>
    { st2 with errors :=
        st2.errors ++ [courseCode ++ ": no matching GitHub repository/README found"] }

def autoImportTpGithubDeadlines (jsonParse : String → Option JVal)
    (oracle : ToolOracle) (store : Store) (tpEvents : List ImportedCalendarEvent)
    (mcpServers : List McpServerConfig) (now : Int) :
    TpGithubDeadlineImportResult × Store :=
  let courseCodes := extractTPCourseCodes tpEvents
  if courseCodes.isEmpty then
    ({ attempted := false, imported := 0, updated := 0, skipped := 0, errors := [],
       courseCodes := [], repositoriesScanned := [] }, store)
  else
    let githubServers := mcpServers.filter (fun s => s.enabled && isGithubMcpServer s)
    if githubServers.isEmpty then
      ({ attempted := false, imported := 0, updated := 0, skipped := 0, errors := [],
         courseCodes := courseCodes, repositoriesScanned := [] }, store)
    else
      let st0 : AutoImportState :=
        { store := store, existing := store.getDeadlines false, imported := 0,
          updated := 0, skipped := 0, errors := [], repositoriesScanned := [] }
      let stF := courseCodes.foldl (processCourse jsonParse oracle now githubServers) st0
      ({ attempted := true, imported := stF.imported, updated := stF.updated,
         skipped := stF.skipped, errors := stF.errors, courseCodes := courseCodes,
         repositoriesScanned := stF.repositoriesScanned.eraseDups }, stF.store)

end Github

/-! ## Verification-layer definitions, fixtures and modelled inputs -/

/-! ## Concrete inputs used by counterexamples and witnesses -/
def fxDeadlineA : Deadline :=
  { id := "deadline-a"
    course := "DAT560"
    task := "Assignment 3 Report"
    dueDate := "2026-03-20T23:59:00.000Z"
    sourceDueDate := none
    priority := .high
    completed := false
    canvasAssignmentId := none }

def fxDeadlineB : Deadline :=
  { fxDeadlineA with id := "deadline-b", completed := true, priority := .low }

def fxDummySuggestion : Dedup.DeadlineMergeSuggestion :=
  { canonicalId := ""
    canonicalSource := .manual
    duplicateIds := []
    confidence := .medium
    score := ⟨0, 1⟩
    reason := ""
    mergedPreview :=
      { course := "", task := "", dueDate := "", priority := .low, completed := false }
    members := [] }

def fxC3sugg : Dedup.DeadlineMergeSuggestion :=
  (Dedup.generateDeadlineMergeSuggestions [fxDeadlineA, fxDeadlineB]).headD fxDummySuggestion

def fxNow : Int := 1771545600000

def fxExamEventDescOnly : ImportedCalendarEvent :=
  { summary := "DAT520 Innlevering"
    startTime := "2026-05-29T09:00:00.000Z"
    description := some "eksamen" }

def fxEmptyStore : Store := { deadlines := [], nextId := 0 }

def fxReadmePast : String := "| 8 | 18.02.2026 | **Assignment 2 deadline** |"

def fxNowBoundary : Int := 1771459140000

def fxDivergedGh : Deadline :=
  { id := "gh-1"
    course := "DAT560"
    task := "Assignment 1"
    dueDate := "2026-03-01T23:59:00.000Z"
    sourceDueDate := some "2026-03-02T23:59:00.000Z"
    priority := .medium
    completed := false
    canvasAssignmentId := none }

def fxCandMar5 : Github.ParsedReadmeDeadline :=
  { course := "DAT560"
    task := "Assignment 1"
    dueDate := "2026-03-05T23:59:00.000Z"
    sourceDueDate := "2026-03-05T23:59:00.000Z"
    priority := .medium }

def fxStoreDiv : Store := { deadlines := [fxDivergedGh], nextId := 9 }

def fxTpManaged : Deadline :=
  { id := "d1"
    course := "DAT600"
    task := "Skriftlig eksamen (WISEFLOW)"
    dueDate := "2026-05-20T07:30:00.000Z"
    sourceDueDate := some "2026-05-15T09:00:00.000Z"
    priority := .high
    completed := false
    canvasAssignmentId := none }

def fxTpCand : TPBridge.TPExamDeadlineCandidate :=
  { course := "DAT600"
    task := "Skriftlig eksamen (WISEFLOW)"
    dueDate := "2026-05-16T09:00:00.000Z"
    sourceDueDate := "2026-05-16T09:00:00.000Z"
    priority := .high }

def fxTpState : TPBridge.TPSyncState :=
  { store := { deadlines := [fxTpManaged], nextId := 3 }
    existing := [fxTpManaged]
    result := { candidates := 1, created := 0, updated := 0, skipped := 0, createdDeadlines := [] } }

def fxManagedGh2 : Deadline :=
  { id := "gh-2"
    course := "DAT560"
    task := "Assignment 1"
    dueDate := "2026-03-01T23:59:00.000Z"
    sourceDueDate := some "2026-03-01T23:59:00.000Z"
    priority := .medium
    completed := false
    canvasAssignmentId := none }

def fxManualGh : Deadline :=
  { id := "man-1"
    course := "DAT560"
    task := "Assignment 1"
    dueDate := "2026-03-02T23:59:00.000Z"
    sourceDueDate := none
    priority := .medium
    completed := false
    canvasAssignmentId := none }

def fxStoreMix : Store := { deadlines := [fxManagedGh2, fxManualGh], nextId := 9 }

def fxTpManual : Deadline :=
  { id := "d9"
    course := "DAT520"
    task := "Skriftlig eksamen (WISEFLOW)"
    dueDate := "2026-05-29T09:00:00.000Z"
    sourceDueDate := none
    priority := .high
    completed := false
    canvasAssignmentId := none }

def fxTpStateManual : TPBridge.TPSyncState :=
  { store := { deadlines := [fxTpManual], nextId := 2 }
    existing := [fxTpManual]
    result := { candidates := 1, created := 0, updated := 0, skipped := 0, createdDeadlines := [] } }

def fxTpCand2 : TPBridge.TPExamDeadlineCandidate :=
  { course := "DAT520"
    task := "Skriftlig eksamen (WISEFLOW)"
    dueDate := "2026-05-29T10:00:00.000Z"
    sourceDueDate := "2026-05-29T10:00:00.000Z"
    priority := .high }

def fxReadmeTwoLines : String :=
  "| 8 | 18.02.2026 | **Assignment 2 deadline** |\n| 8 | 22.02.2026 | **Assignment 2 deadline** |"

def fxC7cand : TPBridge.TPExamDeadlineCandidate :=
  { course := "DAT520"
    task := "Innlevering"
    dueDate := "2026-05-29T09:00:00.000Z"
    sourceDueDate := "2026-05-29T09:00:00.000Z"
    priority := Priority.medium }

def prMaxStep (current : Priority) (deadline : Dedup.DedupDeadlineMember) : Priority :=
  if Dedup.PRIORITY_RANK current < Dedup.PRIORITY_RANK deadline.priority then deadline.priority
  else current

def fxC8sugg : Dedup.DeadlineMergeSuggestion :=
  (Dedup.generateDeadlineMergeSuggestions [fxDeadlineA, fxDeadlineB]).headD fxDummySuggestion

/-- Parent-chasing chains in a union-find parent array: `ChainTo p l v r`
holds when following parents from `v` visits exactly the nodes of `l`
(starting with `v` itself when `v` is not a root) and stops at the root `r`
(a node that is its own parent). -/
inductive ChainTo (p : List Nat) : List Nat → Nat → Nat → Prop
  | stop (r : Nat) (h : p.get? r = some r) : ChainTo p [] r r
  | step (v w r : Nat) (l : List Nat) (h : p.get? v = some w) (hne : w ≠ v)
      (tail : ChainTo p l w r) : ChainTo p (v :: l) v r

/-- `v` reaches the root `r` in parent array `p`. -/
def Reach (p : List Nat) (v r : Nat) : Prop := ∃ l, ChainTo p l v r

/-- Two parent arrays encode the same reachability relation. -/
def ufEquiv (p q : List Nat) : Prop := ∀ v r, Reach p v r ↔ Reach q v r

/-- Every in-range node reaches some root. -/
def UFOk (p : List Nat) : Prop := ∀ v, v < p.length → ∃ r, Reach p v r

/-- Nodes `x` and `y` are in the same union-find class of `p`. -/
def sameRoot (p : List Nat) (x y : Nat) : Prop :=
  ∃ r, Reach p x r ∧ Reach p y r

/-- The union-find root of index `u` in parent array `q`, as computed by a
fresh `ufFind` call with full fuel. -/
def rootIdx (q : List Nat) (u : Nat) : Nat := (Dedup.ufFind q.length q u).2

def fxDummyMember : Dedup.DedupDeadlineMember :=
  { toDeadline := fxDeadlineA
    source := .manual }

/-- Invariant of the `groups` accumulator after the first `t` member indices
have been processed: each entry holds exactly the members whose index has
that root, keys are unique, and every processed index has an entry. -/
def GroupsInv (members : List Dedup.DedupDeadlineMember) (q : List Nat) (t : Nat)
    (gs : List (Nat × List Dedup.DedupDeadlineMember)) : Prop :=
  (∀ e ∈ gs, e.2 = ((List.range t).filter (fun u => rootIdx q u == e.1)).map
    (fun u => (members.get? u).getD fxDummyMember)) ∧
  (gs.map Prod.fst).Nodup ∧
  (∀ u, u < t → ∃ e ∈ gs, e.1 = rootIdx q u)

def fxC5a : Deadline :=
  { id := "c5-a"
    course := "DAT560"
    task := "Assignment 3 Report"
    dueDate := "2026-03-20T23:59:00.000Z"
    sourceDueDate := none
    priority := .medium
    completed := false
    canvasAssignmentId := none }

def fxC5b : Deadline :=
  { fxC5a with id := "c5-b" }

def fxC5c : Deadline :=
  { fxC5a with id := "c5-c" }

def fxJsonParse : String → Option Github.JVal := fun _ => none

def fxOracleFail : Github.McpToolBinding → List (String × Github.JVal) →
    Except String Github.JVal := fun _ _ => .error "network down"

def fxMcpServer : Github.McpServerConfig :=
  { id := "srv-1"
    label := "GitHub MCP"
    serverUrl := "https://api.example"
    enabled := true
    toolAllowlist := [] }

def fxAutoState : Github.AutoImportState :=
  { store := fxEmptyStore
    existing := []
    imported := 0
    updated := 0
    skipped := 0
    errors := []
    repositoriesScanned := [] }

/-! ## Helper lemmas -/

theorem perm_insertCmp {α : Type} (cmp : α → α → Int) (x : α) (l : List α) :
    List.Perm (insertCmp cmp x l) (x :: l) := by
  induction l with
  | nil => simp [insertCmp]
  | cons y ys ih =>
    by_cases h : cmp x y ≤ 0
    · simp [insertCmp, h]
    · simp only [insertCmp, if_neg h]
      exact ((ih.cons y).trans (List.Perm.swap x y ys))

theorem perm_stableSortBy {α : Type} (cmp : α → α → Int) (l : List α) :
    List.Perm (stableSortBy cmp l) l := by
  induction l with
  | nil => simp [stableSortBy]
  | cons x xs ih =>
    exact (perm_insertCmp cmp x (stableSortBy cmp xs)).trans (ih.cons x)

theorem mem_stableSortBy {α : Type} (cmp : α → α → Int) (l : List α) (a : α) :
    a ∈ stableSortBy cmp l ↔ a ∈ l :=
  (perm_stableSortBy cmp l).mem_iff

/-- The head of the stable sort satisfies `P` as soon as some element does,
whenever the comparator strictly ranks `P`-elements before non-`P`-elements. -/
theorem head_prop_of_stableSortBy {α : Type} (cmp : α → α → Int) (P : α → Bool)
    (hA : ∀ a b, P a = false → P b = true → 0 < cmp a b)
    (hB : ∀ a b, P a = true → P b = false → cmp a b ≤ 0)
    (l : List α) (hex : ∃ m ∈ l, P m = true) :
    ∃ m ms, stableSortBy cmp l = m :: ms ∧ P m = true := by
  induction l with
  | nil => simp at hex
  | cons x xs ih =>
    simp only [stableSortBy]
    rcases hex with ⟨w, hwmem, hwP⟩
    rcases List.mem_cons.mp hwmem with hwx | hwxs
    · subst hwx
      cases hsort : stableSortBy cmp xs with
      | nil => exact ⟨w, [], by simp [insertCmp, hsort], hwP⟩
      | cons y ys =>
        by_cases hle : cmp w y ≤ 0
        · exact ⟨w, y :: ys, by simp [insertCmp, hsort, hle], hwP⟩
        · refine ⟨y, insertCmp cmp w ys, by simp [insertCmp, hsort, hle], ?_⟩
          by_contra hPy
          exact hle (hB w y hwP (Bool.eq_false_iff.mpr hPy))
    · rcases ih ⟨w, hwxs, hwP⟩ with ⟨y, ys, hsort, hPy⟩
      rw [hsort]
      by_cases hle : cmp x y ≤ 0
      · refine ⟨x, y :: ys, by simp [insertCmp, hle], ?_⟩
        by_contra hPx
        exact absurd (hA x y (Bool.eq_false_iff.mpr hPx) hPy) (by omega)
      · exact ⟨y, insertCmp cmp x ys, by simp [insertCmp, hle], hPy⟩

/-- Sorting by an integer key yields a list that is pairwise nondecreasing
in that key. -/
theorem pairwise_stableSortBy_key {α : Type} (f : α → Int) (l : List α) :
    (stableSortBy (fun a b => f a - f b) l).Pairwise (fun a b => f a ≤ f b) := by
  induction l with
  | nil => simp [stableSortBy]
  | cons x xs ih =>
    simp only [stableSortBy]
    have hins : ∀ m : List α, m.Pairwise (fun a b => f a ≤ f b) →
        (insertCmp (fun a b => f a - f b) x m).Pairwise (fun a b => f a ≤ f b) := by
      intro m
      induction m with
      | nil => intro _; simp [insertCmp]
      | cons y ys ihm =>
        intro hp
        rcases List.pairwise_cons.mp hp with ⟨hy, hys⟩
        by_cases hle : f x - f y ≤ 0
        · rw [show insertCmp (fun a b => f a - f b) x (y :: ys) = x :: y :: ys by
            simp [insertCmp, hle]]
          refine List.pairwise_cons.mpr ⟨?_, hp⟩
          intro b hb
          rcases List.mem_cons.mp hb with rfl | hbys
          · omega
          · have := hy b hbys; omega
        · rw [show insertCmp (fun a b => f a - f b) x (y :: ys)
              = y :: insertCmp (fun a b => f a - f b) x ys by
            simp [insertCmp, hle]]
          refine List.pairwise_cons.mpr ⟨?_, ihm hys⟩
          intro b hb
          have hmem := (perm_insertCmp (fun a b => f a - f b) x ys).mem_iff.mp hb
          rcases List.mem_cons.mp hmem with rfl | hbys
          · omega
          · exact hy b hbys
    exact hins (stableSortBy (fun a b => f a - f b) xs) ih


/-- C4: the duplicate verdict holds exactly when the normalized course keys
are nonempty and equal, the due-date distance is defined and at most two
days, the task score is at least 0.45 and the composite score at least 0.58;
a course mismatch forces verdict false with score 0, and an unparseable date
or a distance above two days forces verdict false. -/
theorem C4_duplicate_verdict_characterization :
    ∀ left right : Deadline,
      (((Dedup.evaluateDuplicateSignal left right).isDuplicate = true) ↔
        (Dedup.normalizeCourseKey left.course ≠ "" ∧
         Dedup.normalizeCourseKey right.course ≠ "" ∧
         Dedup.normalizeCourseKey left.course = Dedup.normalizeCourseKey right.course ∧
         ∃ dist : Frac,
           Dedup.dueDateDistanceDays left.dueDate right.dueDate = some dist ∧
           Frac.fle dist ⟨2, 1⟩ = true ∧
           Frac.fle ⟨45, 100⟩ (Dedup.taskSimilarity left.task right.task) = true ∧
           Frac.fle ⟨58, 100⟩
             (Frac.add (Frac.mul (Dedup.taskSimilarity left.task right.task) ⟨7, 10⟩)
               (Frac.mul (Frac.max0 (Frac.sub ⟨1, 1⟩ ⟨dist.num, dist.den * 2⟩)) ⟨3, 10⟩)) = true)) ∧
      ((Dedup.normalizeCourseKey left.course = "" ∨ Dedup.normalizeCourseKey right.course = "" ∨
        Dedup.normalizeCourseKey left.course ≠ Dedup.normalizeCourseKey right.course) →
        (Dedup.evaluateDuplicateSignal left right).isDuplicate = false ∧
        (Dedup.evaluateDuplicateSignal left right).score = ⟨0, 1⟩) ∧
      ((Dedup.dueDateDistanceDays left.dueDate right.dueDate = none ∨
        (∃ dist, Dedup.dueDateDistanceDays left.dueDate right.dueDate = some dist ∧
          Frac.flt ⟨2, 1⟩ dist = true)) →
        (Dedup.evaluateDuplicateSignal left right).isDuplicate = false) := by
  intro left right
  refine ⟨?_, ?_, ?_⟩
  · simp only [Dedup.evaluateDuplicateSignal]
    split_ifs with hgate
    · simp only [Bool.false_eq_true, false_iff]
      rintro ⟨h1, h2, h3, _⟩
      rcases hgate with hg | hg | hg
      · exact h1 hg
      · exact h2 hg
      · exact hg h3
    · push_neg at hgate
      rcases hgate with ⟨hL, hR, hEq⟩
      cases hdist : Dedup.dueDateDistanceDays left.dueDate right.dueDate with
      | none => simp [hdist, hL, hR, hEq]
      | some dist =>
        simp only [hdist]
        split_ifs with hfar
        · simp only [Bool.false_eq_true, false_iff]
          push_neg
          intro _ _ _ d hd
          rw [Option.some_inj] at hd
          subst hd
          intro hle
          exfalso
          simp only [Frac.flt, decide_eq_true_eq] at hfar
          simp only [Frac.fle, decide_eq_true_eq] at hle
          omega
        · constructor
          · intro h
            refine ⟨hL, hR, hEq, dist, rfl, ?_, ?_, ?_⟩
            · simp only [Frac.flt, decide_eq_true_eq] at hfar
              simp only [Frac.fle, decide_eq_true_eq]
              omega
            · simpa using (Bool.and_eq_true _ _ |>.mp (by simpa using h)).1
            · simpa using (Bool.and_eq_true _ _ |>.mp (by simpa using h)).2
          · rintro ⟨_, _, _, d, hd, hdle, hts, hsc⟩
            rw [Option.some_inj] at hd
            subst hd
            simp only [Bool.and_eq_true]
            exact ⟨hts, hsc⟩
  · intro h
    simp only [Dedup.evaluateDuplicateSignal]
    rw [if_pos h]
    exact ⟨rfl, rfl⟩
  · intro h
    simp only [Dedup.evaluateDuplicateSignal]
    by_cases hgate : Dedup.normalizeCourseKey left.course = "" ∨
        Dedup.normalizeCourseKey right.course = "" ∨
        Dedup.normalizeCourseKey left.course ≠ Dedup.normalizeCourseKey right.course
    · rw [if_pos hgate]
    · rw [if_neg hgate]
      rcases h with hnone | ⟨d, hd, hfar⟩
      · rw [hnone]
      · rw [hd]
        simp [hfar]

theorem C4_witness :
    (Dedup.evaluateDuplicateSignal fxDeadlineA fxDeadlineB).isDuplicate = true :=
  (C4_duplicate_verdict_characterization fxDeadlineA fxDeadlineB).1.mpr
    ⟨by decide, by decide, by decide,
     ⟨⟨0, 86400000⟩, by decide, by decide, by decide, by decide⟩⟩

/-- C3 counterexample: in a two-member duplicate group with one completed and
one not-completed member, the canonical record is the completed one. -/
theorem C3_counterexample :
    ((Dedup.generateDeadlineMergeSuggestions [fxDeadlineA, fxDeadlineB]).map
      (fun s => s.canonicalId)) = ["deadline-b"] ∧
    fxDeadlineB.completed = true ∧ fxDeadlineA.completed = false ∧
    (∃ s ∈ Dedup.generateDeadlineMergeSuggestions [fxDeadlineA, fxDeadlineB],
      ∃ m ∈ s.members, m.completed = false) := by decide

theorem cmpCC_completed_pos (a b : Dedup.DedupDeadlineMember)
    (ha : a.completed = false) (hb : b.completed = true) :
    0 < Dedup.compareCanonicalCandidates a b := by
  unfold Dedup.compareCanonicalCandidates
  rw [if_pos (by rw [ha, hb]; exact Bool.false_ne_true)]
  rw [ha]
  norm_num

theorem cmpCC_completed_nonpos (a b : Dedup.DedupDeadlineMember)
    (ha : a.completed = true) (hb : b.completed = false) :
    Dedup.compareCanonicalCandidates a b ≤ 0 := by
  unfold Dedup.compareCanonicalCandidates
  rw [if_pos (by rw [ha, hb]; exact Ne.symm Bool.false_ne_true)]
  rw [ha]
  norm_num

theorem suggestion_shape {g : List Dedup.DedupDeadlineMember}
    {s : Dedup.DeadlineMergeSuggestion} (h : Dedup.buildSuggestion g = some s) :
    ∃ canonical duplicates,
      stableSortBy Dedup.compareCanonicalCandidates g = canonical :: duplicates ∧
      s.canonicalId = canonical.id ∧
      s.members = canonical :: duplicates ∧
      s.duplicateIds = duplicates.map (fun d => d.id) ∧
      2 ≤ g.length ∧
      s.mergedPreview =
        { course := canonical.course
          task := canonical.task
          dueDate := Dedup.earliestDueDate (canonical :: duplicates) canonical.dueDate
          priority := Dedup.highestPriority (canonical :: duplicates)
          completed := (canonical :: duplicates).any (fun d => d.completed) } := by
  unfold Dedup.buildSuggestion at h
  split_ifs at h with hlen
  cases hsort : stableSortBy Dedup.compareCanonicalCandidates g with
  | nil => rw [hsort] at h; exact absurd h (by simp)
  | cons canonical duplicates =>
    rw [hsort] at h
    simp only [Option.some_inj] at h
    refine ⟨canonical, duplicates, rfl, ?_, ?_, ?_, by omega, ?_⟩ <;> rw [← h]

theorem mem_generate {deadlines : List Deadline} {s : Dedup.DeadlineMergeSuggestion}
    (h : s ∈ Dedup.generateDeadlineMergeSuggestions deadlines) :
    ∃ g, Dedup.buildSuggestion g = some s := by
  unfold Dedup.generateDeadlineMergeSuggestions at h
  split_ifs at h with hlen
  · simp at h
  · rw [mem_stableSortBy] at h
    rcases List.mem_filterMap.mp h with ⟨g, _, hsome⟩
    exact ⟨g, hsome⟩

/-- C3 (amended): the first canonical tie-break prefers completed over
not-completed: whenever a duplicate group has a completed member, the chosen
canonical record is completed. -/
theorem C3_canonical_prefers_completed :
    ∀ (deadlines : List Deadline) (s : Dedup.DeadlineMergeSuggestion),
      s ∈ Dedup.generateDeadlineMergeSuggestions deadlines →
      (∃ m ∈ s.members, m.completed = true) →
      ∃ m ∈ s.members, s.canonicalId = m.id ∧ m.completed = true := by
  intro deadlines s hs hex
  obtain ⟨g, hg⟩ := mem_generate hs
  obtain ⟨canonical, dups, hsort, hid, hmem, _, _, _⟩ := suggestion_shape hg
  have hexg : ∃ m ∈ g, m.completed = true := by
    rcases hex with ⟨m, hm, hmc⟩
    rw [hmem, ← hsort, mem_stableSortBy] at hm
    exact ⟨m, hm, hmc⟩
  obtain ⟨m, ms, hsort2, hmc⟩ :=
    head_prop_of_stableSortBy Dedup.compareCanonicalCandidates (fun d => d.completed)
      (fun a b ha hb => cmpCC_completed_pos a b ha hb)
      (fun a b ha hb => cmpCC_completed_nonpos a b ha hb) g hexg
  rw [hsort] at hsort2
  injection hsort2 with hcan _
  refine ⟨canonical, ?_, hid, ?_⟩
  · rw [hmem]; exact List.mem_cons_self _ _
  · rw [hcan]; exact hmc

theorem C3_witness :
    ∃ m ∈ fxC3sugg.members, fxC3sugg.canonicalId = m.id ∧ m.completed = true :=
  C3_canonical_prefers_completed [fxDeadlineA, fxDeadlineB] fxC3sugg
    (by decide) (by decide)

/-- C6: the calendar-exam bridge is not idempotent: for an event whose exam
keyword appears only in the `description`, the bridge creates the deadline
again on every run (the created record's `course`+`task` carry no exam
keyword, so the bridge does not recognize it as its own). -/
theorem C6_second_run_creates_again :
    (TPBridge.syncExamDeadlines [fxExamEventDescOnly] fxNow fxEmptyStore).1.created = 1 ∧
    (TPBridge.syncExamDeadlines [fxExamEventDescOnly] fxNow
      (TPBridge.syncExamDeadlines [fxExamEventDescOnly] fxNow fxEmptyStore).2).1.created = 1 ∧
    (TPBridge.syncExamDeadlines [fxExamEventDescOnly] fxNow
      (TPBridge.syncExamDeadlines [fxExamEventDescOnly] fxNow fxEmptyStore).2).1.skipped = 0 ∧
    (TPBridge.syncExamDeadlines [fxExamEventDescOnly] fxNow
      (TPBridge.syncExamDeadlines [fxExamEventDescOnly] fxNow fxEmptyStore).2).2.deadlines.length = 2 := by
  decide

/-- C7 counterexample: the GitHub parser keeps a candidate whose due date is
exactly `now` (it drops only strictly-past dates), so a candidate due at or
before `now` is not always discarded. -/
theorem C7_counterexample :
    (Github.parseGitHubCourseDeadlinesFromReadme fxReadmePast "DAT560" fxNowBoundary).map
      (fun c => c.dueDate) = ["2026-02-18T23:59:00.000Z"] ∧
    JsDate.parseIso "2026-02-18T23:59:00.000Z" = some fxNowBoundary := by decide

theorem updateDeadlineGo_append (patch : DeadlinePatch) (d : Deadline)
    (pre post : List Deadline) (hpre : ∀ x ∈ pre, x.id ≠ d.id) :
    updateDeadlineGo d.id patch (pre ++ d :: post) =
      (some (applyPatch d patch), pre ++ applyPatch d patch :: post) := by
  induction pre with
  | nil => simp [updateDeadlineGo]
  | cons x xs ih =>
    have hx : x.id ≠ d.id := hpre x (List.mem_cons_self x xs)
    simp only [List.cons_append, updateDeadlineGo, if_neg hx]
    rw [show xs.append (d :: post) = xs ++ d :: post from rfl,
      ih (fun y hy => hpre y (List.mem_cons_of_mem x hy))]

/-- C1 (amended): when an automation-managed record matches a candidate's key
and the source due date changed, the calendar-exam bridge always updates
`sourceDueDate` and preserves a diverged user `dueDate` (re-deriving
course/task/priority), while the GitHub bridge skips a diverged record
outright — leaving both `dueDate` and `sourceDueDate` unchanged — and applies
the new due date to both fields only when the user has not diverged. -/
theorem C1_amended_nondestructive :
    (∀ (now : Int) (st : TPBridge.TPSyncState) (c : TPBridge.TPExamDeadlineCandidate)
       (d : Deadline) (s : String) (pre post : List Deadline),
       (st.existing.filter (TPBridge.keyMatch c)).find? (TPBridge.exactManagedPred c) = none →
       (st.existing.filter (TPBridge.keyMatch c)).find? TPBridge.managedPred = some d →
       d.sourceDueDate = some s → s ≠ c.sourceDueDate →
       st.store.deadlines = pre ++ d :: post → (∀ x ∈ pre, x.id ≠ d.id) →
       ((d.dueDate ≠ s →
          (TPBridge.tpProcessCandidate now st c).store.deadlines =
            pre ++ { d with
              course := c.course
              task := c.task
              dueDate := d.dueDate
              sourceDueDate := some c.sourceDueDate
              priority := c.priority } :: post ∧
          (TPBridge.tpProcessCandidate now st c).result.updated = st.result.updated + 1) ∧
        (d.dueDate = s →
          (TPBridge.tpProcessCandidate now st c).store.deadlines =
            pre ++ { d with
              course := c.course
              task := c.task
              dueDate := c.dueDate
              sourceDueDate := some c.sourceDueDate
              priority := c.priority } :: post))) ∧
    (∀ (st : Store) (existing : List Deadline) (c : Github.ParsedReadmeDeadline)
       (d : Deadline) (s : String),
       existing.find? (Github.ghExactMatch c) = none →
       existing.find? (Github.ghKeyMatch c) = some d →
       d.sourceDueDate = some s →
       ((s ≠ d.dueDate →
          Github.upsertImportedDeadline st existing c = (.skipped, st, existing)) ∧
        (∀ pre post, s = d.dueDate → st.deadlines = pre ++ d :: post →
          (∀ x ∈ pre, x.id ≠ d.id) →
          (Github.upsertImportedDeadline st existing c).1 = .updated ∧
          (Github.upsertImportedDeadline st existing c).2.1.deadlines =
            pre ++ { d with
              dueDate := c.dueDate
              sourceDueDate := some c.sourceDueDate
              priority := c.priority } :: post))) := by
  constructor
  · intro now st c d s pre post hexact hmanaged hsrc hchanged hst hpre
    have hne : (some s != some c.sourceDueDate) = true := by
      simp [bne_iff_ne, hchanged]
    constructor
    · intro hdiv
      have hov : (some d.dueDate != some s) = true := by
        simp [bne_iff_ne, hdiv]
      simp only [TPBridge.tpProcessCandidate, hexact, hmanaged, hsrc]
      simp only [Option.getD_some, Option.isSome_some, Bool.true_and, hov,
        Bool.not_true, Bool.false_and, Bool.and_false, hne]
      rw [if_neg (by simp)]
      simp only [Bool.false_eq_true, if_false, Store.updateDeadline, hst,
        updateDeadlineGo_append _ d pre post hpre]
      constructor
      · simp [applyPatch]
      · trivial
    · intro heq
      have hovf : (some d.dueDate != some s) = false := by simp [heq]
      have hneStr : (s != c.sourceDueDate) = true := by simp [bne_iff_ne, hchanged]
      simp only [TPBridge.tpProcessCandidate, hexact, hmanaged, hsrc]
      simp only [Option.getD_some, Option.isSome_some, Bool.true_and, hovf, hne, hneStr,
        Bool.not_false, Bool.and_true]
      rw [if_neg (by simp)]
      simp only [if_true, Store.updateDeadline, hst,
        updateDeadlineGo_append _ d pre post hpre]
      simp [applyPatch]
  · intro st existing c d s hexact hkey hsrc
    constructor
    · intro hdv
      have hov : (some s != some d.dueDate) = true := by simp [bne_iff_ne]; exact hdv
      simp only [Github.upsertImportedDeadline, hexact, hkey, hsrc]
      simp [hov]
    · intro pre post heq hst hpre
      have hov : (some s != some d.dueDate) = false := by simp [heq]
      simp only [Github.upsertImportedDeadline, hexact, hkey, hsrc]
      simp only [Option.isSome_some, Bool.true_and, hov, Bool.not_true, Bool.or_false]
      rw [if_neg (by simp)]
      simp only [Store.updateDeadline, hst, updateDeadlineGo_append _ d pre post hpre]
      constructor
      · trivial
      · simp [applyPatch]

/-- C1 counterexample: a diverged automation-managed record with a changed
source due date is skipped (left fully unchanged) by the GitHub bridge — its
`sourceDueDate` is not updated to the new source value. -/
theorem C1_counterexample :
    Github.ghKeyMatch fxCandMar5 fxDivergedGh = true ∧
    fxDivergedGh.sourceDueDate = some "2026-03-02T23:59:00.000Z" ∧
    fxDivergedGh.dueDate ≠ "2026-03-02T23:59:00.000Z" ∧
    fxDivergedGh.sourceDueDate ≠ some fxCandMar5.sourceDueDate ∧
    Github.upsertImportedDeadline fxStoreDiv [fxDivergedGh] fxCandMar5 =
      (.skipped, fxStoreDiv, [fxDivergedGh]) := by decide

theorem C1_witness :
    ((TPBridge.tpProcessCandidate 0 fxTpState fxTpCand).store.deadlines =
      [{ fxTpManaged with
          course := fxTpCand.course
          task := fxTpCand.task
          dueDate := fxTpManaged.dueDate
          sourceDueDate := some fxTpCand.sourceDueDate
          priority := fxTpCand.priority }] ∧
      (TPBridge.tpProcessCandidate 0 fxTpState fxTpCand).result.updated = 0 + 1) ∧
    Github.upsertImportedDeadline fxStoreDiv [fxDivergedGh] fxCandMar5 =
      (.skipped, fxStoreDiv, [fxDivergedGh]) := by
  constructor
  · have h := ((C1_amended_nondestructive).1 0 fxTpState fxTpCand fxTpManaged
      "2026-05-15T09:00:00.000Z" [] [] (by decide) (by decide) (by decide) (by decide)
      (by decide) (by simp)).1 (by decide)
    simpa using h
  · exact ((C1_amended_nondestructive).2 fxStoreDiv [fxDivergedGh] fxCandMar5 fxDivergedGh
      "2026-03-02T23:59:00.000Z" (by decide) (by decide) (by decide)).1 (by decide)

theorem updateDeadlineGo_length (id : String) (patch : DeadlinePatch) (l : List Deadline) :
    (updateDeadlineGo id patch l).2.length = l.length := by
  induction l with
  | nil => rfl
  | cons x xs ih =>
    simp only [updateDeadlineGo]
    split_ifs <;> simp [ih]

theorem updateDeadlineGo_mem_of_ne (id : String) (patch : DeadlinePatch)
    (l : List Deadline) (m : Deadline) (hm : m ∈ l) (hne : m.id ≠ id) :
    m ∈ (updateDeadlineGo id patch l).2 := by
  induction l with
  | nil => simp at hm
  | cons x xs ih =>
    simp only [updateDeadlineGo]
    rcases List.mem_cons.mp hm with rfl | hmx
    · rw [if_neg hne]
      exact List.mem_cons_self _ _
    · split_ifs with hx
      · exact List.mem_cons_of_mem _ hmx
      · exact List.mem_cons_of_mem _ (ih hmx)

theorem map_id_nodup_inj {l : List Deadline} (h : (l.map (fun d => d.id)).Nodup)
    {a b : Deadline} (ha : a ∈ l) (hb : b ∈ l) (hid : a.id = b.id) : a = b := by
  induction l with
  | nil => simp at ha
  | cons x xs ih =>
    simp only [List.map_cons, List.nodup_cons] at h
    rcases List.mem_cons.mp ha with rfl | hax <;> rcases List.mem_cons.mp hb with rfl | hbx
    · rfl
    · exact absurd (hid ▸ List.mem_map_of_mem (fun d => d.id) hbx) h.1
    · exact absurd (hid ▸ List.mem_map_of_mem (fun d => d.id) hax) h.1
    · exact ih h.2 hax hbx

/-- On a candidate whose key matches some record carrying no automation
ownership conflict, the exam-bridge step either leaves the store unchanged or
patches one automation-managed record in place (it never creates), provided
some key-matching record is manual. -/
theorem tpProcessCandidate_store_form (now : Int) (st : TPBridge.TPSyncState)
    (c : TPBridge.TPExamDeadlineCandidate)
    (hany : (st.existing.filter (TPBridge.keyMatch c)).any
      (fun d => d.sourceDueDate.isNone) = true) :
    (TPBridge.tpProcessCandidate now st c).store = st.store ∨
    ∃ e patch, e ∈ st.existing.filter (TPBridge.keyMatch c) ∧
      e.sourceDueDate.isSome = true ∧
      (TPBridge.tpProcessCandidate now st c).store =
        { st.store with deadlines := (updateDeadlineGo e.id patch st.store.deadlines).2 } := by
  simp only [TPBridge.tpProcessCandidate]
  cases hfe : (st.existing.filter (TPBridge.keyMatch c)).find? (TPBridge.exactManagedPred c) with
  | some e =>
    have hemem := List.mem_of_find?_eq_some hfe
    have hesome : e.sourceDueDate.isSome = true := by
      have hp := List.find?_some hfe
      simp only [TPBridge.exactManagedPred, Bool.and_eq_true, beq_iff_eq] at hp
      rw [hp.1]
      rfl
    dsimp only
    split_ifs <;>
      first
      | exact Or.inl rfl
      | exact Or.inl trivial
      | (split <;> exact Or.inr ⟨e, _, hemem, hesome, rfl⟩)
  | none =>
    cases hfm : (st.existing.filter (TPBridge.keyMatch c)).find? TPBridge.managedPred with
    | some t =>
      have htmem := List.mem_of_find?_eq_some hfm
      have htsome : t.sourceDueDate.isSome = true := by
        have hp := List.find?_some hfm
        simp only [TPBridge.managedPred, Bool.and_eq_true] at hp
        exact hp.1
      dsimp only
      split_ifs <;>
        first
        | exact Or.inl rfl
        | exact Or.inl trivial
        | (split <;> exact Or.inr ⟨t, _, htmem, htsome, rfl⟩)
    | none =>
      dsimp only
      simp only [hany, if_true]
      exact Or.inl (by trivial)

/-- Analogue of `tpProcessCandidate_store_form` for the GitHub upsert: when a
key-matching record exists, the step never creates. -/
theorem upsertImported_store_form (st : Store) (existing : List Deadline)
    (c : Github.ParsedReadmeDeadline)
    (hkeyEx : ∃ d ∈ existing, Github.ghKeyMatch c d = true) :
    (Github.upsertImportedDeadline st existing c).2.1 = st ∨
    ∃ e patch, e ∈ existing ∧ e.sourceDueDate.isSome = true ∧
      (Github.upsertImportedDeadline st existing c).2.1 =
        { st with deadlines := (updateDeadlineGo e.id patch st.deadlines).2 } := by
  simp only [Github.upsertImportedDeadline]
  cases hfe : existing.find? (Github.ghExactMatch c) with
  | some e => exact Or.inl rfl
  | none =>
    cases hfk : existing.find? (Github.ghKeyMatch c) with
    | none =>
      rcases hkeyEx with ⟨d, hd, hkd⟩
      rw [List.find?_eq_none] at hfk
      exact absurd hkd (by simpa using hfk d hd)
    | some t =>
      have htmem := List.mem_of_find?_eq_some hfk
      dsimp only
      split_ifs with hcond
      · exact Or.inl rfl
      · have htsome : t.sourceDueDate.isSome = true := by
          rcases h : t.sourceDueDate.isSome with _ | _
          · rw [h] at hcond
            simp at hcond
          · rfl
        split <;> exact Or.inr ⟨t, _, htmem, htsome, rfl⟩

/-- C2 (amended): a manual record (no `sourceDueDate`) sharing the normalized
`(course, task)` key with a candidate is never updated and never duplicated by
either bridge; when every record sharing the key is manual, the candidate is
counted as skipped and the step changes nothing.  (When an automation-managed
record also shares the key, the bridges reconcile that record instead, so the
candidate may be counted as updated rather than skipped.) -/
theorem C2_amended_manual_immunity :
    (∀ (now : Int) (st : TPBridge.TPSyncState) (c : TPBridge.TPExamDeadlineCandidate),
       (∀ d ∈ st.existing.filter (TPBridge.keyMatch c), d.sourceDueDate = none) →
       st.existing.filter (TPBridge.keyMatch c) ≠ [] →
       TPBridge.tpProcessCandidate now st c =
         { st with result := { st.result with skipped := st.result.skipped + 1 } }) ∧
    (∀ (st : Store) (existing : List Deadline) (c : Github.ParsedReadmeDeadline),
       (∀ d ∈ existing, Github.ghKeyMatch c d = true → d.sourceDueDate = none) →
       (∃ d ∈ existing, Github.ghKeyMatch c d = true) →
       Github.upsertImportedDeadline st existing c = (.skipped, st, existing)) ∧
    (∀ (now : Int) (st : TPBridge.TPSyncState) (c : TPBridge.TPExamDeadlineCandidate)
       (m : Deadline),
       m ∈ st.existing → TPBridge.keyMatch c m = true → m.sourceDueDate = none →
       (st.store.deadlines.map (fun d => d.id)).Nodup →
       (∀ x ∈ st.existing, x ∈ st.store.deadlines) →
       m ∈ st.store.deadlines →
       (TPBridge.tpProcessCandidate now st c).store.deadlines.length =
         st.store.deadlines.length ∧
       m ∈ (TPBridge.tpProcessCandidate now st c).store.deadlines) ∧
    (∀ (st : Store) (existing : List Deadline) (c : Github.ParsedReadmeDeadline)
       (m : Deadline),
       m ∈ existing → Github.ghKeyMatch c m = true → m.sourceDueDate = none →
       (st.deadlines.map (fun d => d.id)).Nodup →
       (∀ x ∈ existing, x ∈ st.deadlines) →
       m ∈ st.deadlines →
       (Github.upsertImportedDeadline st existing c).2.1.deadlines.length =
         st.deadlines.length ∧
       m ∈ (Github.upsertImportedDeadline st existing c).2.1.deadlines) := by
  refine ⟨?_, ?_, ?_, ?_⟩
  · intro now st c hall hne
    have hexact :
        (st.existing.filter (TPBridge.keyMatch c)).find? (TPBridge.exactManagedPred c) = none := by
      rw [List.find?_eq_none]
      intro d hd
      simp [TPBridge.exactManagedPred, hall d hd]
    have hman :
        (st.existing.filter (TPBridge.keyMatch c)).find? TPBridge.managedPred = none := by
      rw [List.find?_eq_none]
      intro d hd
      simp [TPBridge.managedPred, hall d hd]
    obtain ⟨d, hd⟩ := List.exists_mem_of_ne_nil _ hne
    have hany : (st.existing.filter (TPBridge.keyMatch c)).any
        (fun d => d.sourceDueDate.isNone) = true :=
      List.any_eq_true.mpr ⟨d, hd, by simp [hall d hd]⟩
    simp only [TPBridge.tpProcessCandidate, hexact, hman, hany, if_true]
  · intro st existing c hall hex
    cases hfe : existing.find? (Github.ghExactMatch c) with
    | some e => simp [Github.upsertImportedDeadline, hfe]
    | none =>
      cases hfk : existing.find? (Github.ghKeyMatch c) with
      | none =>
        rcases hex with ⟨d, hd, hkd⟩
        rw [List.find?_eq_none] at hfk
        exact absurd hkd (by simpa using hfk d hd)
      | some t =>
        have htmem := List.mem_of_find?_eq_some hfk
        have hth : t.sourceDueDate = none := hall t htmem (List.find?_some hfk)
        simp [Github.upsertImportedDeadline, hfe, hfk, hth]
  · intro now st c m hmex hkey hmanual hnodup hsub hmstore
    have hany : (st.existing.filter (TPBridge.keyMatch c)).any
        (fun d => d.sourceDueDate.isNone) = true :=
      List.any_eq_true.mpr ⟨m, List.mem_filter.mpr ⟨hmex, hkey⟩, by simp [hmanual]⟩
    rcases tpProcessCandidate_store_form now st c hany with h | ⟨e, patch, hefil, hesome, h⟩
    · rw [h]
      exact ⟨rfl, hmstore⟩
    · have hemem : e ∈ st.existing := (List.mem_filter.mp hefil).1
      have hne : m.id ≠ e.id := by
        intro hid
        have heq := map_id_nodup_inj hnodup hmstore (hsub e hemem) hid
        rw [← heq, hmanual] at hesome
        simp at hesome
      rw [h]
      exact ⟨updateDeadlineGo_length _ _ _,
        updateDeadlineGo_mem_of_ne _ _ _ _ hmstore hne⟩
  · intro st existing c m hmex hkey hmanual hnodup hsub hmstore
    rcases upsertImported_store_form st existing c ⟨m, hmex, hkey⟩ with
      h | ⟨e, patch, hemem, hesome, h⟩
    · rw [h]
      exact ⟨rfl, hmstore⟩
    · have hne : m.id ≠ e.id := by
        intro hid
        have heq := map_id_nodup_inj hnodup hmstore (hsub e hemem) hid
        rw [← heq, hmanual] at hesome
        simp at hesome
      rw [h]
      exact ⟨updateDeadlineGo_length _ _ _,
        updateDeadlineGo_mem_of_ne _ _ _ _ hmstore hne⟩

/-- C2 counterexample: when an automation-managed record shares the key with
a manual record, the candidate is counted as updated, not skipped. -/
theorem C2_counterexample :
    Github.ghKeyMatch fxCandMar5 fxManualGh = true ∧
    fxManualGh.sourceDueDate = none ∧
    fxManualGh.dueDate ≠ fxCandMar5.dueDate ∧
    (Github.upsertImportedDeadline fxStoreMix [fxManagedGh2, fxManualGh] fxCandMar5).1 =
      .updated := by decide

theorem C2_witness :
    TPBridge.tpProcessCandidate 0 fxTpStateManual fxTpCand2 =
      { fxTpStateManual with result :=
          { fxTpStateManual.result with skipped := fxTpStateManual.result.skipped + 1 } } ∧
    Github.upsertImportedDeadline { deadlines := [fxManualGh], nextId := 5 } [fxManualGh]
        fxCandMar5 =
      (.skipped, { deadlines := [fxManualGh], nextId := 5 }, [fxManualGh]) :=
  ⟨C2_amended_manual_immunity.1 0 fxTpStateManual fxTpCand2 (by decide) (by decide),
   C2_amended_manual_immunity.2.1 { deadlines := [fxManualGh], nextId := 5 } [fxManualGh]
     fxCandMar5 (by decide) ⟨fxManualGh, by decide, by decide⟩⟩

theorem foldl_mem_invariant {α β : Type} (P : β → Prop) (step : List β → α → List β)
    (hstep : ∀ acc e, (∀ y ∈ acc, P y) → ∀ x ∈ step acc e, P x) :
    ∀ (l : List α) (acc : List β), (∀ y ∈ acc, P y) → ∀ x ∈ l.foldl step acc, P x := by
  intro l
  induction l with
  | nil => intro acc hacc x hx; exact hacc x hx
  | cons e es ih => intro acc hacc x hx; exact ih _ (hstep acc e hacc) x hx

theorem extractStep_prop (now : Int) (acc : List (String × TPBridge.TPExamDeadlineCandidate))
    (event : ImportedCalendarEvent)
    (hacc : ∀ kv ∈ acc, ∃ ms, now < ms ∧ kv.2.dueDate = JsDate.toISOString ms ∧
      kv.2.sourceDueDate = kv.2.dueDate) :
    ∀ kv ∈ TPBridge.extractStep now acc event, ∃ ms, now < ms ∧
      kv.2.dueDate = JsDate.toISOString ms ∧ kv.2.sourceDueDate = kv.2.dueDate := by
  intro kv hkv
  simp only [TPBridge.extractStep] at hkv
  split at hkv
  · exact hacc kv hkv
  · split at hkv
    · exact hacc kv hkv
    · split at hkv
      · exact hacc kv hkv
      · rename_i courseCode _ dueMs hparse
        split at hkv
        · exact hacc kv hkv
        · rename_i hle
          split at hkv
          · exact hacc kv hkv
          · rcases List.mem_append.mp hkv with hin | hnew
            · exact hacc kv hin
            · rcases List.mem_singleton.mp hnew with rfl
              exact ⟨dueMs, by omega, rfl, rfl⟩

theorem pushedCandidate_prop {course : String} {now : Int} {raw iso : Option String}
    {c : Github.ParsedReadmeDeadline}
    (h : Github.pushedCandidate course now raw iso = some c) :
    ∃ ms, JsDate.parseIso c.dueDate = some ms ∧ now ≤ ms ∧
      c.sourceDueDate = c.dueDate ∧ c.course = course := by
  simp only [Github.pushedCandidate] at h
  split at h
  · split at h
    · exact absurd h (by simp)
    · split at h
      · exact absurd h (by simp)
      · split at h
        · exact absurd h (by simp)
        · rename_i iso0 dueMs hparse
          split at h
          · exact absurd h (by simp)
          · rename_i hlt
            rw [Option.some_inj] at h
            subst h
            exact ⟨dueMs, hparse, by omega, rfl, rfl⟩
  · exact absurd h (by simp)

theorem upsertReadme_prop (P : Github.ParsedReadmeDeadline → Prop)
    (m : List (String × Github.ParsedReadmeDeadline)) (next : Github.ParsedReadmeDeadline)
    (hm : ∀ kv ∈ m, P kv.2) (hnext : P next) :
    ∀ kv ∈ Github.upsertReadmeDeadline m next, P kv.2 := by
  intro kv hkv
  simp only [Github.upsertReadmeDeadline] at hkv
  split at hkv
  · exact hm kv hkv
  · split at hkv
    · rcases List.mem_append.mp hkv with hin | hnew
      · exact hm kv hin
      · rcases List.mem_singleton.mp hnew with rfl
        exact hnext
    · split at hkv
      · rcases List.mem_map.mp hkv with ⟨kv0, hkv0, heq⟩
        by_cases hk : (kv0.1 == normalizeTextKey next.task) = true
        · rw [if_pos hk] at heq
          rw [← heq]
          exact hnext
        · rw [if_neg hk] at heq
          rw [← heq]
          exact hm kv0 hkv0
      · exact hm kv hkv

theorem foldl_upsert_prop (P : Github.ParsedReadmeDeadline → Prop) :
    ∀ (pushes : List Github.ParsedReadmeDeadline)
      (m0 : List (String × Github.ParsedReadmeDeadline)),
      (∀ p ∈ pushes, P p) → (∀ kv ∈ m0, P kv.2) →
      ∀ kv ∈ pushes.foldl Github.upsertReadmeDeadline m0, P kv.2 := by
  intro pushes
  induction pushes with
  | nil => intro m0 _ hm0; exact hm0
  | cons p ps ih =>
    intro m0 hv hm0
    exact ih _ (fun q hq => hv q (List.mem_cons_of_mem p hq))
      (upsertReadme_prop P m0 p hm0 (hv p (List.mem_cons_self p ps)))

theorem foldl_pushCandidate_eq {γ : Type} (course : String) (now : Int)
    (bodies : List γ) (f : γ → Option String) (iso : Option String)
    (m : List (String × Github.ParsedReadmeDeadline)) :
    bodies.foldl (fun acc b => Github.pushCandidate course now acc (f b) iso) m =
      (bodies.filterMap (fun b => Github.pushedCandidate course now (f b) iso)).foldl
        Github.upsertReadmeDeadline m := by
  induction bodies generalizing m with
  | nil => rfl
  | cons b bs ih =>
    simp only [List.foldl_cons, List.filterMap_cons, Github.pushCandidate]
    cases hp : Github.pushedCandidate course now (f b) iso with
    | none => exact ih m
    | some c => simp only [List.foldl_cons]; exact ih _

theorem parseReadmeLine_eq_foldl (course : String) (now : Int)
    (m : List (String × Github.ParsedReadmeDeadline)) (line : List Char) :
    Github.parseReadmeLine course now m line =
      (Github.lineCandidates course now line).foldl Github.upsertReadmeDeadline m := by
  simp only [Github.parseReadmeLine, Github.lineCandidates]
  split_ifs with h1 h2
  · cases hdm : Github.matchAllDotted (line.length + 1) line with
    | nil => rfl
    | cons m0 rest =>
      exact foldl_pushCandidate_eq course now _ _ _ m
  · rfl
  · cases hlast : (Github.matchAllDotted (line.length + 1) line).getLast? with
    | none => rfl
    | some mLast =>
      simp only [Github.pushCandidate]
      cases hp : Github.pushedCandidate course now
          (match (Github.taskRegexFirst line).map String.mk with
           | some t => some t
           | none => ((Github.matchAllBold (line.length + 1) line).get? 1).map
               (fun body => String.mk ('*' :: '*' :: body ++ '*' :: '*' :: [])))
          (Github.toIsoFromDottedDateMatch mLast) with
      | none => rfl
      | some c => rfl

theorem parse_eq_pushes (markdown course : String) (now : Int) :
    Github.parseGitHubCourseDeadlinesFromReadme markdown course now =
      stableSortBy (fun l r => Dedup.dueKeyMs l.dueDate - Dedup.dueKeyMs r.dueDate)
        (((Github.readmePushes markdown course now).foldl Github.upsertReadmeDeadline []).map
          Prod.snd) := by
  simp only [Github.parseGitHubCourseDeadlinesFromReadme, Github.readmePushes]
  congr 1
  congr 1
  have hgen : ∀ (lines : List (List Char)) (m : List (String × Github.ParsedReadmeDeadline)),
      lines.foldl (Github.parseReadmeLine course now) m =
        (lines.flatMap (Github.lineCandidates course now)).foldl Github.upsertReadmeDeadline m := by
    intro lines
    induction lines with
    | nil => intro m; rfl
    | cons l ls ih =>
      intro m
      simp only [List.foldl_cons, List.flatMap_cons, List.foldl_append,
        parseReadmeLine_eq_foldl]
      exact ih _
  exact hgen _ []

theorem mem_readmePushes_prop {markdown course : String} {now : Int}
    {c : Github.ParsedReadmeDeadline} (h : c ∈ Github.readmePushes markdown course now) :
    ∃ ms, JsDate.parseIso c.dueDate = some ms ∧ now ≤ ms ∧
      c.sourceDueDate = c.dueDate ∧ c.course = course := by
  simp only [Github.readmePushes] at h
  rcases List.mem_flatMap.mp h with ⟨line, _, hline⟩
  simp only [Github.lineCandidates] at hline
  split_ifs at hline
  · split at hline
    · simp at hline
    · rcases List.mem_filterMap.mp hline with ⟨body, _, hp⟩
      exact pushedCandidate_prop hp
  · simp at hline
  · split at hline
    · simp at hline
    · cases hp : Github.pushedCandidate course now
          (match (Github.taskRegexFirst line).map String.mk with
           | some t => some t
           | none => ((Github.matchAllBold (line.length + 1) line).get? 1).map
               (fun body => String.mk ('*' :: '*' :: body ++ '*' :: '*' :: []))) _ with
      | none =>
        rw [hp] at hline
        simp at hline
      | some c0 =>
        rw [hp] at hline
        rcases List.mem_singleton.mp (by simpa using hline) with rfl
        exact pushedCandidate_prop hp

/-- C7 (amended): every candidate extracted by the TP exam bridge has a due
date strictly after the injected `now` (its ISO string is `toISOString ms`
with `now < ms`), while every candidate returned by the GitHub README parser
has a parseable due date at-or-after `now` (`now ≤ ms`, so a date exactly
equal to `now` survives, not only strictly-future ones); in both cases the
candidate's `sourceDueDate` equals its `dueDate`. In the concrete scenario,
parsing the two-line README whose first row carries 18.02.2026 and whose
second row carries 22.02.2026 for the same task at now = 2026-02-20 yields
the single 22.02.2026 candidate; the past 18.02.2026 row is dropped. -/
theorem C7_future_filter :
    (∀ (events : List ImportedCalendarEvent) (now : Int)
        (c : TPBridge.TPExamDeadlineCandidate),
        c ∈ TPBridge.extractTPExamDeadlineCandidates events now →
        ∃ ms, now < ms ∧ c.dueDate = JsDate.toISOString ms ∧
          c.sourceDueDate = c.dueDate) ∧
    (∀ (markdown course : String) (now : Int) (c : Github.ParsedReadmeDeadline),
        c ∈ Github.parseGitHubCourseDeadlinesFromReadme markdown course now →
        ∃ ms, JsDate.parseIso c.dueDate = some ms ∧ now ≤ ms ∧
          c.sourceDueDate = c.dueDate) ∧
    (Github.parseGitHubCourseDeadlinesFromReadme fxReadmeTwoLines "DAT560" fxNow).map
      (fun c => (c.task, c.dueDate)) =
      [("Assignment 2 deadline", "2026-02-22T23:59:00.000Z")] := by
  refine ⟨?_, ?_, by decide⟩
  · intro events now c hc
    simp only [TPBridge.extractTPExamDeadlineCandidates] at hc
    rw [mem_stableSortBy] at hc
    rcases List.mem_map.mp hc with ⟨kv, hkv, rfl⟩
    exact foldl_mem_invariant
      (fun kv => ∃ ms, now < ms ∧ kv.2.dueDate = JsDate.toISOString ms ∧
        kv.2.sourceDueDate = kv.2.dueDate)
      (TPBridge.extractStep now)
      (fun acc e hacc => extractStep_prop now acc e hacc) events [] (by simp) kv hkv
  · intro markdown course now c hc
    rw [parse_eq_pushes, mem_stableSortBy] at hc
    rcases List.mem_map.mp hc with ⟨kv, hkv, rfl⟩
    exact foldl_upsert_prop
      (fun c => ∃ ms, JsDate.parseIso c.dueDate = some ms ∧ now ≤ ms ∧
        c.sourceDueDate = c.dueDate)
      (Github.readmePushes markdown course now) []
      (fun p hp => by
        rcases mem_readmePushes_prop hp with ⟨ms, h1, h2, h3, _⟩
        exact ⟨ms, h1, h2, h3⟩)
      (by simp) kv hkv

/-- Witness for C7: the amended theorem applied to a concrete calendar event
whose extracted candidate is due 2026-05-29, strictly after now = 2026-02-20. -/
theorem C7_witness :
    ∃ ms, fxNow < ms ∧ fxC7cand.dueDate = JsDate.toISOString ms ∧
      fxC7cand.sourceDueDate = fxC7cand.dueDate :=
  C7_future_filter.1 [fxExamEventDescOnly] fxNow fxC7cand (by decide)

theorem highestPriority_eq_fold (l : List Dedup.DedupDeadlineMember) :
    Dedup.highestPriority l = l.foldl prMaxStep Priority.low := rfl

theorem foldl_prMaxStep_spec (l : List Dedup.DedupDeadlineMember) :
    ∀ init : Priority,
      Dedup.PRIORITY_RANK init ≤ Dedup.PRIORITY_RANK (l.foldl prMaxStep init) ∧
      (∀ m ∈ l, Dedup.PRIORITY_RANK m.priority ≤
        Dedup.PRIORITY_RANK (l.foldl prMaxStep init)) ∧
      (l.foldl prMaxStep init = init ∨ ∃ m ∈ l, l.foldl prMaxStep init = m.priority) := by
  induction l with
  | nil => intro init; exact ⟨le_refl _, by simp, Or.inl rfl⟩
  | cons x xs ih =>
    intro init
    rcases ih (prMaxStep init x) with ⟨h1, h2, h3⟩
    have hstep : Dedup.PRIORITY_RANK init ≤ Dedup.PRIORITY_RANK (prMaxStep init x) ∧
        Dedup.PRIORITY_RANK x.priority ≤ Dedup.PRIORITY_RANK (prMaxStep init x) := by
      simp only [prMaxStep]
      split_ifs with h
      · exact ⟨by omega, le_refl _⟩
      · exact ⟨le_refl _, by omega⟩
    refine ⟨le_trans hstep.1 h1, ?_, ?_⟩
    · intro m hm
      rcases List.mem_cons.mp hm with rfl | hmem
      · exact le_trans hstep.2 h1
      · exact h2 m hmem
    · rcases h3 with heq | ⟨m, hmem, heq⟩
      · by_cases h : Dedup.PRIORITY_RANK init < Dedup.PRIORITY_RANK x.priority
        · refine Or.inr ⟨x, List.mem_cons_self x xs, ?_⟩
          rw [List.foldl_cons, heq]
          simp [prMaxStep, h]
        · refine Or.inl ?_
          rw [List.foldl_cons, heq]
          simp [prMaxStep, h]
      · exact Or.inr ⟨m, List.mem_cons_of_mem x hmem, heq⟩

theorem priority_rank_le_low {p : Priority}
    (h : Dedup.PRIORITY_RANK p ≤ Dedup.PRIORITY_RANK Priority.low) : p = Priority.low := by
  cases p <;> simp_all [Dedup.PRIORITY_RANK]

theorem earliestDueDate_spec (l : List Dedup.DedupDeadlineMember) (fallback : String) :
    ((∀ m ∈ l, JsDate.parseIso m.dueDate = none) →
      Dedup.earliestDueDate l fallback = fallback) ∧
    (∀ m0 ∈ l, ∀ ms0 : Int, JsDate.parseIso m0.dueDate = some ms0 →
      ∃ m ∈ l, Dedup.earliestDueDate l fallback = m.dueDate ∧
        ∃ ms, JsDate.parseIso m.dueDate = some ms ∧
          ∀ m' ∈ l, ∀ ms' : Int, JsDate.parseIso m'.dueDate = some ms' → ms ≤ ms') := by
  constructor
  · intro hall
    simp only [Dedup.earliestDueDate]
    have hnil : (l.map (fun d => d.dueDate)).filter
        (fun d => (JsDate.parseIso d).isSome) = [] := by
      rw [List.filter_eq_nil_iff]
      intro d hd
      rcases List.mem_map.mp hd with ⟨m, hm, rfl⟩
      simp [hall m hm]
    rw [hnil]
    rfl
  · intro m0 hm0 ms0 hms0
    simp only [Dedup.earliestDueDate]
    have hmem0 : m0.dueDate ∈ (l.map (fun d => d.dueDate)).filter
        (fun d => (JsDate.parseIso d).isSome) := by
      rw [List.mem_filter]
      exact ⟨List.mem_map.mpr ⟨m0, hm0, rfl⟩, by simp [hms0]⟩
    have hmemsort := (mem_stableSortBy (fun a b => Dedup.dueKeyMs a - Dedup.dueKeyMs b)
      ((l.map (fun d => d.dueDate)).filter (fun d => (JsDate.parseIso d).isSome))
      m0.dueDate).mpr hmem0
    cases hsort : stableSortBy (fun a b => Dedup.dueKeyMs a - Dedup.dueKeyMs b)
        ((l.map (fun d => d.dueDate)).filter (fun d => (JsDate.parseIso d).isSome)) with
    | nil => rw [hsort] at hmemsort; simp at hmemsort
    | cons h t =>
      have hpw := pairwise_stableSortBy_key Dedup.dueKeyMs
        ((l.map (fun d => d.dueDate)).filter (fun d => (JsDate.parseIso d).isSome))
      rw [hsort, List.pairwise_cons] at hpw
      have hhead : h ∈ (l.map (fun d => d.dueDate)).filter
          (fun d => (JsDate.parseIso d).isSome) := by
        rw [← mem_stableSortBy (fun a b => Dedup.dueKeyMs a - Dedup.dueKeyMs b), hsort]
        exact List.mem_cons_self h t
      rw [List.mem_filter] at hhead
      rcases List.mem_map.mp hhead.1 with ⟨m, hm, rfl⟩
      rcases Option.isSome_iff_exists.mp (by simpa using hhead.2) with ⟨ms, hms⟩
      refine ⟨m, hm, rfl, ms, hms, ?_⟩
      intro m' hm' ms' hms'
      have hmem' : m'.dueDate ∈ (l.map (fun d => d.dueDate)).filter
          (fun d => (JsDate.parseIso d).isSome) := by
        rw [List.mem_filter]
        exact ⟨List.mem_map.mpr ⟨m', hm', rfl⟩, by simp [hms']⟩
      rw [← mem_stableSortBy (fun a b => Dedup.dueKeyMs a - Dedup.dueKeyMs b), hsort] at hmem'
      have hkey : Dedup.dueKeyMs m.dueDate ≤ Dedup.dueKeyMs m'.dueDate := by
        rcases List.mem_cons.mp hmem' with heq | hint
        · rw [heq]
        · exact hpw.1 _ hint
      simpa [Dedup.dueKeyMs, hms, hms'] using hkey

/-- C8: for every generated merge suggestion, the merged preview copies course
and task from the canonical record, its `completed` flag is true iff some
group member is completed, its priority is a member's priority of maximal
priority rank, and its due date is the due date of a member whose parsed due
time is minimal among all parseable member due dates (falling back to the
canonical record's due date when no member's due date parses). -/
theorem C8_merged_preview (deadlines : List Deadline)
    (s : Dedup.DeadlineMergeSuggestion)
    (h : s ∈ Dedup.generateDeadlineMergeSuggestions deadlines) :
    (∃ canonical ∈ s.members, canonical.id = s.canonicalId ∧
      s.mergedPreview.course = canonical.course ∧
      s.mergedPreview.task = canonical.task) ∧
    (s.mergedPreview.completed = true ↔ ∃ m ∈ s.members, m.completed = true) ∧
    (∃ m ∈ s.members, s.mergedPreview.priority = m.priority) ∧
    (∀ m ∈ s.members, Dedup.PRIORITY_RANK m.priority ≤
      Dedup.PRIORITY_RANK s.mergedPreview.priority) ∧
    (∀ m0 ∈ s.members, ∀ ms0 : Int, JsDate.parseIso m0.dueDate = some ms0 →
      ∃ m ∈ s.members, s.mergedPreview.dueDate = m.dueDate ∧
        ∃ ms, JsDate.parseIso m.dueDate = some ms ∧
          ∀ m' ∈ s.members, ∀ ms' : Int, JsDate.parseIso m'.dueDate = some ms' → ms ≤ ms') ∧
    ((∀ m ∈ s.members, JsDate.parseIso m.dueDate = none) →
      ∃ canonical ∈ s.members, canonical.id = s.canonicalId ∧
        s.mergedPreview.dueDate = canonical.dueDate) := by
  rcases mem_generate h with ⟨g, hg⟩
  rcases suggestion_shape hg with
    ⟨canonical, duplicates, hsort, hid, hmembers, hdup, hlen, hpreview⟩
  have hcanmem : canonical ∈ s.members := by
    rw [hmembers]
    exact List.mem_cons_self canonical duplicates
  refine ⟨⟨canonical, hcanmem, hid.symm, by rw [hpreview], by rw [hpreview]⟩, ?_, ?_, ?_, ?_, ?_⟩
  · rw [hpreview, hmembers]
    simp only [List.any_eq_true]
  · rw [hpreview, hmembers]
    simp only
    rw [highestPriority_eq_fold]
    rcases (foldl_prMaxStep_spec (canonical :: duplicates) Priority.low).2.2 with heq | hex
    · refine ⟨canonical, List.mem_cons_self canonical duplicates, ?_⟩
      rw [heq]
      have hc := (foldl_prMaxStep_spec (canonical :: duplicates) Priority.low).2.1 canonical
        (List.mem_cons_self canonical duplicates)
      rw [heq] at hc
      exact (priority_rank_le_low hc).symm
    · rcases hex with ⟨m, hm, heq⟩
      exact ⟨m, hm, heq⟩
  · intro m hm
    rw [hpreview]
    simp only
    rw [highestPriority_eq_fold]
    rw [hmembers] at hm
    exact (foldl_prMaxStep_spec (canonical :: duplicates) Priority.low).2.1 m hm
  · intro m0 hm0 ms0 hms0
    rw [hmembers] at hm0
    rw [hpreview]
    simp only
    rcases (earliestDueDate_spec (canonical :: duplicates) canonical.dueDate).2 m0 hm0 ms0 hms0
      with ⟨m, hm, heq, ms, hms, hmin⟩
    refine ⟨m, by rw [hmembers]; exact hm, heq, ms, hms, ?_⟩
    intro m' hm' ms' hms'
    rw [hmembers] at hm'
    exact hmin m' hm' ms' hms'
  · intro hall
    rw [hmembers] at hall
    refine ⟨canonical, hcanmem, hid.symm, ?_⟩
    rw [hpreview]
    exact (earliestDueDate_spec (canonical :: duplicates) canonical.dueDate).1 hall

/-- Witness for C8: the completed flag of the concrete suggestion over the two
fixture deadlines reflects membership of a completed record. -/
theorem C8_witness :
    fxC8sugg.mergedPreview.completed = true ↔
      ∃ m ∈ fxC8sugg.members, m.completed = true :=
  (C8_merged_preview [fxDeadlineA, fxDeadlineB] fxC8sugg (by decide)).2.1

theorem upsert_char (m : List (String × Github.ParsedReadmeDeadline))
    (next : Github.ParsedReadmeDeadline) :
    (Github.upsertReadmeDeadline m next = m ∧
      (normalizeTextKey next.task = "" ∨
       ∃ ex ∈ m, ex.1 = normalizeTextKey next.task ∧
         ¬ (∃ a b : Int, JsDate.parseIso next.dueDate = some a ∧
             JsDate.parseIso ex.2.dueDate = some b ∧ b ≤ a))) ∨
    (Github.upsertReadmeDeadline m next = m ++ [(normalizeTextKey next.task, next)] ∧
      normalizeTextKey next.task ≠ "" ∧
      ∀ kv ∈ m, kv.1 ≠ normalizeTextKey next.task) ∨
    (∃ ex ∈ m, ex.1 = normalizeTextKey next.task ∧ normalizeTextKey next.task ≠ "" ∧
      (∃ a b : Int, JsDate.parseIso next.dueDate = some a ∧
        JsDate.parseIso ex.2.dueDate = some b ∧ b ≤ a) ∧
      Github.upsertReadmeDeadline m next =
        m.map (fun kv => if kv.1 == normalizeTextKey next.task
          then (normalizeTextKey next.task, next) else kv)) := by
  simp only [Github.upsertReadmeDeadline]
  split_ifs with hkey
  · exact Or.inl ⟨rfl, Or.inl hkey⟩
  · cases hfind : m.find? (fun kv => kv.1 == normalizeTextKey next.task) with
    | none =>
      refine Or.inr (Or.inl ⟨rfl, hkey, ?_⟩)
      intro kv hkv
      have := List.find?_eq_none.mp hfind kv hkv
      simpa using this
    | some ex =>
      dsimp only
      have hexmem : ex ∈ m := List.mem_of_find?_eq_some hfind
      have hexkey : ex.1 = normalizeTextKey next.task := by
        have := List.find?_some hfind
        simpa using this
      by_cases hrep : ∃ a b : Int, JsDate.parseIso next.dueDate = some a ∧
          JsDate.parseIso ex.2.dueDate = some b ∧ b ≤ a
      · rcases hrep with ⟨a, b, ha, hb, hab⟩
        have hcond : (match JsDate.parseIso next.dueDate,
            JsDate.parseIso ex.2.dueDate with
            | some a, some b => decide (b ≤ a)
            | _, _ => false) = true := by
          rw [ha, hb]
          exact decide_eq_true hab
        rw [if_pos hcond]
        exact Or.inr (Or.inr ⟨ex, hexmem, hexkey, hkey, ⟨a, b, ha, hb, hab⟩, rfl⟩)
      · have hfalse : (match JsDate.parseIso next.dueDate,
            JsDate.parseIso ex.2.dueDate with
            | some a, some b => decide (b ≤ a)
            | _, _ => false) = false := by
          cases ha : JsDate.parseIso next.dueDate with
          | none => rfl
          | some a =>
            cases hb : JsDate.parseIso ex.2.dueDate with
            | none => rfl
            | some b =>
              simp only [decide_eq_false_iff_not]
              intro hab
              exact hrep ⟨a, b, ha, hb, hab⟩
        rw [if_neg (by rw [hfalse]; exact Bool.false_ne_true)]
        exact Or.inl ⟨rfl, Or.inr ⟨ex, hexmem, hexkey, hrep⟩⟩

theorem eq_of_same_key {m : List (String × Github.ParsedReadmeDeadline)}
    (hnd : (m.map Prod.fst).Nodup) {kv kv' : String × Github.ParsedReadmeDeadline}
    (h1 : kv ∈ m) (h2 : kv' ∈ m) (hk : kv.1 = kv'.1) : kv = kv' := by
  induction m with
  | nil => simp at h1
  | cons x xs ih =>
    rw [List.map_cons, List.nodup_cons] at hnd
    rcases List.mem_cons.mp h1 with rfl | h1m
    · rcases List.mem_cons.mp h2 with rfl | h2m
      · rfl
      · exact absurd (hk ▸ List.mem_map.mpr ⟨kv', h2m, rfl⟩) hnd.1
    · rcases List.mem_cons.mp h2 with rfl | h2m
      · exact absurd (hk ▸ List.mem_map.mpr ⟨kv, h1m, rfl⟩) hnd.1
      · exact ih hnd.2 h1m h2m

theorem dueKey_of_parse {d : String} {x : Int} (h : JsDate.parseIso d = some x) :
    Dedup.dueKeyMs d = x := by
  simp [Dedup.dueKeyMs, h]

theorem upsert_spec (m : List (String × Github.ParsedReadmeDeadline))
    (next : Github.ParsedReadmeDeadline)
    (hnext : (JsDate.parseIso next.dueDate).isSome = true)
    (hinv : ∀ kv ∈ m, kv.1 = normalizeTextKey kv.2.task ∧ kv.1 ≠ "" ∧
      (JsDate.parseIso kv.2.dueDate).isSome = true)
    (hnd : (m.map Prod.fst).Nodup) :
    (∀ kv ∈ Github.upsertReadmeDeadline m next, kv.1 = normalizeTextKey kv.2.task ∧
      kv.1 ≠ "" ∧ (JsDate.parseIso kv.2.dueDate).isSome = true) ∧
    ((Github.upsertReadmeDeadline m next).map Prod.fst).Nodup ∧
    (∀ kv ∈ Github.upsertReadmeDeadline m next, kv ∈ m ∨ kv.2 = next) ∧
    (∀ kv0 ∈ m, ∃ kv1 ∈ Github.upsertReadmeDeadline m next, kv1.1 = kv0.1 ∧
      Dedup.dueKeyMs kv0.2.dueDate ≤ Dedup.dueKeyMs kv1.2.dueDate) ∧
    (∀ kv ∈ Github.upsertReadmeDeadline m next, normalizeTextKey next.task = kv.1 →
      Dedup.dueKeyMs next.dueDate ≤ Dedup.dueKeyMs kv.2.dueDate) := by
  rcases upsert_char m next with ⟨heq, hwhy⟩ | ⟨heq, hkey, hnew⟩ |
    ⟨ex, hexmem, hexkey, hkey, ⟨a, b, ha, hb, hab⟩, heq⟩
  · rw [heq]
    refine ⟨hinv, hnd, fun kv hkv => Or.inl hkv,
      fun kv0 h0 => ⟨kv0, h0, rfl, le_refl _⟩, ?_⟩
    intro kv hkv hk
    rcases hwhy with hempty | ⟨ex, hexmem, hexkey, hrep⟩
    · exact absurd (hempty ▸ hk.symm) (hinv kv hkv).2.1
    · have hkvex : kv = ex := eq_of_same_key hnd hkv hexmem (by rw [← hk, hexkey])
      rcases Option.isSome_iff_exists.mp hnext with ⟨a, ha⟩
      rcases Option.isSome_iff_exists.mp (hinv ex hexmem).2.2 with ⟨b, hb⟩
      have hlt : a < b := by
        by_contra hle
        exact hrep ⟨a, b, ha, hb, by omega⟩
      rw [hkvex, dueKey_of_parse ha, dueKey_of_parse hb]
      omega
  · rw [heq]
    refine ⟨?_, ?_, ?_, ?_, ?_⟩
    · intro kv hkv
      rcases List.mem_append.mp hkv with h | h
      · exact hinv kv h
      · rcases List.mem_singleton.mp h with rfl
        exact ⟨rfl, hkey, hnext⟩
    · rw [List.map_append, List.nodup_append]
      refine ⟨hnd, List.nodup_singleton _, ?_⟩
      intro x hx hx2
      rcases List.mem_map.mp hx with ⟨kv, hkv, rfl⟩
      rcases List.mem_singleton.mp (by simpa using hx2) with hkx
      exact hnew kv hkv hkx
    · intro kv hkv
      rcases List.mem_append.mp hkv with h | h
      · exact Or.inl h
      · rcases List.mem_singleton.mp h with rfl
        exact Or.inr rfl
    · intro kv0 h0
      exact ⟨kv0, List.mem_append_left _ h0, rfl, le_refl _⟩
    · intro kv hkv hk
      rcases List.mem_append.mp hkv with h | h
      · exact absurd hk.symm (hnew kv h)
      · rcases List.mem_singleton.mp h with rfl
        exact le_refl _
  · rw [heq]
    have hfst : ∀ kv ∈ m, (if (kv.1 == normalizeTextKey next.task) = true
        then (normalizeTextKey next.task, next) else kv).1 = kv.1 := by
      intro kv hkv
      by_cases hkk : (kv.1 == normalizeTextKey next.task) = true
      · rw [if_pos hkk]
        exact (beq_iff_eq.mp hkk).symm
      · rw [if_neg hkk]
    refine ⟨?_, ?_, ?_, ?_, ?_⟩
    · intro kv hkv
      rcases List.mem_map.mp hkv with ⟨kv1, hkv1, hf⟩
      by_cases hkk : (kv1.1 == normalizeTextKey next.task) = true
      · rw [if_pos hkk] at hf
        rw [← hf]
        exact ⟨rfl, hkey, hnext⟩
      · rw [if_neg hkk] at hf
        rw [← hf]
        exact hinv kv1 hkv1
    · rw [List.map_map]
      have : (m.map (Prod.fst ∘ (fun kv =>
          if (kv.1 == normalizeTextKey next.task) = true
          then (normalizeTextKey next.task, next) else kv))) = m.map Prod.fst := by
        refine List.map_congr_left ?_
        intro kv hkv
        exact hfst kv hkv
      rw [this]
      exact hnd
    · intro kv hkv
      rcases List.mem_map.mp hkv with ⟨kv1, hkv1, hf⟩
      by_cases hkk : (kv1.1 == normalizeTextKey next.task) = true
      · rw [if_pos hkk] at hf
        rw [← hf]
        exact Or.inr rfl
      · rw [if_neg hkk] at hf
        rw [← hf]
        exact Or.inl hkv1
    · intro kv0 h0
      by_cases hkk : (kv0.1 == normalizeTextKey next.task) = true
      · refine ⟨(normalizeTextKey next.task, next), ?_, ?_, ?_⟩
        · exact List.mem_map.mpr ⟨kv0, h0, by rw [if_pos hkk]⟩
        · exact (beq_iff_eq.mp hkk).symm
        · have hkv0ex : kv0 = ex := eq_of_same_key hnd h0 hexmem
            (by rw [beq_iff_eq.mp hkk, hexkey])
          rw [hkv0ex, dueKey_of_parse hb, dueKey_of_parse ha]
          exact hab
      · refine ⟨kv0, ?_, rfl, le_refl _⟩
        exact List.mem_map.mpr ⟨kv0, h0, by rw [if_neg hkk]⟩
    · intro kv hkv hk
      rcases List.mem_map.mp hkv with ⟨kv1, hkv1, hf⟩
      by_cases hkk : (kv1.1 == normalizeTextKey next.task) = true
      · rw [if_pos hkk] at hf
        rw [← hf]
      · rw [if_neg hkk] at hf
        rw [← hf] at hk
        rw [← hf]
        exact absurd (beq_iff_eq.mpr hk.symm) hkk

theorem upsert_key_exists (m : List (String × Github.ParsedReadmeDeadline))
    (next : Github.ParsedReadmeDeadline) (hkey : normalizeTextKey next.task ≠ "") :
    ∃ kv1 ∈ Github.upsertReadmeDeadline m next, kv1.1 = normalizeTextKey next.task := by
  simp only [Github.upsertReadmeDeadline]
  rw [if_neg hkey]
  cases hfind : m.find? (fun kv => kv.1 == normalizeTextKey next.task) with
  | none =>
    exact ⟨(normalizeTextKey next.task, next),
      List.mem_append_right _ (List.mem_singleton.mpr rfl), rfl⟩
  | some ex =>
    dsimp only
    have hexbeq : (ex.1 == normalizeTextKey next.task) = true := by
      simpa using List.find?_some hfind
    split_ifs with hrep
    · exact ⟨(normalizeTextKey next.task, next),
        List.mem_map.mpr ⟨ex, List.mem_of_find?_eq_some hfind, by rw [if_pos hexbeq]⟩, rfl⟩
    · exact ⟨ex, List.mem_of_find?_eq_some hfind, beq_iff_eq.mp hexbeq⟩

theorem foldl_upsert_full_spec :
    ∀ (pushes : List Github.ParsedReadmeDeadline)
      (m0 : List (String × Github.ParsedReadmeDeadline)),
      (∀ p ∈ pushes, (JsDate.parseIso p.dueDate).isSome = true) →
      (∀ kv ∈ m0, kv.1 = normalizeTextKey kv.2.task ∧ kv.1 ≠ "" ∧
        (JsDate.parseIso kv.2.dueDate).isSome = true) →
      (m0.map Prod.fst).Nodup →
      (∀ kv ∈ pushes.foldl Github.upsertReadmeDeadline m0,
        kv.1 = normalizeTextKey kv.2.task ∧ kv.1 ≠ "" ∧
        (JsDate.parseIso kv.2.dueDate).isSome = true) ∧
      ((pushes.foldl Github.upsertReadmeDeadline m0).map Prod.fst).Nodup ∧
      (∀ kv ∈ pushes.foldl Github.upsertReadmeDeadline m0, kv ∈ m0 ∨ kv.2 ∈ pushes) ∧
      (∀ kv ∈ pushes.foldl Github.upsertReadmeDeadline m0, ∀ kv0 ∈ m0, kv0.1 = kv.1 →
        Dedup.dueKeyMs kv0.2.dueDate ≤ Dedup.dueKeyMs kv.2.dueDate) ∧
      (∀ kv ∈ pushes.foldl Github.upsertReadmeDeadline m0, ∀ p ∈ pushes,
        normalizeTextKey p.task = kv.1 →
        Dedup.dueKeyMs p.dueDate ≤ Dedup.dueKeyMs kv.2.dueDate) := by
  intro pushes
  induction pushes with
  | nil =>
    intro m0 _ hinv hnd
    refine ⟨hinv, hnd, fun kv h => Or.inl h, ?_, by simp⟩
    intro kv h kv0 h0 hk
    rw [eq_of_same_key hnd h0 h hk]
  | cons p ps ih =>
    intro m0 hp hinv hnd
    have hs := upsert_spec m0 p (hp p (List.mem_cons_self p ps)) hinv hnd
    have ihm := ih (Github.upsertReadmeDeadline m0 p)
      (fun q hq => hp q (List.mem_cons_of_mem p hq)) hs.1 hs.2.1
    simp only [List.foldl_cons]
    refine ⟨ihm.1, ihm.2.1, ?_, ?_, ?_⟩
    · intro kv hkv
      rcases ihm.2.2.1 kv hkv with h1 | h2
      · rcases hs.2.2.1 kv h1 with h | h
        · exact Or.inl h
        · exact Or.inr (h ▸ List.mem_cons_self p ps)
      · exact Or.inr (List.mem_cons_of_mem p h2)
    · intro kv hkv kv0 h0 hk
      rcases hs.2.2.2.1 kv0 h0 with ⟨kv1, h1, hk1, hle1⟩
      exact le_trans hle1 (ihm.2.2.2.1 kv hkv kv1 h1 (hk1.trans hk))
    · intro kv hkv q hq hk
      rcases List.mem_cons.mp hq with rfl | hqs
      · have hkne : normalizeTextKey q.task ≠ "" := by
          rw [hk]
          exact (ihm.1 kv hkv).2.1
        rcases upsert_key_exists m0 q hkne with ⟨kv1, h1, hk1⟩
        have hle1 := hs.2.2.2.2 kv1 h1 hk1.symm
        exact le_trans hle1 (ihm.2.2.2.1 kv hkv kv1 h1 (by rw [hk1, hk]))
      · exact ihm.2.2.2.2 kv hkv q hqs hk

/-- C10: the README parser returns at most one candidate per normalized task
key; every returned candidate is one of the scanned line candidates and its
parsed due time is greatest among all scanned candidates sharing its
normalized task key (so a later-or-equal date wins over an earlier one), and
the returned list is sorted ascending by parsed due-date key. -/
theorem C10_latest_wins_per_task (markdown course : String) (now : Int) :
    ((Github.parseGitHubCourseDeadlinesFromReadme markdown course now).map
      (fun c => normalizeTextKey c.task)).Nodup ∧
    (∀ c ∈ Github.parseGitHubCourseDeadlinesFromReadme markdown course now,
      c ∈ Github.readmePushes markdown course now ∧
      ∀ p ∈ Github.readmePushes markdown course now,
        normalizeTextKey p.task = normalizeTextKey c.task →
        ∀ msp msc : Int, JsDate.parseIso p.dueDate = some msp →
          JsDate.parseIso c.dueDate = some msc → msp ≤ msc) ∧
    (Github.parseGitHubCourseDeadlinesFromReadme markdown course now).Pairwise
      (fun l r => Dedup.dueKeyMs l.dueDate ≤ Dedup.dueKeyMs r.dueDate) := by
  have hp : ∀ p ∈ Github.readmePushes markdown course now,
      (JsDate.parseIso p.dueDate).isSome = true := by
    intro p hpm
    rcases mem_readmePushes_prop hpm with ⟨ms, h1, _⟩
    simp [h1]
  have hspec := foldl_upsert_full_spec (Github.readmePushes markdown course now) []
    hp (by simp) (by simp)
  refine ⟨?_, ?_, ?_⟩
  · have hperm : (Github.parseGitHubCourseDeadlinesFromReadme markdown course now).map
        (fun c => normalizeTextKey c.task) |>.Perm
        ((((Github.readmePushes markdown course now).foldl Github.upsertReadmeDeadline
          []).map Prod.snd).map (fun c => normalizeTextKey c.task)) := by
      rw [parse_eq_pushes]
      exact (perm_stableSortBy _ _).map _
    rw [hperm.nodup_iff]
    rw [List.map_map]
    have heq : (((Github.readmePushes markdown course now).foldl
        Github.upsertReadmeDeadline []).map
        ((fun c => normalizeTextKey c.task) ∘ Prod.snd)) =
        (((Github.readmePushes markdown course now).foldl Github.upsertReadmeDeadline
          []).map Prod.fst) := by
      refine List.map_congr_left ?_
      intro kv hkv
      exact (hspec.1 kv hkv).1.symm
    rw [heq]
    exact hspec.2.1
  · intro c hc
    rw [parse_eq_pushes, mem_stableSortBy] at hc
    rcases List.mem_map.mp hc with ⟨kv, hkv, rfl⟩
    rcases hspec.2.2.1 kv hkv with habs | hmem
    · simp at habs
    · refine ⟨hmem, ?_⟩
      intro p hpm hk msp msc hmsp hmsc
      have hle := hspec.2.2.2.2 kv hkv p hpm (by rw [hk, (hspec.1 kv hkv).1])
      rw [dueKey_of_parse hmsp, dueKey_of_parse hmsc] at hle
      exact hle
  · rw [parse_eq_pushes]
    exact pairwise_stableSortBy_key (fun c : Github.ParsedReadmeDeadline => Dedup.dueKeyMs c.dueDate) _

/-- Witness for C10: the concrete two-line README parse has pairwise distinct
normalized task keys. -/
theorem C10_witness :
    ((Github.parseGitHubCourseDeadlinesFromReadme fxReadmeTwoLines "DAT560" fxNow).map
      (fun c => normalizeTextKey c.task)).Nodup :=
  (C10_latest_wins_per_task fxReadmeTwoLines "DAT560" fxNow).1

theorem chainTo_root {p : List Nat} {l : List Nat} {v r : Nat}
    (h : ChainTo p l v r) : p.get? r = some r := by
  induction h with
  | stop r h => exact h
  | step v w r l h hne tail ih => exact ih

theorem chainTo_det {p : List Nat} {l l' : List Nat} {v r r' : Nat}
    (h : ChainTo p l v r) (h' : ChainTo p l' v r') : l = l' ∧ r = r' := by
  induction h generalizing l' r' with
  | stop s hs =>
    cases h' with
    | stop => exact ⟨rfl, rfl⟩
    | step v w r l hv hne tail =>
      rw [hs] at hv
      exact absurd (Option.some_inj.mp hv).symm hne
  | step v w r l hv hne tail ih =>
    cases h' with
    | stop r' hr' =>
      rw [hr'] at hv
      exact absurd (Option.some_inj.mp hv).symm hne
    | step _ w' r' l'' hv' hne' tail' =>
      rw [hv] at hv'
      rcases Option.some_inj.mp hv' with rfl
      rcases ih tail' with ⟨rfl, rfl⟩
      exact ⟨rfl, rfl⟩

theorem reach_det {p : List Nat} {v r r' : Nat} (h : Reach p v r)
    (h' : Reach p v r') : r = r' := by
  rcases h with ⟨l, hc⟩
  rcases h' with ⟨l', hc'⟩
  exact (chainTo_det hc hc').2

theorem reach_root {p : List Nat} {v r : Nat} (h : Reach p v r) :
    p.get? r = some r := by
  rcases h with ⟨l, hc⟩
  exact chainTo_root hc

theorem reach_of_root {p : List Nat} {r : Nat} (h : p.get? r = some r) :
    Reach p r r := ⟨[], ChainTo.stop r h⟩

theorem chainTo_mem_suffix {p : List Nat} {l : List Nat} {w r v : Nat}
    (h : ChainTo p l w r) (hv : v ∈ l) :
    ∃ l', ChainTo p (v :: l') v r ∧ l'.length + 1 ≤ l.length := by
  induction h with
  | stop => simp at hv
  | step x y r l hx hne tail ih =>
    rcases List.mem_cons.mp hv with rfl | hvl
    · exact ⟨l, ChainTo.step v y r l hx hne tail, le_refl _⟩
    · rcases ih hvl with ⟨l', hc, hlen⟩
      exact ⟨l', hc, by simp only [List.length_cons]; omega⟩

theorem chainTo_nodup {p : List Nat} {l : List Nat} {v r : Nat}
    (h : ChainTo p l v r) : (r :: l).Nodup := by
  induction h with
  | stop r h => exact List.nodup_singleton r
  | step v w r l hv hne tail ih =>
    have hvr : v ≠ r := by
      intro hvr
      rw [hvr, chainTo_root tail] at hv
      exact hne ((Option.some_inj.mp hv).symm.trans hvr.symm)
    have hvl : v ∉ l := by
      intro hmem
      rcases chainTo_mem_suffix tail hmem with ⟨l', hc, hlen⟩
      rcases chainTo_det (ChainTo.step v w r l hv hne tail) hc with ⟨heq, _⟩
      have hll : l = l' := (List.cons.inj heq).2
      rw [hll] at hlen
      omega
    rw [List.nodup_cons] at ih ⊢
    refine ⟨?_, ?_⟩
    · intro hmem
      rcases List.mem_cons.mp hmem with hvr' | hmem'
      · exact hvr hvr'.symm
      · exact ih.1 hmem'
    · rw [List.nodup_cons]
      exact ⟨hvl, ih.2⟩

theorem chainTo_mem_lt {p : List Nat} {l : List Nat} {v r : Nat}
    (h : ChainTo p l v r) : ∀ x ∈ r :: l, x < p.length := by
  induction h with
  | stop r h =>
    intro x hx
    rcases List.mem_singleton.mp hx with rfl
    exact (List.get?_eq_some.mp h).1
  | step v w r l hv hne tail ih =>
    intro x hx
    rcases List.mem_cons.mp hx with rfl | hx'
    · exact ih x (List.mem_cons_self x l)
    · rcases List.mem_cons.mp hx' with rfl | hx''
      · exact (List.get?_eq_some.mp hv).1
      · exact ih x (List.mem_cons_of_mem r hx'')

theorem chainTo_length_lt {p : List Nat} {l : List Nat} {v r : Nat}
    (h : ChainTo p l v r) : l.length < p.length := by
  have hnd := chainTo_nodup h
  have hlt := chainTo_mem_lt h
  have hsub : (r :: l).toFinset ⊆ Finset.range p.length := by
    intro x hx
    rw [Finset.mem_range]
    exact hlt x (List.mem_toFinset.mp hx)
  have hcard := Finset.card_le_card hsub
  rw [Finset.card_range, List.toFinset_card_of_nodup hnd] at hcard
  simpa using hcard

theorem get?_set_self (l : List Nat) (i a : Nat) (h : i < l.length) :
    (l.set i a).get? i = some a := by
  simp [List.get?_eq_getElem?, List.getElem?_set_self', List.getElem?_eq_getElem h]

theorem get?_set_ne (l : List Nat) (i j a : Nat) (h : i ≠ j) :
    (l.set i a).get? j = l.get? j :=
  List.get?_set_ne _ _ h

theorem reach_lt_length {p : List Nat} {v r : Nat} (h : Reach p v r) :
    v < p.length := by
  rcases h with ⟨l, hc⟩
  cases hc with
  | stop _ h => exact (List.get?_eq_some.mp h).1
  | step _ w _ l h hne tail => exact (List.get?_eq_some.mp h).1

theorem chainTo_set_root_to {p : List Nat} {v r : Nat} (hreach : Reach p v r) :
    ∀ {l : List Nat} {x y : Nat}, ChainTo (p.set v r) l x y → Reach p x y := by
  intro l x y hc
  have hvlt : v < p.length := reach_lt_length hreach
  induction hc with
  | stop s hs =>
    by_cases hxv : s = v
    · subst hxv
      rw [get?_set_self p s r hvlt] at hs
      have hrv : r = s := Option.some_inj.mp hs
      exact reach_of_root (hrv ▸ reach_root hreach)
    · rw [get?_set_ne p v s r (Ne.symm hxv)] at hs
      exact reach_of_root hs
  | step x w y l hx hnex tail ih =>
    by_cases hxv : x = v
    · subst hxv
      rw [get?_set_self p x r hvlt] at hx
      have hwr : r = w := Option.some_inj.mp hx
      have hyr : y = r := by
        have hry : Reach p r y := hwr ▸ ih
        exact (reach_det (reach_of_root (reach_root hreach)) hry).symm
      rw [hyr]
      exact hreach
    · rw [get?_set_ne p v x r (Ne.symm hxv)] at hx
      rcases ih with ⟨l', hc'⟩
      exact ⟨x :: l', ChainTo.step x w y l' hx hnex hc'⟩

theorem chainTo_set_root_from {p : List Nat} {v r : Nat} (hreach : Reach p v r) :
    ∀ {l : List Nat} {x y : Nat}, ChainTo p l x y → Reach (p.set v r) x y := by
  intro l x y hc
  have hvlt : v < p.length := reach_lt_length hreach
  induction hc with
  | stop s hs =>
    by_cases hxv : s = v
    · subst hxv
      have hrs : r = s := reach_det hreach (reach_of_root hs)
      refine reach_of_root ?_
      rw [hrs, get?_set_self p s s hvlt]
    · refine reach_of_root ?_
      rw [get?_set_ne p v s r (Ne.symm hxv)]
      exact hs
  | step x w y l hx hnex tail ih =>
    by_cases hxv : x = v
    · subst hxv
      have hyr : y = r := by
        have : Reach p x y := ⟨x :: l, ChainTo.step x w y l hx hnex tail⟩
        exact reach_det this hreach
      have hrnex : r ≠ x := by
        intro hrx
        have hroot : p.get? r = some r := reach_root hreach
        rw [hrx] at hroot
        rw [hroot] at hx
        exact hnex (Option.some_inj.mp hx).symm
      refine ⟨[x], ?_⟩
      rw [hyr]
      refine ChainTo.step x r r [] (by rw [get?_set_self p x r hvlt]) hrnex ?_
      refine ChainTo.stop r ?_
      rw [get?_set_ne p x r r hrnex.symm]
      exact reach_root hreach
    · rcases ih with ⟨l', hc'⟩
      refine ⟨x :: l', ChainTo.step x w y l' ?_ hnex hc'⟩
      rw [get?_set_ne p v x r (Ne.symm hxv)]
      exact hx

theorem reach_set_root_equiv {p : List Nat} {v r : Nat} (hreach : Reach p v r) :
    ufEquiv (p.set v r) p := by
  intro x y
  constructor
  · intro h
    rcases h with ⟨l, hc⟩
    exact chainTo_set_root_to hreach hc
  · intro h
    rcases h with ⟨l, hc⟩
    exact chainTo_set_root_from hreach hc

theorem chainTo_set_of_target_ne {p : List Nat} {s t : Nat}
    (hs : p.get? s = some s) :
    ∀ {l : List Nat} {x r : Nat}, ChainTo p l x r → r ≠ s →
      ChainTo (p.set s t) l x r := by
  intro l x r hc
  induction hc with
  | stop u hu =>
    intro hrs
    refine ChainTo.stop u ?_
    rw [get?_set_ne p s u t (fun h => hrs h.symm)]
    exact hu
  | step x w y l hx hnex tail ih =>
    intro hrs
    have hxs : x ≠ s := by
      intro hxs
      rw [hxs, hs] at hx
      exact hnex ((Option.some_inj.mp hx).symm.trans hxs.symm)
    refine ChainTo.step x w y l ?_ hnex (ih hrs)
    rw [get?_set_ne p s x t (fun h => hxs h.symm)]
    exact hx

theorem reach_set_redirect {p : List Nat} {ri rj : Nat}
    (hri : p.get? ri = some ri) (hne : ri ≠ rj) :
    ∀ {l : List Nat} {x : Nat}, ChainTo p l x rj → Reach (p.set rj ri) x ri := by
  suffices aux : ∀ {l : List Nat} {x y : Nat}, ChainTo p l x y → y = rj →
      Reach (p.set rj ri) x ri by
    intro l x hc
    exact aux hc rfl
  intro l x y hc
  induction hc with
  | stop u hu =>
    intro hurj
    subst hurj
    have hult : u < p.length := (List.get?_eq_some.mp hu).1
    refine ⟨[u], ChainTo.step u ri ri [] ?_ hne ?_⟩
    · rw [get?_set_self p u ri hult]
    · refine ChainTo.stop ri ?_
      rw [get?_set_ne p u ri ri (fun h => hne h.symm)]
      exact hri
  | step x w y l hx hnex tail ih =>
    intro hyrj
    have hrootrj : p.get? y = some y := chainTo_root tail
    have hxrj : x ≠ rj := by
      intro hxrj
      have hxy : x = y := by rw [hxrj, hyrj]
      rw [hxy, hrootrj] at hx
      exact hnex ((Option.some_inj.mp hx).symm.trans hxy.symm)
    rcases ih hyrj with ⟨l2, hc2⟩
    refine ⟨x :: l2, ChainTo.step x w ri l2 ?_ hnex hc2⟩
    rw [get?_set_ne p rj x ri (Ne.symm hxrj)]
    exact hx

theorem ufEquiv_refl (p : List Nat) : ufEquiv p p := fun _ _ => Iff.rfl

theorem ufEquiv_trans {p q s : List Nat} (h1 : ufEquiv p q) (h2 : ufEquiv q s) :
    ufEquiv p s := fun v r => (h1 v r).trans (h2 v r)

theorem ufFind_spec : ∀ (fuel : Nat) (p : List Nat) (l : List Nat) (v r : Nat),
    ChainTo p l v r → l.length < fuel →
    (Dedup.ufFind fuel p v).2 = r ∧ (Dedup.ufFind fuel p v).1.length = p.length ∧
    ufEquiv (Dedup.ufFind fuel p v).1 p := by
  intro fuel
  induction fuel with
  | zero =>
    intro p l v r hc hlen
    omega
  | succ f ih =>
    intro p l v r hc hlen
    cases hc with
    | stop =>
      rename_i hroot
      have heq : Dedup.ufFind (f + 1) p v = (p, v) := by
        have hroot2 : p[v]? = some v := by
          rw [← List.get?_eq_getElem?]
          exact hroot
        simp [Dedup.ufFind, hroot2]
      rw [heq]
      exact ⟨rfl, rfl, ufEquiv_refl p⟩
    | step _ w _ l hv hne tail =>
      have heq : Dedup.ufFind (f + 1) p v =
          ((Dedup.ufFind f p w).1.set v (Dedup.ufFind f p w).2,
            (Dedup.ufFind f p w).2) := by
        simp only [Dedup.ufFind, hv]
        rw [if_neg hne]
      rcases ih p l w r tail (by simp only [List.length_cons] at hlen; omega) with
        ⟨h2, hlen2, hequiv⟩
      rw [heq, h2]
      have hreach1 : Reach (Dedup.ufFind f p w).1 v r :=
        (hequiv v r).mpr ⟨v :: l, ChainTo.step v w r l hv hne tail⟩
      refine ⟨rfl, ?_, ?_⟩
      · simp [List.length_set, hlen2]
      · exact ufEquiv_trans (reach_set_root_equiv hreach1) hequiv

theorem ufok_reach_find {p : List Nat} {v : Nat} (h : v < p.length)
    (hok : UFOk p) :
    Reach p v (Dedup.ufFind p.length p v).2 ∧
    (Dedup.ufFind p.length p v).1.length = p.length ∧
    ufEquiv (Dedup.ufFind p.length p v).1 p := by
  rcases hok v h with ⟨r, hr⟩
  rcases hr with ⟨l, hc⟩
  rcases ufFind_spec p.length p l v r hc (chainTo_length_lt hc) with ⟨h1, h2, h3⟩
  exact ⟨h1 ▸ ⟨l, hc⟩, h2, h3⟩

theorem ufEquiv_ufok {p q : List Nat} (heq : ufEquiv p q) (hlen : p.length = q.length)
    (hok : UFOk q) : UFOk p := by
  intro v hv
  rcases hok v (by omega) with ⟨r, hr⟩
  exact ⟨r, (heq v r).mpr hr⟩

theorem ufEquiv_sameRoot {p q : List Nat} (heq : ufEquiv p q) {x y : Nat}
    (h : sameRoot p x y) : sameRoot q x y := by
  rcases h with ⟨r, h1, h2⟩
  exact ⟨r, (heq x r).mp h1, (heq y r).mp h2⟩

theorem ufUnion_spec {p : List Nat} (hok : UFOk p) {i j : Nat}
    (hi : i < p.length) (hj : j < p.length) :
    (Dedup.ufUnion p i j).length = p.length ∧
    UFOk (Dedup.ufUnion p i j) ∧
    (∀ x y, sameRoot p x y → sameRoot (Dedup.ufUnion p i j) x y) ∧
    sameRoot (Dedup.ufUnion p i j) i j := by
  rcases ufok_reach_find hi hok with ⟨hri, hlen1, hequiv1⟩
  have hok1 : UFOk (Dedup.ufFind p.length p i).1 := ufEquiv_ufok hequiv1 hlen1 hok
  have hj1 : j < (Dedup.ufFind p.length p i).1.length := by omega
  rcases ufok_reach_find hj1 hok1 with ⟨hrj, hlen2, hequiv2⟩
  simp only [Dedup.ufUnion]
  set p1 := (Dedup.ufFind p.length p i).1 with hp1
  set ri := (Dedup.ufFind p.length p i).2 with hri2
  set p2 := (Dedup.ufFind p1.length p1 j).1 with hp2
  set rj := (Dedup.ufFind p1.length p1 j).2 with hrj2
  have hequiv21 : ufEquiv p2 p := ufEquiv_trans hequiv2 hequiv1
  have hlen21 : p2.length = p.length := by omega
  have hreach2i : Reach p2 i ri := (hequiv21 i ri).mpr hri
  have hreach2j : Reach p2 j rj := (hequiv2 j rj).mpr hrj
  by_cases hne : ri ≠ rj
  · rw [if_pos hne]
    have hrootri : p2.get? ri = some ri := reach_root hreach2i
    have hsetlen : (p2.set rj ri).length = p.length := by
      rw [List.length_set]
      exact hlen21
    have hkeep : ∀ x r, Reach p2 x r → r ≠ rj → Reach (p2.set rj ri) x r := by
      intro x r hx hrne
      rcases hx with ⟨l, hc⟩
      exact ⟨l, chainTo_set_of_target_ne (reach_root hreach2j) hc hrne⟩
    have hredir : ∀ x, Reach p2 x rj → Reach (p2.set rj ri) x ri := by
      intro x hx
      rcases hx with ⟨l, hc⟩
      exact reach_set_redirect hrootri hne hc
    refine ⟨hsetlen, ?_, ?_, ?_⟩
    · intro v hv
      rcases (ufEquiv_ufok hequiv21 hlen21 hok) v (by omega) with ⟨r, hr⟩
      by_cases hrrj : r = rj
      · exact ⟨ri, hredir v (hrrj ▸ hr)⟩
      · exact ⟨r, hkeep v r hr hrrj⟩
    · intro x y hxy
      rcases ufEquiv_sameRoot (fun v r => (hequiv21 v r).symm) hxy with ⟨r, hx, hy⟩
      by_cases hrrj : r = rj
      · exact ⟨ri, hredir x (hrrj ▸ hx), hredir y (hrrj ▸ hy)⟩
      · exact ⟨r, hkeep x r hx hrrj, hkeep y r hy hrrj⟩
    · refine ⟨ri, hkeep i ri hreach2i hne, hredir j hreach2j⟩
  · rw [if_neg hne]
    push_neg at hne
    refine ⟨hlen21, ufEquiv_ufok hequiv21 hlen21 hok, ?_, ?_⟩
    · intro x y hxy
      exact ufEquiv_sameRoot (fun v r => (hequiv21 v r).symm) hxy
    · exact ⟨ri, hreach2i, hne ▸ hreach2j⟩

theorem dupPairs_mem {n i j : Nat} (hij : i < j) (hj : j < n) :
    (i, j) ∈ Dedup.dupPairs n := by
  simp only [Dedup.dupPairs]
  rw [List.mem_flatMap]
  refine ⟨i, List.mem_range.mpr (by omega), ?_⟩
  rw [List.mem_map]
  refine ⟨j, ?_, rfl⟩
  rw [List.mem_iff_get?]
  refine ⟨j - (i + 1), ?_⟩
  rw [List.get?_drop]
  have harg : i + 1 + (j - (i + 1)) = j := by omega
  rw [harg]
  exact List.get?_range hj

theorem sameRoot_trans {p : List Nat} {i j k : Nat} (h1 : sameRoot p i j)
    (h2 : sameRoot p j k) : sameRoot p i k := by
  rcases h1 with ⟨r1, hi, hj⟩
  rcases h2 with ⟨r2, hj', hk⟩
  rw [reach_det hj hj'] at hi
  exact ⟨r2, hi, hk⟩

theorem buildParent_fold_spec (members : List Dedup.DedupDeadlineMember) :
    ∀ (pairs : List (Nat × Nat)) (p : List Nat),
      p.length = members.length → UFOk p →
      ((pairs.foldl
          (fun p ij =>
            match members.get? ij.1, members.get? ij.2 with
            | some mi, some mj =>
              if (Dedup.evaluateDuplicateSignal mi.toDeadline mj.toDeadline).isDuplicate then
                Dedup.ufUnion p ij.1 ij.2
              else p
            | _, _ => p) p).length = members.length ∧
       UFOk (pairs.foldl
          (fun p ij =>
            match members.get? ij.1, members.get? ij.2 with
            | some mi, some mj =>
              if (Dedup.evaluateDuplicateSignal mi.toDeadline mj.toDeadline).isDuplicate then
                Dedup.ufUnion p ij.1 ij.2
              else p
            | _, _ => p) p) ∧
       (∀ x y, sameRoot p x y → sameRoot (pairs.foldl
          (fun p ij =>
            match members.get? ij.1, members.get? ij.2 with
            | some mi, some mj =>
              if (Dedup.evaluateDuplicateSignal mi.toDeadline mj.toDeadline).isDuplicate then
                Dedup.ufUnion p ij.1 ij.2
              else p
            | _, _ => p) p) x y) ∧
       (∀ ij ∈ pairs, ∀ mi mj, members.get? ij.1 = some mi →
         members.get? ij.2 = some mj →
         (Dedup.evaluateDuplicateSignal mi.toDeadline mj.toDeadline).isDuplicate = true →
         sameRoot (pairs.foldl
          (fun p ij =>
            match members.get? ij.1, members.get? ij.2 with
            | some mi, some mj =>
              if (Dedup.evaluateDuplicateSignal mi.toDeadline mj.toDeadline).isDuplicate then
                Dedup.ufUnion p ij.1 ij.2
              else p
            | _, _ => p) p) ij.1 ij.2)) := by
  intro pairs
  induction pairs with
  | nil =>
    intro p hlen hok
    exact ⟨hlen, hok, fun x y h => h, by simp⟩
  | cons ij rest ih =>
    intro p hlen hok
    simp only [List.foldl_cons]
    have hstep : ∀ (p' : List Nat), p'.length = members.length → UFOk p' →
        ((match members.get? ij.1, members.get? ij.2 with
          | some mi, some mj =>
            if (Dedup.evaluateDuplicateSignal mi.toDeadline mj.toDeadline).isDuplicate then
              Dedup.ufUnion p' ij.1 ij.2
            else p'
          | _, _ => p').length = members.length ∧
         UFOk (match members.get? ij.1, members.get? ij.2 with
          | some mi, some mj =>
            if (Dedup.evaluateDuplicateSignal mi.toDeadline mj.toDeadline).isDuplicate then
              Dedup.ufUnion p' ij.1 ij.2
            else p'
          | _, _ => p') ∧
         (∀ x y, sameRoot p' x y → sameRoot (match members.get? ij.1, members.get? ij.2 with
          | some mi, some mj =>
            if (Dedup.evaluateDuplicateSignal mi.toDeadline mj.toDeadline).isDuplicate then
              Dedup.ufUnion p' ij.1 ij.2
            else p'
          | _, _ => p') x y) ∧
         (∀ mi mj, members.get? ij.1 = some mi → members.get? ij.2 = some mj →
           (Dedup.evaluateDuplicateSignal mi.toDeadline mj.toDeadline).isDuplicate = true →
           sameRoot (match members.get? ij.1, members.get? ij.2 with
            | some mi, some mj =>
              if (Dedup.evaluateDuplicateSignal mi.toDeadline mj.toDeadline).isDuplicate then
                Dedup.ufUnion p' ij.1 ij.2
              else p'
            | _, _ => p') ij.1 ij.2)) := by
      intro p' hlen' hok'
      cases hmi : members.get? ij.1 with
      | none =>
        refine ⟨hlen', hok', fun x y h => h, ?_⟩
        intro mi mj hmi' _ _
        exact absurd hmi' (by simp)
      | some mi =>
        cases hmj : members.get? ij.2 with
        | none =>
          refine ⟨hlen', hok', fun x y h => h, ?_⟩
          intro mi' mj hmi' hmj' _
          exact absurd hmj' (by simp)
        | some mj =>
          dsimp only
          by_cases hdup :
              (Dedup.evaluateDuplicateSignal mi.toDeadline mj.toDeadline).isDuplicate = true
          · rw [if_pos hdup]
            have hi : ij.1 < p'.length := by
              rw [hlen']
              exact (List.get?_eq_some.mp hmi).1
            have hj : ij.2 < p'.length := by
              rw [hlen']
              exact (List.get?_eq_some.mp hmj).1
            rcases ufUnion_spec hok' hi hj with ⟨h1, h2, h3, h4⟩
            refine ⟨by omega, h2, h3, ?_⟩
            intro mi' mj' hmi' hmj' _
            exact h4
          · rw [if_neg hdup]
            refine ⟨hlen', hok', fun x y h => h, ?_⟩
            intro mi' mj' hmi' hmj' hdup'
            rcases Option.some_inj.mp hmi' with rfl
            rcases Option.some_inj.mp hmj' with rfl
            exact absurd hdup' hdup
    rcases hstep p hlen hok with ⟨s1, s2, s3, s4⟩
    rcases ih _ s1 s2 with ⟨f1, f2, f3, f4⟩
    refine ⟨f1, f2, fun x y h => f3 x y (s3 x y h), ?_⟩
    intro ij' hij' mi mj hmi hmj hdup
    rcases List.mem_cons.mp hij' with rfl | hrest
    · exact f3 ij'.1 ij'.2 (s4 mi mj hmi hmj hdup)
    · exact f4 ij' hrest mi mj hmi hmj hdup

theorem two_mem_le_length {α : Type} {l : List α} {a b : α} (ha : a ∈ l)
    (hb : b ∈ l) (hne : a ≠ b) : 2 ≤ l.length := by
  cases l with
  | nil => simp at ha
  | cons x t =>
    cases t with
    | nil =>
      rcases List.mem_singleton.mp ha with rfl
      rcases List.mem_singleton.mp hb with rfl
      exact absurd rfl hne
    | cons y t2 =>
      simp only [List.length_cons]
      omega

theorem addToGroup_char (gs : List (Nat × List Dedup.DedupDeadlineMember)) (r : Nat)
    (m : Dedup.DedupDeadlineMember) :
    ((∀ e ∈ gs, e.1 ≠ r) ∧ Dedup.addToGroup gs r m = gs ++ [(r, [m])]) ∨
    (∃ pre ms post, gs = pre ++ (r, ms) :: post ∧ (∀ e ∈ pre, e.1 ≠ r) ∧
      Dedup.addToGroup gs r m = pre ++ (r, ms ++ [m]) :: post) := by
  induction gs with
  | nil => exact Or.inl ⟨by simp, rfl⟩
  | cons e rest ih =>
    rcases e with ⟨k, ms⟩
    by_cases hk : k = r
    · subst hk
      exact Or.inr ⟨[], ms, rest, by simp, by simp, by simp [Dedup.addToGroup]⟩
    · rcases ih with ⟨hnone, heq⟩ | ⟨pre, ms2, post, hsplit, hpre, heq⟩
      · refine Or.inl ⟨?_, ?_⟩
        · intro e' he'
          rcases List.mem_cons.mp he' with rfl | h
          · exact hk
          · exact hnone e' h
        · simp [Dedup.addToGroup, hk, heq]
      · refine Or.inr ⟨(k, ms) :: pre, ms2, post, by rw [hsplit]; rfl, ?_, ?_⟩
        · intro e' he'
          rcases List.mem_cons.mp he' with rfl | h
          · exact hk
          · exact hpre e' h
        · simp [Dedup.addToGroup, hk, heq]

theorem groupsInv_step (members : List Dedup.DedupDeadlineMember) (q : List Nat)
    {t : Nat} {gs : List (Nat × List Dedup.DedupDeadlineMember)}
    (hinv : GroupsInv members q t gs) {m : Dedup.DedupDeadlineMember}
    (hm : members.get? t = some m) :
    GroupsInv members q (t + 1) (Dedup.addToGroup gs (rootIdx q t) m) := by
  rcases hinv with ⟨hchar, hnd, hcomp⟩
  rcases addToGroup_char gs (rootIdx q t) m with ⟨hnone, heq⟩ |
    ⟨pre, ms, post, hsplit, hpre, heq⟩
  · rw [heq]
    refine ⟨?_, ?_, ?_⟩
    · intro e he
      rcases List.mem_append.mp he with h | h
      · rw [hchar e h, List.range_succ, List.filter_append]
        have hfalse : (rootIdx q t == e.1) = false :=
          beq_eq_false_iff_ne.mpr (fun hh => hnone e h hh.symm)
        have hnil : List.filter (fun u => rootIdx q u == e.1) [t] = [] := by
          simp [List.filter, hfalse]
        rw [hnil, List.append_nil]
      · rcases List.mem_singleton.mp h with rfl
        have hfilt0 : List.filter (fun u => rootIdx q u == rootIdx q t)
            (List.range t) = [] := by
          rw [List.filter_eq_nil_iff]
          intro u hu
          intro hbeq
          rcases hcomp u (List.mem_range.mp hu) with ⟨e', he', hkey⟩
          exact hnone e' he' (hkey.trans (beq_iff_eq.mp hbeq))
        simp only [List.range_succ, List.filter_append, hfilt0, List.nil_append]
        have hm2 : members[t]? = some m := by
          rw [← List.get?_eq_getElem?]
          exact hm
        simp [hm2]
    · rw [List.map_append, List.nodup_append]
      refine ⟨hnd, by simp, ?_⟩
      intro x hx hx2
      rcases List.mem_map.mp hx with ⟨e, he, rfl⟩
      rcases List.mem_singleton.mp (by simpa using hx2) with hxr
      exact hnone e he hxr
    · intro u hu
      by_cases hut : u < t
      · rcases hcomp u hut with ⟨e, he, hkey⟩
        exact ⟨e, List.mem_append_left _ he, hkey⟩
      · have hueq : u = t := by omega
        exact ⟨(rootIdx q t, [m]),
          List.mem_append_right _ (List.mem_singleton.mpr rfl), by rw [hueq]⟩
  · rw [heq]
    have hkeys_eq : (pre ++ (rootIdx q t, ms ++ [m]) :: post).map Prod.fst =
        gs.map Prod.fst := by
      rw [hsplit]
      simp
    have hndsplit := hnd
    rw [hsplit, List.map_append, List.map_cons, List.nodup_append] at hndsplit
    have hpostne : ∀ e ∈ post, e.1 ≠ rootIdx q t := by
      intro e he hkey
      have := (List.nodup_cons.mp hndsplit.2.1).1
      exact this (hkey ▸ List.mem_map.mpr ⟨e, he, rfl⟩)
    refine ⟨?_, by rw [hkeys_eq]; exact hnd, ?_⟩
    · intro e he
      rcases List.mem_append.mp he with hpre' | hmid
      · have hegs : e ∈ gs := by
          rw [hsplit]
          exact List.mem_append_left _ hpre'
        rw [hchar e hegs, List.range_succ, List.filter_append]
        have hfalse : (rootIdx q t == e.1) = false :=
          beq_eq_false_iff_ne.mpr (fun hh => hpre e hpre' hh.symm)
        have hnil : List.filter (fun u => rootIdx q u == e.1) [t] = [] := by
          simp [List.filter, hfalse]
        rw [hnil, List.append_nil]
      · rcases List.mem_cons.mp hmid with rfl | hpost
        · have hmsgs : (rootIdx q t, ms) ∈ gs := by
            rw [hsplit]
            exact List.mem_append_right _ (List.mem_cons_self _ _)
          have hms := hchar _ hmsgs
          simp only [List.range_succ, List.filter_append, List.map_append]
          rw [← hms]
          have hm2 : members[t]? = some m := by
            rw [← List.get?_eq_getElem?]
            exact hm
          simp [hm2]
        · have hegs : e ∈ gs := by
            rw [hsplit]
            exact List.mem_append_right _ (List.mem_cons_of_mem _ hpost)
          rw [hchar e hegs, List.range_succ, List.filter_append]
          have hfalse : (rootIdx q t == e.1) = false :=
            beq_eq_false_iff_ne.mpr (fun hh => hpostne e hpost hh.symm)
          have hnil : List.filter (fun u => rootIdx q u == e.1) [t] = [] := by
            simp [List.filter, hfalse]
          rw [hnil, List.append_nil]
    · intro u hu
      by_cases hut : u < t
      · rcases hcomp u hut with ⟨e, he, hkey⟩
        have hxk : e.1 ∈ (pre ++ (rootIdx q t, ms ++ [m]) :: post).map Prod.fst := by
          rw [hkeys_eq]
          exact List.mem_map.mpr ⟨e, he, rfl⟩
        rcases List.mem_map.mp hxk with ⟨e', he', hk'⟩
        exact ⟨e', he', hk'.trans hkey⟩
      · have hueq : u = t := by omega
        exact ⟨(rootIdx q t, ms ++ [m]),
          List.mem_append_right _ (List.mem_cons_self _ _), by rw [hueq]⟩

theorem buildParent_spec (members : List Dedup.DedupDeadlineMember) :
    (Dedup.buildParent members).length = members.length ∧
    UFOk (Dedup.buildParent members) ∧
    (∀ i j mi mj, members.get? i = some mi → members.get? j = some mj →
      i < j →
      (Dedup.evaluateDuplicateSignal mi.toDeadline mj.toDeadline).isDuplicate = true →
      sameRoot (Dedup.buildParent members) i j) := by
  have hinit : UFOk (List.range members.length) := by
    intro v hv
    rw [List.length_range] at hv
    exact ⟨v, reach_of_root (List.get?_range hv)⟩
  have h := buildParent_fold_spec members (Dedup.dupPairs members.length)
    (List.range members.length) (List.length_range _) hinit
  simp only [Dedup.buildParent]
  refine ⟨h.1, h.2.1, ?_⟩
  intro i j mi mj hmi hmj hij hdup
  have hj : j < members.length := (List.get?_eq_some.mp hmj).1
  exact h.2.2.2 (i, j) (dupPairs_mem hij hj) mi mj hmi hmj hdup

theorem collectGroups_fold (members : List Dedup.DedupDeadlineMember) (q : List Nat)
    (hqlen : q.length = members.length) (hqok : UFOk q) :
    ∀ (tail : List Dedup.DedupDeadlineMember) (t0 : Nat)
      (st : List Nat × List (Nat × List Dedup.DedupDeadlineMember)),
      (∀ o : Nat, tail.get? o = members.get? (t0 + o)) →
      t0 + tail.length = members.length →
      st.1.length = members.length → ufEquiv st.1 q →
      GroupsInv members q t0 st.2 →
      GroupsInv members q members.length
        ((List.enumFrom t0 tail).foldl
          (fun st im =>
            let f := Dedup.ufFind st.1.length st.1 im.1
            (f.1, Dedup.addToGroup st.2 f.2 im.2)) st).2 := by
  intro tail
  induction tail with
  | nil =>
    intro t0 st _ hlen _ _ hinv
    simp only [List.length_nil, Nat.add_zero] at hlen
    rw [← hlen]
    exact hinv
  | cons m ms ih =>
    intro t0 st htail hlen hstlen hstequiv hinv
    have ht0 : t0 < members.length := by
      simp only [List.length_cons] at hlen
      omega
    have hm : members.get? t0 = some m := by
      have h0 := htail 0
      simp only [List.get?] at h0
      rw [Nat.add_zero] at h0
      exact h0.symm
    have hstok : UFOk st.1 := ufEquiv_ufok hstequiv (by omega) hqok
    have ht0lt : t0 < st.1.length := by omega
    rcases ufok_reach_find ht0lt hstok with ⟨hreach, hflen, hfequiv⟩
    have hroot : (Dedup.ufFind st.1.length st.1 t0).2 = rootIdx q t0 := by
      have hq1 : Reach q t0 (Dedup.ufFind st.1.length st.1 t0).2 :=
        (hstequiv t0 _).mp hreach
      have hq2 : Reach q t0 (rootIdx q t0) := by
        have : t0 < q.length := by omega
        exact (ufok_reach_find this hqok).1
      exact reach_det hq1 hq2
    simp only [List.enumFrom_cons, List.foldl_cons]
    refine ih (t0 + 1) _ ?_ ?_ ?_ ?_ ?_
    · intro o
      have ho := htail (o + 1)
      simp only [List.get?] at ho
      have harg : t0 + (o + 1) = t0 + 1 + o := by omega
      rw [harg] at ho
      exact ho
    · simp only [List.length_cons] at hlen
      omega
    · simp only
      omega
    · simp only
      exact ufEquiv_trans hfequiv hstequiv
    · simp only
      rw [hroot]
      exact groupsInv_step members q hinv hm

theorem collectGroups_spec (members : List Dedup.DedupDeadlineMember) (q : List Nat)
    (hqlen : q.length = members.length) (hqok : UFOk q) :
    GroupsInv members q members.length (Dedup.collectGroups members q).2 := by
  have h := collectGroups_fold members q hqlen hqok members 0 (q, [])
    (fun o => by simp) (by simp) hqlen (ufEquiv_refl q)
    ⟨by simp, by simp, by omega⟩
  simp only [Dedup.collectGroups, List.enum]
  exact h

theorem rootIdx_eq_of_reach {q : List Nat} (hqok : UFOk q) {v r : Nat}
    (hv : v < q.length) (hr : Reach q v r) : rootIdx q v = r :=
  reach_det (ufok_reach_find hv hqok).1 hr

theorem buildSuggestion_some {g : List Dedup.DedupDeadlineMember}
    (h : 2 ≤ g.length) : ∃ s, Dedup.buildSuggestion g = some s := by
  unfold Dedup.buildSuggestion
  rw [if_neg (by omega)]
  cases hs : stableSortBy Dedup.compareCanonicalCandidates g with
  | nil =>
    have := (perm_stableSortBy Dedup.compareCanonicalCandidates g).length_eq
    rw [hs] at this
    simp at this
    omega
  | cons c d => exact ⟨_, rfl⟩

/-- C5: duplicate grouping is transitively closed — whenever the pairwise
duplicate signal holds for members at positions i<j and j<k of the deadline
list, all three deadlines appear among the members of one returned merge
suggestion (even if the i,k pair is not itself a duplicate); and since
singleton groups are discarded, every returned suggestion has a non-empty
duplicateIds list. -/
theorem C5_transitive_grouping :
    (∀ (deadlines : List Deadline) (i j k : Nat) (di dj dk : Deadline),
      deadlines.get? i = some di → deadlines.get? j = some dj →
      deadlines.get? k = some dk → i < j → j < k →
      (Dedup.evaluateDuplicateSignal di dj).isDuplicate = true →
      (Dedup.evaluateDuplicateSignal dj dk).isDuplicate = true →
      ∃ s ∈ Dedup.generateDeadlineMergeSuggestions deadlines,
        (∃ ma ∈ s.members, ma.toDeadline = di) ∧
        (∃ mb ∈ s.members, mb.toDeadline = dj) ∧
        (∃ mc ∈ s.members, mc.toDeadline = dk)) ∧
    (∀ (deadlines : List Deadline) (s : Dedup.DeadlineMergeSuggestion),
      s ∈ Dedup.generateDeadlineMergeSuggestions deadlines → s.duplicateIds ≠ []) := by
  constructor
  · intro deadlines i j k di dj dk hdi hdj hdk hij hjk hdup1 hdup2
    have hkn : k < deadlines.length := (List.get?_eq_some.mp hdk).1
    have hmembers : ∀ (u : Nat) (du : Deadline), deadlines.get? u = some du →
        (deadlines.map (fun d =>
          { toDeadline := d
            source := Dedup.inferDeadlineSource d : Dedup.DedupDeadlineMember })).get? u =
          some { toDeadline := du
                 source := Dedup.inferDeadlineSource du : Dedup.DedupDeadlineMember } := by
      intro u du hu
      rw [List.get?_map, hu]
      rfl
    set members := deadlines.map (fun d =>
      { toDeadline := d
        source := Dedup.inferDeadlineSource d : Dedup.DedupDeadlineMember }) with hmemdef
    have hmlen : members.length = deadlines.length := List.length_map _ _
    set q := Dedup.buildParent members with hqdef
    rcases buildParent_spec members with ⟨hqlen, hqok, hqdup⟩
    have hsr1 : sameRoot q i j :=
      hqdup i j _ _ (hmembers i di hdi) (hmembers j dj hdj) hij hdup1
    have hsr2 : sameRoot q j k :=
      hqdup j k _ _ (hmembers j dj hdj) (hmembers k dk hdk) hjk hdup2
    have hin : i < q.length := by
      rw [hqlen, hmlen]
      omega
    have hjn : j < q.length := by
      rw [hqlen, hmlen]
      omega
    have hkq : k < q.length := by
      rw [hqlen, hmlen]
      omega
    rcases hsr1 with ⟨r1, hir, hjr⟩
    rcases hsr2 with ⟨r2, hjr2, hkr⟩
    have hr12 : r1 = r2 := reach_det hjr hjr2
    have hroots : rootIdx q i = r1 ∧ rootIdx q j = r1 ∧ rootIdx q k = r1 := by
      refine ⟨rootIdx_eq_of_reach hqok hin hir, rootIdx_eq_of_reach hqok hjn hjr, ?_⟩
      rw [hr12]
      exact rootIdx_eq_of_reach hqok hkq hkr
    have hginv := collectGroups_spec members q hqlen hqok
    rcases hginv with ⟨hchar, hnd, hcomp⟩
    rcases hcomp i (by omega) with ⟨e, he, hkey⟩
    have hmemof : ∀ (u : Nat) (du : Deadline), deadlines.get? u = some du →
        rootIdx q u = e.1 →
        ({ toDeadline := du
           source := Dedup.inferDeadlineSource du : Dedup.DedupDeadlineMember }) ∈ e.2 := by
      intro u du hu hru
      rw [hchar e he]
      refine List.mem_map.mpr ⟨u, ?_, ?_⟩
      · rw [List.mem_filter]
        refine ⟨List.mem_range.mpr ?_, beq_iff_eq.mpr hru⟩
        exact (List.get?_eq_some.mp (hmembers u du hu)).1
      · rw [hmembers u du hu]
        rfl
    have hkey_i : rootIdx q i = e.1 := hkey.symm
    have hkey_j : rootIdx q j = e.1 := by
      rw [hroots.2.1, ← hroots.1]
      exact hkey_i
    have hkey_k : rootIdx q k = e.1 := by
      rw [hroots.2.2, ← hroots.1]
      exact hkey_i
    have hmi := hmemof i di hdi hkey_i
    have hmj := hmemof j dj hdj hkey_j
    have hmk := hmemof k dk hdk hkey_k
    have hglen : 2 ≤ e.2.length := by
      have hfi : i ∈ (List.range members.length).filter
          (fun u => rootIdx q u == e.1) := by
        rw [List.mem_filter]
        exact ⟨List.mem_range.mpr (by omega), beq_iff_eq.mpr hkey_i⟩
      have hfj : j ∈ (List.range members.length).filter
          (fun u => rootIdx q u == e.1) := by
        rw [List.mem_filter]
        exact ⟨List.mem_range.mpr (by omega), beq_iff_eq.mpr hkey_j⟩
      have hlenf := two_mem_le_length hfi hfj (by omega)
      rw [hchar e he, List.length_map]
      exact hlenf
    rcases buildSuggestion_some hglen with ⟨s, hsome⟩
    refine ⟨s, ?_, ?_, ?_, ?_⟩
    · simp only [Dedup.generateDeadlineMergeSuggestions]
      rw [if_neg (by omega)]
      rw [mem_stableSortBy]
      refine List.mem_filterMap.mpr ⟨e.2, ?_, hsome⟩
      exact List.mem_map.mpr ⟨e, he, rfl⟩
    · rcases suggestion_shape hsome with ⟨c, d, hsort, _, hmem, _, _, _⟩
      refine ⟨{ toDeadline := di
                source := Dedup.inferDeadlineSource di }, ?_, rfl⟩
      rw [hmem, ← hsort, mem_stableSortBy]
      exact hmi
    · rcases suggestion_shape hsome with ⟨c, d, hsort, _, hmem, _, _, _⟩
      refine ⟨{ toDeadline := dj
                source := Dedup.inferDeadlineSource dj }, ?_, rfl⟩
      rw [hmem, ← hsort, mem_stableSortBy]
      exact hmj
    · rcases suggestion_shape hsome with ⟨c, d, hsort, _, hmem, _, _, _⟩
      refine ⟨{ toDeadline := dk
                source := Dedup.inferDeadlineSource dk }, ?_, rfl⟩
      rw [hmem, ← hsort, mem_stableSortBy]
      exact hmk
  · intro deadlines s h
    rcases mem_generate h with ⟨g, hg⟩
    rcases suggestion_shape hg with ⟨c, d, hsort, _, _, hdupids, hlen, _⟩
    have hlensort := (perm_stableSortBy Dedup.compareCanonicalCandidates g).length_eq
    rw [hsort] at hlensort
    simp only [List.length_cons] at hlensort
    intro hnil
    rw [hdupids] at hnil
    have : d = [] := List.map_eq_nil.mp hnil
    rw [this] at hlensort
    simp at hlensort
    omega

/-- Witness for C5: three concrete pairwise-duplicate deadlines end up in the
members of one returned merge suggestion. -/
theorem C5_witness :
    ∃ s ∈ Dedup.generateDeadlineMergeSuggestions [fxC5a, fxC5b, fxC5c],
      (∃ ma ∈ s.members, ma.toDeadline = fxC5a) ∧
      (∃ mb ∈ s.members, mb.toDeadline = fxC5b) ∧
      (∃ mc ∈ s.members, mc.toDeadline = fxC5c) :=
  C5_transitive_grouping.1 [fxC5a, fxC5b, fxC5c] 0 1 2 fxC5a fxC5b fxC5c
    rfl rfl rfl (by decide) (by decide) (by decide) (by decide)

theorem applyUpsert_errors (st : Github.AutoImportState)
    (d : Github.ParsedReadmeDeadline) :
    (Github.applyUpsert st d).errors = st.errors := by
  simp only [Github.applyUpsert]
  split <;> rfl

theorem foldl_applyUpsert_errors (ds : List Github.ParsedReadmeDeadline) :
    ∀ st : Github.AutoImportState,
      (ds.foldl Github.applyUpsert st).errors = st.errors := by
  induction ds with
  | nil => intro st; rfl
  | cons d ds ih =>
    intro st
    rw [List.foldl_cons, ih, applyUpsert_errors]

theorem processCourseOnServer_errors (jsonParse : String → Option Github.JVal)
    (oracle : Github.ToolOracle) (now : Int) (c : String)
    (s : Github.McpServerConfig) (st : Github.AutoImportState) :
    ∃ tl, ((Github.processCourseOnServer jsonParse oracle now c s st).2).errors =
      st.errors ++ tl := by
  simp only [Github.processCourseOnServer]
  split
  · exact ⟨_, rfl⟩
  · exact ⟨[], (List.append_nil _).symm⟩
  · split
    · exact ⟨_, rfl⟩
    · exact ⟨[], (List.append_nil _).symm⟩
    · rw [foldl_applyUpsert_errors]
      exact ⟨[], (List.append_nil _).symm⟩

theorem processCourseServers_errors (jsonParse : String → Option Github.JVal)
    (oracle : Github.ToolOracle) (now : Int) (c : String) :
    ∀ (servers : List Github.McpServerConfig) (st : Github.AutoImportState),
      ∃ tl, ((Github.processCourseServers jsonParse oracle now c servers st).2).errors =
        st.errors ++ tl := by
  intro servers
  induction servers with
  | nil =>
    intro st
    exact ⟨[], (List.append_nil _).symm⟩
  | cons s rest ih =>
    intro st
    simp only [Github.processCourseServers]
    rcases processCourseOnServer_errors jsonParse oracle now c s st with ⟨tl1, h1⟩
    cases hres : Github.processCourseOnServer jsonParse oracle now c s st with
    | mk handled st2 =>
      rw [hres] at h1
      cases handled with
      | true => exact ⟨tl1, h1⟩
      | false =>
        rcases ih st2 with ⟨tl2, h2⟩
        refine ⟨tl1 ++ tl2, ?_⟩
        rw [h2, h1, List.append_assoc]

theorem processCourse_errors (jsonParse : String → Option Github.JVal)
    (oracle : Github.ToolOracle) (now : Int) (gs : List Github.McpServerConfig)
    (st : Github.AutoImportState) (c : String) :
    ∃ tl, (Github.processCourse jsonParse oracle now gs st c).errors =
      st.errors ++ tl := by
  simp only [Github.processCourse]
  rcases processCourseServers_errors jsonParse oracle now c gs st with ⟨tl1, h1⟩
  cases hres : Github.processCourseServers jsonParse oracle now c gs st with
  | mk handled st2 =>
    rw [hres] at h1
    cases handled with
    | true => exact ⟨tl1, h1⟩
    | false =>
      refine ⟨tl1 ++ [c ++ ": no matching GitHub repository/README found"], ?_⟩
      simp only
      rw [h1, List.append_assoc]

/-- C9: a repository-search or README-fetch failure for one course is caught
and recorded as a per-course `"course: message"` string in the errors list
without touching the rest of the state; a course no server handles gets a
`"course: no matching GitHub repository/README found"` entry; each course
only appends to the errors list; the per-course loop processes the remaining
course codes regardless of what an earlier course did; and the run result
surfaces exactly the errors accumulated by that loop. -/
theorem C9_per_course_error_isolation :
    (∀ (jsonParse : String → Option Github.JVal) (oracle : Github.ToolOracle)
        (now : Int) (c : String) (s : Github.McpServerConfig)
        (st : Github.AutoImportState) (e : String),
      Github.findCourseRepository jsonParse oracle s c = .error e →
      Github.processCourseOnServer jsonParse oracle now c s st =
        (false, { st with errors := st.errors ++ [c ++ ": " ++ e] })) ∧
    (∀ (jsonParse : String → Option Github.JVal) (oracle : Github.ToolOracle)
        (now : Int) (c : String) (s : Github.McpServerConfig)
        (st : Github.AutoImportState) (repo : Github.GitHubRepositoryRef) (e : String),
      Github.findCourseRepository jsonParse oracle s c = .ok (some repo) →
      Github.fetchRepositoryReadme oracle s repo = .error e →
      Github.processCourseOnServer jsonParse oracle now c s st =
        (false, { st with
                  existing := st.existing
                  repositoriesScanned := st.repositoriesScanned ++ [repo.fullName]
                  errors := st.errors ++ [c ++ ": " ++ e] })) ∧
    (∀ (jsonParse : String → Option Github.JVal) (oracle : Github.ToolOracle)
        (now : Int) (c : String) (gs : List Github.McpServerConfig)
        (st st2 : Github.AutoImportState),
      Github.processCourseServers jsonParse oracle now c gs st = (false, st2) →
      Github.processCourse jsonParse oracle now gs st c =
        { st2 with errors :=
            st2.errors ++ [c ++ ": no matching GitHub repository/README found"] }) ∧
    (∀ (jsonParse : String → Option Github.JVal) (oracle : Github.ToolOracle)
        (now : Int) (gs : List Github.McpServerConfig)
        (st : Github.AutoImportState) (c : String),
      ∃ tl, (Github.processCourse jsonParse oracle now gs st c).errors =
        st.errors ++ tl) ∧
    (∀ (jsonParse : String → Option Github.JVal) (oracle : Github.ToolOracle)
        (now : Int) (gs : List Github.McpServerConfig)
        (cs1 cs2 : List String) (c : String) (st0 : Github.AutoImportState),
      (cs1 ++ c :: cs2).foldl (Github.processCourse jsonParse oracle now gs) st0 =
        cs2.foldl (Github.processCourse jsonParse oracle now gs)
          (Github.processCourse jsonParse oracle now gs
            (cs1.foldl (Github.processCourse jsonParse oracle now gs) st0) c)) ∧
    (∀ (jsonParse : String → Option Github.JVal) (oracle : Github.ToolOracle)
        (store : Store) (tpEvents : List ImportedCalendarEvent)
        (mcpServers : List Github.McpServerConfig) (now : Int),
      (Github.extractTPCourseCodes tpEvents).isEmpty = false →
      ((mcpServers.filter (fun s => s.enabled && Github.isGithubMcpServer s)).isEmpty)
        = false →
      (Github.autoImportTpGithubDeadlines jsonParse oracle store tpEvents mcpServers
        now).1.errors =
        ((Github.extractTPCourseCodes tpEvents).foldl
          (Github.processCourse jsonParse oracle now
            (mcpServers.filter (fun s => s.enabled && Github.isGithubMcpServer s)))
          { store := store
            existing := store.getDeadlines false
            imported := 0
            updated := 0
            skipped := 0
            errors := []
            repositoriesScanned := [] }).errors) := by
  refine ⟨?_, ?_, ?_, ?_, ?_, ?_⟩
  · intro jsonParse oracle now c s st e hfind
    simp only [Github.processCourseOnServer, hfind]
  · intro jsonParse oracle now c s st repo e hfind hfetch
    simp only [Github.processCourseOnServer, hfind, hfetch]
  · intro jsonParse oracle now c gs st st2 hres
    simp only [Github.processCourse, hres]
  · intro jsonParse oracle now gs st c
    exact processCourse_errors jsonParse oracle now gs st c
  · intro jsonParse oracle now gs cs1 cs2 c st0
    rw [List.foldl_append, List.foldl_cons]
  · intro jsonParse oracle store tpEvents mcpServers now hcodes hgs
    simp only [Github.autoImportTpGithubDeadlines, hcodes, hgs, Bool.false_eq_true,
      if_false]

/-- Witness for C9: a concrete always-throwing tool oracle makes the course
handler record the per-course error string and report the course unhandled. -/
theorem C9_witness :
    Github.processCourseOnServer fxJsonParse fxOracleFail fxNow "DAT520"
      fxMcpServer fxAutoState =
      (false, { fxAutoState with
                errors := fxAutoState.errors ++ ["DAT520" ++ ": " ++ "network down"] }) :=
  C9_per_course_error_isolation.1 fxJsonParse fxOracleFail fxNow "DAT520"
    fxMcpServer fxAutoState "network down" rfl

end Companion
